import Mathlib

/-!
The file collection and transformation engine of projectson.

A shallow embedding of `collector/collector.go` (package `collector`) together with
the parts of the Go standard library it calls (`strings`, `path/filepath` on a
Unix-like system, `regexp`, `os`, `sort`), followed by theorems about the embedded
functions.

Conventions of the embedding.

* A Go `string` is a list of characters (`Str`).  Go strings are byte sequences; the
  embedding works on decoded code points, which is the view the library functions used
  here take of valid UTF-8 text.
* `os.PathSeparator` is `'/'`.
* The file system is a tree of directories and regular files, without symbolic links,
  that does not change during a call.
* Functions that can return a Go `error` return a sum type; a runtime panic is `none`.
* Messages printed with `fmt.Printf` are not part of the embedding.
-/

namespace Projectson

/-- A Go string, as its sequence of characters. -/
abbrev Str := List Char

/-! ## Package `strings` -/

/-- Go `strings.HasPrefix(s, pre)`. -/
def HasPrefix (s pre : Str) : Bool := pre.isPrefixOf s

/-- Go `strings.HasSuffix(s, suf)`. -/
def HasSuffix (s suf : Str) : Bool := suf.reverse.isPrefixOf s.reverse

/-- Go `strings.TrimSuffix(s, suf)`. -/
def TrimSuffix (s suf : Str) : Str :=
  if HasSuffix s suf then s.take (s.length - suf.length) else s

/-- Go `strings.TrimPrefix(s, pre)`. -/
def TrimPrefix (s pre : Str) : Str :=
  if HasPrefix s pre then s.drop pre.length else s

/-- Go `strings.ContainsRune(s, r)`. -/
def ContainsRune (s : Str) (r : Char) : Bool := s.any (fun c => c == r)

/-- Go `strings.Cut(s, sep)`: the text before and after the leftmost occurrence of
`sep` in `s`, or `none` when `sep` does not occur. -/
def Cut (sep : Str) : Str → Option (Str × Str)
  | [] => if sep.isPrefixOf [] then some ([], []) else none
  | c :: t =>
    if sep.isPrefixOf (c :: t) then some ([], (c :: t).drop sep.length)
    else match Cut sep t with
      | some (a, b) => some (c :: a, b)
      | none => none

/-- Go `strings.Contains(s, sub)`. -/
def Contains (s sub : Str) : Bool := (Cut sub s).isSome

/-- Go `strings.SplitN(s, sep, 2)` for a non-empty separator: `[s]` when `sep` does not
occur in `s`, otherwise the text before and the text after its first occurrence. -/
def SplitN2 (s sep : Str) : List Str :=
  match Cut sep s with
  | some (a, b) => [a, b]
  | none => [s]

/-- Go `unicode.IsSpace`: the characters with the Unicode White_Space property. -/
def isSpace (c : Char) : Bool :=
  c = '\t' || c = '\n' || c.toNat = 0x0B || c.toNat = 0x0C || c = '\r' || c = ' ' ||
  c.toNat = 0x85 || c.toNat = 0xA0 || c.toNat = 0x1680 ||
  (0x2000 ≤ c.toNat && c.toNat ≤ 0x200A) ||
  c.toNat = 0x2028 || c.toNat = 0x2029 || c.toNat = 0x202F || c.toNat = 0x205F ||
  c.toNat = 0x3000

/-- Remove the longest suffix of characters satisfying `p`. -/
def dropWhileEnd (p : Char → Bool) (s : Str) : Str :=
  (s.reverse.dropWhile p).reverse

/-- Go `strings.TrimSpace(s)`. -/
def TrimSpace (s : Str) : Str := dropWhileEnd isSpace (s.dropWhile isSpace)

/-- The case ranges of Go's package `unicode` for the characters above ASCII that
`unicode.ToLower` changes (the simple lower-case mappings of the Unicode Character
Database, version 15.0): a range is given by its first and last code point, the stride
between the code points it maps, and the image of the first one; the images keep the
distance to the first. -/
def lowerRanges : List (Nat × Nat × Nat × Nat) :=
  [(0xC0, 0xD6, 1, 0xE0), (0xD8, 0xDE, 1, 0xF8), (0x100, 0x12E, 2, 0x101),
   (0x130, 0x130, 1, 0x69), (0x132, 0x136, 2, 0x133), (0x139, 0x147, 2, 0x13A),
   (0x14A, 0x176, 2, 0x14B), (0x178, 0x178, 1, 0xFF), (0x179, 0x17D, 2, 0x17A),
   (0x181, 0x181, 1, 0x253), (0x182, 0x184, 2, 0x183), (0x186, 0x186, 1, 0x254),
   (0x187, 0x187, 1, 0x188), (0x189, 0x18A, 1, 0x256), (0x18B, 0x18B, 1, 0x18C),
   (0x18E, 0x18E, 1, 0x1DD), (0x18F, 0x18F, 1, 0x259), (0x190, 0x190, 1, 0x25B),
   (0x191, 0x191, 1, 0x192), (0x193, 0x193, 1, 0x260), (0x194, 0x194, 1, 0x263),
   (0x196, 0x196, 1, 0x269), (0x197, 0x197, 1, 0x268), (0x198, 0x198, 1, 0x199),
   (0x19C, 0x19C, 1, 0x26F), (0x19D, 0x19D, 1, 0x272), (0x19F, 0x19F, 1, 0x275),
   (0x1A0, 0x1A4, 2, 0x1A1), (0x1A6, 0x1A6, 1, 0x280), (0x1A7, 0x1A7, 1, 0x1A8),
   (0x1A9, 0x1A9, 1, 0x283), (0x1AC, 0x1AC, 1, 0x1AD), (0x1AE, 0x1AE, 1, 0x288),
   (0x1AF, 0x1AF, 1, 0x1B0), (0x1B1, 0x1B2, 1, 0x28A), (0x1B3, 0x1B5, 2, 0x1B4),
   (0x1B7, 0x1B7, 1, 0x292), (0x1B8, 0x1B8, 1, 0x1B9), (0x1BC, 0x1BC, 1, 0x1BD),
   (0x1C4, 0x1C4, 1, 0x1C6), (0x1C5, 0x1C5, 1, 0x1C6), (0x1C7, 0x1C7, 1, 0x1C9),
   (0x1C8, 0x1C8, 1, 0x1C9), (0x1CA, 0x1CA, 1, 0x1CC), (0x1CB, 0x1DB, 2, 0x1CC),
   (0x1DE, 0x1EE, 2, 0x1DF), (0x1F1, 0x1F1, 1, 0x1F3), (0x1F2, 0x1F4, 2, 0x1F3),
   (0x1F6, 0x1F6, 1, 0x195), (0x1F7, 0x1F7, 1, 0x1BF), (0x1F8, 0x21E, 2, 0x1F9),
   (0x220, 0x220, 1, 0x19E), (0x222, 0x232, 2, 0x223), (0x23A, 0x23A, 1, 0x2C65),
   (0x23B, 0x23B, 1, 0x23C), (0x23D, 0x23D, 1, 0x19A), (0x23E, 0x23E, 1, 0x2C66),
   (0x241, 0x241, 1, 0x242), (0x243, 0x243, 1, 0x180), (0x244, 0x244, 1, 0x289),
   (0x245, 0x245, 1, 0x28C), (0x246, 0x24E, 2, 0x247), (0x370, 0x372, 2, 0x371),
   (0x376, 0x376, 1, 0x377), (0x37F, 0x37F, 1, 0x3F3), (0x386, 0x386, 1, 0x3AC),
   (0x388, 0x38A, 1, 0x3AD), (0x38C, 0x38C, 1, 0x3CC), (0x38E, 0x38F, 1, 0x3CD),
   (0x391, 0x3A1, 1, 0x3B1), (0x3A3, 0x3AB, 1, 0x3C3), (0x3CF, 0x3CF, 1, 0x3D7),
   (0x3D8, 0x3EE, 2, 0x3D9), (0x3F4, 0x3F4, 1, 0x3B8), (0x3F7, 0x3F7, 1, 0x3F8),
   (0x3F9, 0x3F9, 1, 0x3F2), (0x3FA, 0x3FA, 1, 0x3FB), (0x3FD, 0x3FF, 1, 0x37B),
   (0x400, 0x40F, 1, 0x450), (0x410, 0x42F, 1, 0x430), (0x460, 0x480, 2, 0x461),
   (0x48A, 0x4BE, 2, 0x48B), (0x4C0, 0x4C0, 1, 0x4CF), (0x4C1, 0x4CD, 2, 0x4C2),
   (0x4D0, 0x52E, 2, 0x4D1), (0x531, 0x556, 1, 0x561), (0x10A0, 0x10C5, 1, 0x2D00),
   (0x10C7, 0x10C7, 1, 0x2D27), (0x10CD, 0x10CD, 1, 0x2D2D), (0x13A0, 0x13EF, 1, 0xAB70),
   (0x13F0, 0x13F5, 1, 0x13F8), (0x1C90, 0x1CBA, 1, 0x10D0), (0x1CBD, 0x1CBF, 1, 0x10FD),
   (0x1E00, 0x1E94, 2, 0x1E01), (0x1E9E, 0x1E9E, 1, 0xDF), (0x1EA0, 0x1EFE, 2, 0x1EA1),
   (0x1F08, 0x1F0F, 1, 0x1F00), (0x1F18, 0x1F1D, 1, 0x1F10), (0x1F28, 0x1F2F, 1, 0x1F20),
   (0x1F38, 0x1F3F, 1, 0x1F30), (0x1F48, 0x1F4D, 1, 0x1F40), (0x1F59, 0x1F5F, 2, 0x1F51),
   (0x1F68, 0x1F6F, 1, 0x1F60), (0x1F88, 0x1F8F, 1, 0x1F80), (0x1F98, 0x1F9F, 1, 0x1F90),
   (0x1FA8, 0x1FAF, 1, 0x1FA0), (0x1FB8, 0x1FB9, 1, 0x1FB0), (0x1FBA, 0x1FBB, 1, 0x1F70),
   (0x1FBC, 0x1FBC, 1, 0x1FB3), (0x1FC8, 0x1FCB, 1, 0x1F72), (0x1FCC, 0x1FCC, 1, 0x1FC3),
   (0x1FD8, 0x1FD9, 1, 0x1FD0), (0x1FDA, 0x1FDB, 1, 0x1F76), (0x1FE8, 0x1FE9, 1, 0x1FE0),
   (0x1FEA, 0x1FEB, 1, 0x1F7A), (0x1FEC, 0x1FEC, 1, 0x1FE5), (0x1FF8, 0x1FF9, 1, 0x1F78),
   (0x1FFA, 0x1FFB, 1, 0x1F7C), (0x1FFC, 0x1FFC, 1, 0x1FF3), (0x2126, 0x2126, 1, 0x3C9),
   (0x212A, 0x212A, 1, 0x6B), (0x212B, 0x212B, 1, 0xE5), (0x2132, 0x2132, 1, 0x214E),
   (0x2160, 0x216F, 1, 0x2170), (0x2183, 0x2183, 1, 0x2184), (0x24B6, 0x24CF, 1, 0x24D0),
   (0x2C00, 0x2C2F, 1, 0x2C30), (0x2C60, 0x2C60, 1, 0x2C61), (0x2C62, 0x2C62, 1, 0x26B),
   (0x2C63, 0x2C63, 1, 0x1D7D), (0x2C64, 0x2C64, 1, 0x27D), (0x2C67, 0x2C6B, 2, 0x2C68),
   (0x2C6D, 0x2C6D, 1, 0x251), (0x2C6E, 0x2C6E, 1, 0x271), (0x2C6F, 0x2C6F, 1, 0x250),
   (0x2C70, 0x2C70, 1, 0x252), (0x2C72, 0x2C72, 1, 0x2C73), (0x2C75, 0x2C75, 1, 0x2C76),
   (0x2C7E, 0x2C7F, 1, 0x23F), (0x2C80, 0x2CE2, 2, 0x2C81), (0x2CEB, 0x2CED, 2, 0x2CEC),
   (0x2CF2, 0x2CF2, 1, 0x2CF3), (0xA640, 0xA66C, 2, 0xA641), (0xA680, 0xA69A, 2, 0xA681),
   (0xA722, 0xA72E, 2, 0xA723), (0xA732, 0xA76E, 2, 0xA733), (0xA779, 0xA77B, 2, 0xA77A),
   (0xA77D, 0xA77D, 1, 0x1D79), (0xA77E, 0xA786, 2, 0xA77F), (0xA78B, 0xA78B, 1, 0xA78C),
   (0xA78D, 0xA78D, 1, 0x265), (0xA790, 0xA792, 2, 0xA791), (0xA796, 0xA7A8, 2, 0xA797),
   (0xA7AA, 0xA7AA, 1, 0x266), (0xA7AB, 0xA7AB, 1, 0x25C), (0xA7AC, 0xA7AC, 1, 0x261),
   (0xA7AD, 0xA7AD, 1, 0x26C), (0xA7AE, 0xA7AE, 1, 0x26A), (0xA7B0, 0xA7B0, 1, 0x29E),
   (0xA7B1, 0xA7B1, 1, 0x287), (0xA7B2, 0xA7B2, 1, 0x29D), (0xA7B3, 0xA7B3, 1, 0xAB53),
   (0xA7B4, 0xA7C2, 2, 0xA7B5), (0xA7C4, 0xA7C4, 1, 0xA794), (0xA7C5, 0xA7C5, 1, 0x282),
   (0xA7C6, 0xA7C6, 1, 0x1D8E), (0xA7C7, 0xA7C9, 2, 0xA7C8), (0xA7D0, 0xA7D0, 1, 0xA7D1),
   (0xA7D6, 0xA7D8, 2, 0xA7D7), (0xA7F5, 0xA7F5, 1, 0xA7F6), (0xFF21, 0xFF3A, 1, 0xFF41),
   (0x10400, 0x10427, 1, 0x10428), (0x104B0, 0x104D3, 1, 0x104D8),
   (0x10570, 0x1057A, 1, 0x10597), (0x1057C, 0x1058A, 1, 0x105A3),
   (0x1058C, 0x10592, 1, 0x105B3), (0x10594, 0x10595, 1, 0x105BB),
   (0x10C80, 0x10CB2, 1, 0x10CC0), (0x118A0, 0x118BF, 1, 0x118C0),
   (0x16E40, 0x16E5F, 1, 0x16E60), (0x1E900, 0x1E921, 1, 0x1E922)]

/-- Go `unicode.ToLower` on a code point: the letters `A`..`Z` of ASCII are moved to
`a`..`z` and the other ASCII characters are kept; a character above ASCII is looked up
in the case ranges. -/
def toLowerNat (n : Nat) : Nat :=
  if n ≤ 0x7F then
    if 0x41 ≤ n ∧ n ≤ 0x5A then n + 0x20 else n
  else
    match lowerRanges.find?
        (fun r => decide (r.1 ≤ n) && decide (n ≤ r.2.1) && (n - r.1) % r.2.2.1 == 0) with
    | some r => r.2.2.2 + (n - r.1)
    | none => n

/-- Go `unicode.ToLower(r)`. -/
def toLowerRune (c : Char) : Char := Char.ofNat (toLowerNat c.toNat)

/-- Go `strings.ToLower(s)`. -/
def ToLower (s : Str) : Str := s.map toLowerRune

/-- Go's `<` on strings: lexicographic order of the encoded bytes, which for UTF-8 is
the lexicographic order of the code points. -/
def strLess : Str → Str → Bool
  | [], [] => false
  | [], _ :: _ => true
  | _ :: _, [] => false
  | a :: s, b :: t => if a.toNat < b.toNat then true else if b.toNat < a.toNat then false
      else strLess s t

/-! ## Package `path/filepath` (Unix) -/

/-- The elements of a path: the maximal runs of characters between separators. -/
def splitSlash : Str → List Str
  | [] => [[]]
  | c :: t =>
    if c = '/' then [] :: splitSlash t
    else match splitSlash t with
      | [] => [[c]]
      | h :: r => (c :: h) :: r

/-- Join path elements with `/`. -/
def joinSlash : List Str → Str
  | [] => []
  | [e] => e
  | e :: r => e ++ '/' :: joinSlash r

/-- One step of `filepath.Clean`: process the next element against the stack of
elements kept so far (top first). -/
def cleanStep (rooted : Bool) (stack : List Str) (elem : Str) : List Str :=
  if elem = [] ∨ elem = ['.'] then stack
  else if elem = ['.', '.'] then
    match stack with
    | top :: r => if top = ['.', '.'] then elem :: stack else r
    | [] => if rooted then [] else [elem]
  else elem :: stack

/-- Go `filepath.Clean(path)`: collapse repeated separators, drop `.` elements, resolve
inner `..` elements against the element before them, drop `..` at the start of a rooted
path; the empty result is `.`. -/
def Clean (path : Str) : Str :=
  if path = [] then ['.']
  else
    let rooted := path.head? = some '/'
    let out := joinSlash ((splitSlash path).foldl (cleanStep rooted) []).reverse
    if rooted then '/' :: out
    else if out = [] then ['.'] else out

/-- Go `filepath.Join(a, b)`: empty elements are ignored, the rest is joined with the
separator and cleaned; the join of two empty strings is empty. -/
def Join (a b : Str) : Str :=
  if a ≠ [] then Clean (a ++ '/' :: b)
  else if b ≠ [] then Clean b
  else []

/-- Go `filepath.Base(path)`: the last element of the path, after trailing separators
are removed; `.` for the empty path and `/` for a path of separators only. -/
def Base (path : Str) : Str :=
  if path = [] then ['.']
  else
    let p := dropWhileEnd (fun c => c = '/') path
    let b := (p.reverse.takeWhile (fun c => c ≠ '/')).reverse
    if b = [] then ['/'] else b

/-- Scan of `filepath.Ext` from the end of the path: `acc` is the text already passed. -/
def extScan (acc : Str) : Str → Str
  | [] => []
  | c :: r =>
    if c = '/' then []
    else if c = '.' then c :: acc
    else extScan (c :: acc) r

/-- Go `filepath.Ext(path)`: the suffix beginning at the final dot in the final element
of the path, empty if there is no dot. -/
def Ext (path : Str) : Str := extScan [] path.reverse

/-- The elements compared by `filepath.Rel` in a cleaned path: the empty path has none,
the root has the single empty element before its separator. -/
def relElems (p : Str) : List Str :=
  if p = [] then [] else if p = ['/'] then [[]] else splitSlash p

/-- The loop of `filepath.Rel`: skip the leading elements the two paths share, then go
up once for every base element left and down the remaining target elements.  The
result is `none` when the first differing base element is `..`. -/
def relWalk : List Str → List Str → Option Str
  | [], ts => some (joinSlash ts)
  | b :: bs, [] => some (joinSlash ((b :: bs).map (fun _ => ['.', '.'])))
  | b :: bs, t :: ts =>
    if b = t then relWalk bs ts
    else if b = ['.', '.'] then none
    else some (joinSlash ((b :: bs).map (fun _ => ['.', '.']) ++ (t :: ts)))

/-- Go `filepath.Rel(basepath, targpath)`; `none` is the error that the target cannot be
made relative to the base. -/
def Rel (basepath targpath : Str) : Option Str :=
  let base := Clean basepath
  let targ := Clean targpath
  if targ = base then some ['.']
  else
    let base := if base = ['.'] then [] else base
    if (base.head? = some '/') ≠ (targ.head? = some '/') then none
    else relWalk (relElems base) (relElems targ)

/-! ### `filepath.Match` -/

/-- Scanning loop of `scanChunk`: the text up to the next `*` that is outside a
bracket expression, and the rest of the pattern from that `*` on. -/
def scanChunkLoop (inrange : Bool) : Str → Str × Str
  | [] => ([], [])
  | c :: t =>
    if c = '\\' then
      match t with
      | [] => ([c], [])
      | d :: t' => let r := scanChunkLoop inrange t'; (c :: d :: r.1, r.2)
    else if c = '[' then let r := scanChunkLoop true t; (c :: r.1, r.2)
    else if c = ']' then let r := scanChunkLoop false t; (c :: r.1, r.2)
    else if c = '*' then
      if inrange then let r := scanChunkLoop inrange t; (c :: r.1, r.2)
      else ([], c :: t)
    else let r := scanChunkLoop inrange t; (c :: r.1, r.2)

/-- Go `scanChunk(pattern)`: whether the pattern starts with stars, the chunk after
them, and the remaining pattern. -/
def scanChunk (pattern : Str) : Bool × Str × Str :=
  let p := pattern.dropWhile (fun c => c = '*')
  let r := scanChunkLoop false p
  (p.length < pattern.length, r.1, r.2)

/-- Go `getEsc(chunk)`: one possibly escaped character of a bracket expression and the
rest of the chunk; `none` is `ErrBadPattern`. -/
def getEsc (chunk : Str) : Option (Char × Str) :=
  match chunk with
  | [] => none
  | c :: t =>
    if c = '-' ∨ c = ']' then none
    else if c = '\\' then
      match t with
      | [] => none
      | d :: t' => if t' = [] then none else some (d, t')
    else if t = [] then none else some (c, t)

/-- Result of matching one chunk: malformed pattern, no match, or the rest of the name. -/
inductive ChunkResult where
  | bad
  | fail
  | ok (rest : Str)
  deriving DecidableEq, Repr

/-- The range loop of a bracket expression in `matchChunk`: `r` is the character of the
name being tested, `hit` whether a range contained it so far, `nrange` the number of
ranges read.  Returns the final `hit` and the chunk after the closing bracket. -/
def classLoop (r : Option Char) : Nat → Bool → Nat → Str → Option (Bool × Str)
  | 0, _, _, _ => none
  | fuel + 1, hit, nrange, chunk =>
    match chunk with
    | ']' :: rest' =>
      if nrange > 0 then some (hit, rest')
      else none
    | _ =>
      match getEsc chunk with
      | none => none
      | some (lo, c1) =>
        match c1 with
        | '-' :: c2 =>
          match getEsc c2 with
          | none => none
          | some (hi, c3) =>
            classLoop r fuel
              (hit || (match r with
                | some x => decide (lo.toNat ≤ x.toNat ∧ x.toNat ≤ hi.toNat)
                | none => false)) (nrange + 1) c3
        | _ =>
          classLoop r fuel
            (hit || (match r with
              | some x => decide (lo.toNat ≤ x.toNat ∧ x.toNat ≤ lo.toNat)
              | none => false)) (nrange + 1) c1

/-- The loop of Go `matchChunk(chunk, s)`.  After the match has failed the loop keeps
reading the chunk to check that it is well formed, without reading the name. -/
def matchChunkLoop : Nat → Bool → Str → Str → ChunkResult
  | 0, _, _, _ => .bad
  | fuel + 1, failed, chunk, s =>
    match chunk with
    | [] => if failed then .fail else .ok s
    | c :: ch =>
      let failed := failed || s.isEmpty
      if c = '[' then
        let r := if failed then none else s.head?
        let s := if failed then s else s.tail
        let negated := ch.head? = some '^'
        let ch := if negated then ch.tail else ch
        match classLoop r (ch.length + 1) false 0 ch with
        | none => .bad
        | some (hit, ch') =>
          matchChunkLoop fuel (failed || (hit == decide negated)) ch' s
      else if c = '?' then
        matchChunkLoop fuel (failed || s.head? = some '/') ch (if failed then s else s.tail)
      else if c = '\\' then
        match ch with
        | [] => .bad
        | d :: ch' =>
          matchChunkLoop fuel (failed || s.head? ≠ some d) ch' (if failed then s else s.tail)
      else
        matchChunkLoop fuel (failed || s.head? ≠ some c) ch (if failed then s else s.tail)

/-- Go `matchChunk(chunk, s)`. -/
def matchChunk (chunk s : Str) : ChunkResult :=
  matchChunkLoop (chunk.length + 1) false chunk s

/-- The loop of `Match` that, after a star, retries the chunk at every later position
of the name up to the next separator.  `last` says that the chunk is the last one of
the pattern, `k` continues with the rest of the pattern. -/
def matchStar (chunk : Str) (last : Bool) (k : Str → Option Bool) : Str → Option Bool
  | [] => some false
  | c :: s =>
    if c = '/' then some false
    else match matchChunk chunk s with
      | .ok t => if last ∧ t ≠ [] then matchStar chunk last k s else k t
      | .bad => none
      | .fail => matchStar chunk last k s

/-- The chunk loop of Go `filepath.Match`. -/
def matchLoop : Nat → Str → Str → Option Bool
  | 0, _, _ => none
  | fuel + 1, pattern, name =>
    if pattern = [] then some (decide (name = []))
    else
      let sc := scanChunk pattern
      let star := sc.1
      let chunk := sc.2.1
      let rest := sc.2.2
      if star ∧ chunk = [] then some (!ContainsRune name '/')
      else
        let afterFail : Option Bool :=
          if star then matchStar chunk (decide (rest = [])) (fun t => matchLoop fuel rest t) name
          else some false
        match matchChunk chunk name with
        | .ok t => if t = [] ∨ rest ≠ [] then matchLoop fuel rest t else afterFail
        | .bad => none
        | .fail => afterFail

/-- Go `filepath.Match(pattern, name)`: `some b` is the result `b`, `none` is the error
`ErrBadPattern` that the scan of a malformed pattern returns together with `false`.
Releases of Go differ in whether a malformed rest of the pattern is still reported
after the match has failed; the boolean result is `false` either way. -/
def Match (pattern name : Str) : Option Bool :=
  matchLoop (pattern.length + 1) pattern name

/-- The boolean a caller gets from `matched, _ := filepath.Match(pattern, name)`. -/
def matchIgnoringErr (pattern name : Str) : Bool := (Match pattern name).getD false

/-! ## Package `regexp`

A compiled regular expression is represented by the two operations the collector uses.
Patterns supplied by the configuration are compiled by the library (`RegexpLib`), whose
behaviour is a parameter.  The two patterns the collector builds itself are given by
their syntax tree and matched by a backtracking matcher: Go returns the leftmost match,
and among those the one a backtracking search finds first. -/

/-- A compiled regular expression (`*regexp.Regexp`), as the behaviour of its methods. -/
structure Regexp where
  /-- Method `MatchString(s)`: does some substring of `s` match. -/
  MatchString : Str → Bool
  /-- Method `ReplaceAllString(src, repl)`. -/
  ReplaceAllString : Str → Str → Str

/-- The regular-expression library: `regexp.Compile`, with `none` for a compile error. -/
structure RegexpLib where
  Compile : Str → Option Regexp

/-- Syntax trees of regular expressions: the empty expression, one character of a class,
concatenation, alternation (left preferred), and a greedy or lazy star of a class. -/
inductive RegexpSyntax where
  | empty
  | chr (p : Char → Bool)
  | seq (a b : RegexpSyntax)
  | alt (a b : RegexpSyntax)
  | star (greedy : Bool) (p : Char → Bool)

/-- Backtracking search for a star of class `p` followed by the continuation `k`: the
greedy star tries the longest repetition first, the lazy star the shortest. -/
def starLoop (greedy : Bool) (p : Char → Bool) (k : Str → Option Str) : Str → Option Str
  | [] => k []
  | c :: t =>
    if greedy then
      if p c then
        match starLoop greedy p k t with
        | some r => some r
        | none => k (c :: t)
      else k (c :: t)
    else
      match k (c :: t) with
      | some r => some r
      | none => if p c then starLoop greedy p k t else none

/-- Backtracking match of `re` at the start of the input, followed by the continuation
`k`; the result is what `k` returns for the first successful way to match. -/
def matchHere : RegexpSyntax → Str → (Str → Option Str) → Option Str
  | .empty, s, k => k s
  | .chr p, s, k =>
    match s with
    | [] => none
    | c :: t => if p c then k t else none
  | .seq a b, s, k => matchHere a s (fun s' => matchHere b s' k)
  | .alt a b, s, k =>
    match matchHere a s k with
    | some r => some r
    | none => matchHere b s k
  | .star g p, s, k => starLoop g p k s

/-- The leftmost match of `re` in the input: the text before the match and the text
after it. -/
def findMatch (re : RegexpSyntax) : Str → Option (Str × Str)
  | [] =>
    match matchHere re [] some with
    | some r => some ([], r)
    | none => none
  | c :: t =>
    match matchHere re (c :: t) some with
    | some r => some ([], r)
    | none =>
      match findMatch re t with
      | some (a, b) => some (c :: a, b)
      | none => none

/-- The loop of Go `(*Regexp).replaceAll`.  `s` is the text from the search position on,
`gap` the text between the end of the last match and the search position, `atZero`
says that the search position is the start of the source. -/
def replaceAllLoop (re : RegexpSyntax) (repl : Str) : Nat → Bool → Str → Str → Str
  | 0, _, gap, s => gap ++ s
  | fuel + 1, atZero, gap, s =>
    match findMatch re s with
    | none => gap ++ s
    | some (pre, rest) =>
      let matched := s.length - pre.length - rest.length
      let out := gap ++ pre ++
        (if 0 < gap.length + pre.length + matched ∨ (atZero = true ∧ pre = []) then repl else [])
      match s with
      | [] => out
      | c :: t =>
        if pre.length + matched = 0 then out ++ replaceAllLoop re repl fuel false [c] t
        else out ++ replaceAllLoop re repl fuel false [] rest

/-- The compiled form of a syntax tree. -/
def Regexp.ofSyntax (re : RegexpSyntax) : Regexp where
  MatchString := fun s => (findMatch re s).isSome
  ReplaceAllString := fun src repl => replaceAllLoop re repl (src.length + 1) true [] src

/-- The literal text `w` as a regular expression. -/
def RegexpSyntax.lit : Str → RegexpSyntax
  | [] => .empty
  | c :: w => .seq (.chr (fun x => x = c)) (RegexpSyntax.lit w)

/-- The class `\s` of Go regular expressions: tab, newline, form feed, carriage return
and space. -/
def isReSpace (c : Char) : Bool :=
  c = '\t' || c = '\n' || c.toNat = 0x0C || c = '\r' || c = ' '

/-- The expression `\s+` compiled by `regexp.MustCompile` in `processFile`. -/
def spaceRe : Regexp :=
  Regexp.ofSyntax (.seq (.chr isReSpace) (.star true isReSpace))

/-- The expression `(?s)` + `QuoteMeta(start)` + `.*?` + `QuoteMeta(end)` compiled in
`ApplyContentExclusions`: the quoted delimiters are literal text, and with the flag `s`
the dot matches every character.  Compiling this pattern does not fail. -/
def delimitersRe (start stop : Str) : Regexp :=
  Regexp.ofSyntax
    (.seq (RegexpSyntax.lit start) (.seq (.star false (fun _ => true)) (RegexpSyntax.lit stop)))

/-! ## Go maps -/

/-- A Go `map[string]V`: a list of bindings with at most one binding for a key.  The
order of the list has no meaning. -/
abbrev GoMap (V : Type) := List (Str × V)

/-- The map access `v, ok := m[k]`. -/
def GoMap.get? {V : Type} (m : GoMap V) (k : Str) : Option V :=
  match m with
  | [] => none
  | (k', v) :: r => if k' = k then some v else GoMap.get? r k

/-- The map assignment `m[k] = v`. -/
def GoMap.set {V : Type} (m : GoMap V) (k : Str) (v : V) : GoMap V :=
  (k, v) :: m.filter (fun b => b.1 ≠ k)

/-- The keys of a map. -/
def GoMap.keys {V : Type} (m : GoMap V) : List Str := m.map Prod.fst

/-- The values of a map. -/
def GoMap.values {V : Type} (m : GoMap V) : List V := m.map Prod.snd

/-! ## Package `config` -/

/-- Go `config.ContentExclusionRule`; `RuleType` is the field `Type`. -/
structure ContentExclusionRule where
  RuleType : Str
  FilePattern : Str
  Start : Str
  End : Str
  Pattern : Str
  deriving DecidableEq, Repr

/-- Go `config.Config`. -/
structure Config where
  Root : Str
  Include : List Str
  Formats : List Str
  Output : Str
  ExcludePatterns : List Str
  ContentExclusions : List ContentExclusionRule
  deriving DecidableEq, Repr

/-- Go `config.ParsedIncludeEntry`. -/
structure ParsedIncludeEntry where
  Path : Str
  Mode : Str
  IsDirOnlyFiles : Bool
  deriving DecidableEq, Repr

/-! ## Package `os`: the file system -/

/-- Errors of the system calls used by the collector. -/
inductive OsError where
  | ENOENT
  | ENOTDIR
  | EACCES
  | EISDIR
  deriving DecidableEq, Repr

/-- A result with a Go `error`. -/
inductive Result (α : Type) where
  | ok (v : α)
  | error (e : OsError)
  deriving DecidableEq, Repr

/-- A node of the file tree: a regular file with its content, or a directory with its
named entries in the order of a directory listing.  A file that is not `readable`
cannot be opened; a directory that is not `accessible` can be neither listed nor
searched. -/
inductive FsNode where
  | file (content : Str) (readable : Bool)
  | dir (accessible : Bool) (entries : List (Str × FsNode))

/-- The file system seen by the process: the tree below `/` and the elements of the
working directory. -/
structure FileSystem where
  root : FsNode
  cwd : List Str

/-- Is the node a directory. -/
def FsNode.IsDir : FsNode → Bool
  | .file _ _ => false
  | .dir _ _ => true

/-- The number of bytes of a text in UTF-8. -/
def utf8Len (s : Str) : Nat := (s.map (fun c => c.utf8Size)).sum

/-- The size reported for a node: the byte length of a file. -/
def FsNode.Size : FsNode → Nat
  | .file content _ => utf8Len content
  | .dir _ _ => 0

/-- The entry of a directory with the given name. -/
def lookupEntry (name : Str) : List (Str × FsNode) → Option FsNode
  | [] => none
  | (n, node) :: r => if n = name then some node else lookupEntry name r

/-- Resolve one path element.  The state is the node reached so far followed by its
ancestors. -/
def descend (stack : List FsNode) (elem : Str) : Result (List FsNode) :=
  match stack with
  | [] => .error .ENOENT
  | cur :: anc =>
    match cur with
    | .file _ _ => .error .ENOTDIR
    | .dir accessible entries =>
      if accessible = false then .error .EACCES
      else if elem = [] ∨ elem = ['.'] then .ok stack
      else if elem = ['.', '.'] then .ok (if anc.isEmpty then stack else anc)
      else match lookupEntry elem entries with
        | none => .error .ENOENT
        | some n => .ok (n :: cur :: anc)

/-- Resolve the elements of a path one after the other. -/
def descendAll : List FsNode → List Str → Result (List FsNode)
  | stack, [] => .ok stack
  | stack, e :: es =>
    match descend stack e with
    | .ok stack' => descendAll stack' es
    | .error err => .error err

/-- The node a path names, from the root for a rooted path and from the working
directory otherwise. -/
def resolve (fs : FileSystem) (path : Str) : Result FsNode :=
  if path = [] then .error .ENOENT
  else
    let start : Result (List FsNode) :=
      if path.head? = some '/' then .ok [fs.root] else descendAll [fs.root] fs.cwd
    match start with
    | .error err => .error err
    | .ok stack =>
      match descendAll stack (splitSlash path) with
      | .error err => .error err
      | .ok [] => .error .ENOENT
      | .ok (n :: _) => .ok n

/-- Go `os.FileInfo` and `fs.DirEntry`, as far as the collector reads them. -/
structure FileInfo where
  Name : Str
  IsDir : Bool
  Size : Nat
  node : FsNode

/-- Go `os.Stat(path)`. -/
def Stat (fs : FileSystem) (path : Str) : Result FileInfo :=
  match resolve fs path with
  | .error err => .error err
  | .ok n => .ok { Name := Base path, IsDir := n.IsDir, Size := n.Size, node := n }

/-- Go `os.IsNotExist(err)`. -/
def IsNotExist (e : OsError) : Bool := decide (e = .ENOENT)

/-- The listing of a directory node.  The entries of a directory node are kept in the
order in which `os.ReadDir` returns them (sorted by file name). -/
def readDirNode (node : FsNode) : Result (List FileInfo) :=
  match node with
  | .file _ _ => .error .ENOTDIR
  | .dir accessible entries =>
    if accessible = false then .error .EACCES
    else .ok (entries.map (fun e =>
      ({ Name := e.1, IsDir := e.2.IsDir, Size := e.2.Size, node := e.2 } : FileInfo)))

/-- Go `os.ReadDir(path)`. -/
def ReadDir (fs : FileSystem) (path : Str) : Result (List FileInfo) :=
  match resolve fs path with
  | .error err => .error err
  | .ok n => readDirNode n

/-- Go `os.ReadFile(path)`. -/
def ReadFile (fs : FileSystem) (path : Str) : Result Str :=
  match resolve fs path with
  | .error err => .error err
  | .ok (.dir _ _) => .error .EISDIR
  | .ok (.file content readable) => if readable then .ok content else .error .EACCES

/-! ### `filepath.WalkDir` -/

/-- What a `fs.WalkDirFunc` returns: nil, `filepath.SkipDir`, or another error. -/
inductive WalkErr where
  | nil
  | SkipDir
  | err (e : OsError)
  deriving DecidableEq, Repr

mutual
/-- Go `walkDir(path, d, fn)` of `path/filepath`, on the node that `path` names: the
listing `os.ReadDir(path)` is the list of entries of the node, and the node of the entry
`name` is the one that `Join path name` names.  The state `σ` is what the callback
updates. -/
def walkDir {σ : Type} (fn : Str → Option FileInfo → Option OsError → σ → σ × WalkErr)
    (path : Str) (name : Str) (node : FsNode) (s : σ) : σ × WalkErr :=
  match node with
  | .file content readable =>
    fn path (some { Name := name, IsDir := false, Size := (FsNode.file content readable).Size,
                    node := .file content readable }) none s
  | .dir accessible entries =>
    let d : FileInfo :=
      { Name := name, IsDir := true, Size := 0, node := .dir accessible entries }
    match fn path (some d) none s with
    | (s1, .SkipDir) => (s1, .nil)
    | (s1, .err e) => (s1, .err e)
    | (s1, .nil) =>
      if accessible = false then
        match fn path (some d) (some .EACCES) s1 with
        | (s2, .SkipDir) => (s2, .nil)
        | (s2, .err e) => (s2, .err e)
        | (s2, .nil) => (s2, .nil)
      else walkEntries fn path entries s1
/-- The loop of `walkDir` over the entries of a directory: a `SkipDir` from an entry
ends the loop, another error ends the walk. -/
def walkEntries {σ : Type} (fn : Str → Option FileInfo → Option OsError → σ → σ × WalkErr)
    (path : Str) (entries : List (Str × FsNode)) (s : σ) : σ × WalkErr :=
  match entries with
  | [] => (s, .nil)
  | (name, n) :: rest =>
    match walkDir fn (Join path name) name n s with
    | (s1, .nil) => walkEntries fn path rest s1
    | (s1, .SkipDir) => (s1, .nil)
    | (s1, .err e) => (s1, .err e)
end

/-- Go `filepath.WalkDir(root, fn)`: the final state and the error returned. -/
def WalkDir {σ : Type} (fs : FileSystem) (root : Str)
    (fn : Str → Option FileInfo → Option OsError → σ → σ × WalkErr) (s : σ) :
    σ × Option OsError :=
  let r : σ × WalkErr :=
    match resolve fs root with
    | .error e => fn root none (some e) s
    | .ok n => walkDir fn root (Base root) n s
  match r with
  | (s1, .nil) => (s1, none)
  | (s1, .SkipDir) => (s1, none)
  | (s1, .err e) => (s1, some e)

/-! ## Package `collector` -/

/-- Go `collector.FileEntry`. -/
structure FileEntry where
  Path : Str
  SourcePath : Str
  Mode : Str
  Size : Nat
  Format : Str
  OriginalPath : Str
  deriving DecidableEq, Repr

/-- Go `collector.ProcessedFile`, a `map[string]string`. -/
abbrev ProcessedFile := GoMap Str

/-- Go `collector.FileCollector`. -/
structure FileCollector where
  Config : Config
  excludeRegexps : GoMap Regexp

/-- The order in which a `range` loop visits the values of a map: some rearrangement of
them, not fixed by the language. -/
structure MapOrder where
  iter : List FileEntry → List FileEntry
  iter_perm : ∀ l, (iter l).Perm l

/-- The slice expression `s[lo:hi]` of a string; `none` is the runtime panic for bounds
out of range. -/
def sliceStr (s : Str) (lo hi : Nat) : Option Str :=
  if lo ≤ hi ∧ hi ≤ s.length then some ((s.take hi).drop lo) else none

/-- The body of the loop of `NewFileCollector` for one pattern: the map of compiled
expressions after it, or `none` when the slice expression panics. -/
def compileExclude (lib : RegexpLib) (regexps : GoMap Regexp) (pattern : Str) :
    Option (GoMap Regexp) :=
  if HasPrefix pattern ['/'] && HasSuffix pattern ['/'] then
    match sliceStr pattern 1 (pattern.length - 1) with
    | none => none
    | some regexStr =>
      match lib.Compile regexStr with
      | none => some regexps
      | some compiledRegexp => some (regexps.set pattern compiledRegexp)
  else some regexps

/-- The loop of `NewFileCollector` over the exclusion patterns. -/
def compileExcludes (lib : RegexpLib) : GoMap Regexp → List Str → Option (GoMap Regexp)
  | regexps, [] => some regexps
  | regexps, pattern :: rest =>
    match compileExclude lib regexps pattern with
    | none => none
    | some regexps' => compileExcludes lib regexps' rest

/-- Go `NewFileCollector(cfg)`: the collector and the (always nil) error; `none` when
the function panics. -/
def NewFileCollector (lib : RegexpLib) (cfg : Config) :
    Option (FileCollector × Option OsError) :=
  match compileExcludes lib [] cfg.ExcludePatterns with
  | none => none
  | some regexps => some ({ Config := cfg, excludeRegexps := regexps }, none)

/-- The body of the loop of `parseInclude` for an entry that is not blank; `none` is the
runtime panic of an index expression `parts[i]` out of range. -/
def parseIncludeEntry (entry : Str) : Option ParsedIncludeEntry :=
  let flat := HasSuffix entry ['/', '*']
  let path := if flat then TrimSuffix entry ['/', '*'] else entry
  if Contains path [':'] then
    let parts := SplitN2 path [':']
    match parts[0]?, parts[1]? with
    | some p0, some p1 =>
      let param := TrimSpace (ToLower p1)
      some { Path := TrimSpace p0,
             Mode := if param = "path".toList ∨ param = "content".toList then param
                     else "both".toList,
             IsDirOnlyFiles := flat }
    | _, _ => none
  else
    some { Path := path, Mode := "both".toList, IsDirOnlyFiles := flat }

/-- The loop of `parseInclude` over the include entries; `parsed` is the slice built so
far. -/
def parseIncludeLoop : List Str → List ParsedIncludeEntry → Option (List ParsedIncludeEntry)
  | [], parsed => some parsed
  | entry :: rest, parsed =>
    if TrimSpace entry = [] then parseIncludeLoop rest parsed
    else
      match parseIncludeEntry entry with
      | none => none
      | some d => parseIncludeLoop rest (parsed ++ [d])

/-- Go `(*FileCollector).parseInclude()`; `none` is a runtime panic. -/
def parseInclude (fc : FileCollector) : Option (List ParsedIncludeEntry) :=
  parseIncludeLoop fc.Config.Include []

/-- The loop of `isExcluded` over the exclusion patterns. -/
def excludedLoop (fc : FileCollector) (baseName relPath path : Str) : List Str → Bool
  | [] => false
  | pattern :: rest =>
    match fc.excludeRegexps.get? pattern with
    | some compiledRegexp =>
      if compiledRegexp.MatchString baseName || compiledRegexp.MatchString relPath ||
          compiledRegexp.MatchString path then true
      else excludedLoop fc baseName relPath path rest
    | none =>
      if !HasPrefix pattern ['/'] then
        if matchIgnoringErr pattern baseName then true
        else if (ContainsRune pattern '/' || ContainsRune pattern '/') &&
            matchIgnoringErr pattern relPath then true
        else excludedLoop fc baseName relPath path rest
      else excludedLoop fc baseName relPath path rest

/-- Go `(*FileCollector).isExcluded(path, isDir)`: the result and the error. -/
def isExcluded (fc : FileCollector) (path : Str) (_isDir : Bool) : Bool × Option OsError :=
  let baseName := Base path
  let relPath :=
    match Rel fc.Config.Root path with
    | some r => r
    | none => baseName
  (excludedLoop fc baseName relPath path fc.Config.ExcludePatterns, none)

/-- Go `(*FileCollector).matchFormat(filename)`. -/
def matchFormat (fc : FileCollector) (filename : Str) : Bool :=
  let ext := ToLower (TrimPrefix (Ext filename) ['.'])
  fc.Config.Formats.any (fun format => decide (ext = format))

/-- The `FileEntry` that `PreviewFiles` builds for the file at `filePath` whose name is
`name` and size is `size`, found by the directive `incl`.  A failure of
`filepath.Rel` is ignored by the source and leaves the relative path empty.  The call
`Info()` on a directory entry, which gives the size, does not fail in this file
system. -/
def mkEntry (fc : FileCollector) (rootBase : Str) (incl : ParsedIncludeEntry)
    (filePath name : Str) (size : Nat) : FileEntry :=
  let relPath := (Rel fc.Config.Root filePath).getD []
  { Path := Join rootBase relPath,
    OriginalPath := relPath,
    SourcePath := filePath,
    Mode := incl.Mode,
    Size := size,
    Format := ToLower (TrimPrefix (Ext name) ['.']) }

/-- The body of the loop over the entries of a directory for a flat directive (`dir/*`).
`found` lists the assignments `foundFiles[entry.Path] = entry` made so far, oldest
first. -/
def flatStep (fc : FileCollector) (rootBase : Str) (incl : ParsedIncludeEntry)
    (absIncludePath : Str) (found : List FileEntry) (file : FileInfo) : List FileEntry :=
  if !file.IsDir then
    let filePath := Join absIncludePath file.Name
    let excluded := (isExcluded fc filePath false).1
    if !excluded && matchFormat fc file.Name then
      found ++ [mkEntry fc rootBase incl filePath file.Name file.Size]
    else found
  else found

/-- The callback that `PreviewFiles` passes to `filepath.WalkDir` for a recursive
directive.  `found` lists the assignments to `foundFiles` made so far, oldest first.
`WalkDir` passes no entry (`d = none`) only together with an error. -/
def walkFn (fc : FileCollector) (rootBase : Str) (incl : ParsedIncludeEntry)
    (currentPath : Str) (d : Option FileInfo) (errWalk : Option OsError)
    (found : List FileEntry) : List FileEntry × WalkErr :=
  match errWalk with
  | some e => (found, .err e)
  | none =>
    match d with
    | none => (found, .nil)
    | some d =>
      let excluded := (isExcluded fc currentPath d.IsDir).1
      if excluded then
        if d.IsDir then (found, .SkipDir) else (found, .nil)
      else if !d.IsDir && matchFormat fc d.Name then
        (found ++ [mkEntry fc rootBase incl currentPath d.Name d.Size], .nil)
      else (found, .nil)

/-- The body of the loop of `PreviewFiles` for one directive: the assignments to
`foundFiles` it makes, oldest first, or the error with which `PreviewFiles` returns. -/
def scanInclude (fc : FileCollector) (fs : FileSystem) (rootBase : Str)
    (incl : ParsedIncludeEntry) : Result (List FileEntry) :=
  let absIncludePath := Join fc.Config.Root incl.Path
  match Stat fs absIncludePath with
  | .error e => if IsNotExist e then .ok [] else .error e
  | .ok info =>
    if incl.IsDirOnlyFiles && info.IsDir then
      match ReadDir fs absIncludePath with
      | .error e => .error e
      | .ok files => .ok (files.foldl (flatStep fc rootBase incl absIncludePath) [])
    else if info.IsDir then
      match WalkDir fs absIncludePath (walkFn fc rootBase incl) [] with
      | (_, some e) => .error e
      | (found, none) => .ok found
    else
      let excluded := (isExcluded fc absIncludePath false).1
      if !excluded && matchFormat fc info.Name then
        .ok [mkEntry fc rootBase incl absIncludePath info.Name info.Size]
      else .ok []

/-- Apply the assignments `foundFiles[entry.Path] = entry` in order. -/
def recordAll (foundFiles : GoMap FileEntry) (entries : List FileEntry) : GoMap FileEntry :=
  entries.foldl (fun m e => m.set e.Path e) foundFiles

/-- The loop of `PreviewFiles` over the directives. -/
def scanAll (fc : FileCollector) (fs : FileSystem) (rootBase : Str) :
    List ParsedIncludeEntry → GoMap FileEntry → Result (GoMap FileEntry)
  | [], foundFiles => .ok foundFiles
  | incl :: rest, foundFiles =>
    match scanInclude fc fs rootBase incl with
    | .error e => .error e
    | .ok entries => scanAll fc fs rootBase rest (recordAll foundFiles entries)

/-- Insert an entry into a list sorted by `Path`. -/
def insertByPath (e : FileEntry) : List FileEntry → List FileEntry
  | [] => [e]
  | x :: r => if strLess e.Path x.Path then e :: x :: r else x :: insertByPath e r

/-- Go `sort.Slice(entries, less)` with `less` comparing the `Path` fields.  The result
of `sort.Slice` is determined only up to the order of entries with equal `Path`. -/
def sortByPath (entries : List FileEntry) : List FileEntry :=
  entries.foldr insertByPath []

/-- Go `(*FileCollector).PreviewFiles()`: the entries or the error; `none` is a runtime
panic. -/
def PreviewFiles (fc : FileCollector) (fs : FileSystem) (ord : MapOrder) :
    Option (Result (List FileEntry)) :=
  let rootBase := Base fc.Config.Root
  match parseInclude fc with
  | none => none
  | some includes =>
    match scanAll fc fs rootBase includes [] with
    | .error e => some (.error e)
    | .ok foundFiles => some (.ok (sortByPath (ord.iter foundFiles.values)))

/-- The body of the loop of `ApplyContentExclusions` for one rule. -/
def applyExclusion (lib : RegexpLib) (fileExt : Str) (modifiedContent : Str)
    (exclusion : ContentExclusionRule) : Str :=
  let dotFileExt := '.' :: fileExt
  let applies :=
    if exclusion.FilePattern = ['*'] then true
    else matchIgnoringErr exclusion.FilePattern fileExt ||
      matchIgnoringErr exclusion.FilePattern dotFileExt
  if !applies then modifiedContent
  else if exclusion.RuleType = "delimiters".toList then
    if exclusion.Start ≠ [] ∧ exclusion.End ≠ [] then
      (delimitersRe exclusion.Start exclusion.End).ReplaceAllString modifiedContent []
    else modifiedContent
  else if exclusion.RuleType = "regexp".toList then
    if exclusion.Pattern ≠ [] then
      let pattern :=
        if !HasPrefix exclusion.Pattern "(?s)".toList &&
            !Contains exclusion.Pattern ['\\', 'A'] && !Contains exclusion.Pattern ['\\', 'z'] then
          if !HasPrefix exclusion.Pattern "(?i)".toList &&
              !HasPrefix exclusion.Pattern "(?m)".toList then
            "(?s)".toList ++ exclusion.Pattern
          else exclusion.Pattern
        else exclusion.Pattern
      match lib.Compile pattern with
      | none => modifiedContent
      | some re => re.ReplaceAllString modifiedContent []
    else modifiedContent
  else modifiedContent

/-- Go `(*FileCollector).ApplyContentExclusions(content, fileExt)`: the content and the
error. -/
def ApplyContentExclusions (lib : RegexpLib) (fc : FileCollector) (content fileExt : Str) :
    Str × Option OsError :=
  if fc.Config.ContentExclusions.length = 0 then (content, none)
  else (fc.Config.ContentExclusions.foldl (applyExclusion lib fileExt) content, none)

/-- The whitespace normalisation at the end of `processFile`: every match of `\s+` is
replaced by one space and the result is trimmed. -/
def normalizeContent (content : Str) : Str :=
  let compressedContent := spaceRe.ReplaceAllString content [' ']
  TrimSpace compressedContent

/-- The end of `processFile`: a record without keys is returned as nil. -/
def finishRecord (result : ProcessedFile) : Result (Option ProcessedFile) :=
  if result.length = 0 then .ok none else .ok (some result)

/-- Go `(*FileCollector).processFile(entry)`: the record (`none` for a nil record) or
the error. -/
def processFile (lib : RegexpLib) (fs : FileSystem) (fc : FileCollector) (entry : FileEntry) :
    Result (Option ProcessedFile) :=
  let result : ProcessedFile := []
  let result :=
    if entry.Mode = "path".toList ∨ entry.Mode = "both".toList then
      result.set "path".toList entry.Path
    else result
  if entry.Mode = "content".toList ∨ entry.Mode = "both".toList then
    match ReadFile fs entry.SourcePath with
    | .error e => .error e
    | .ok contentBytes =>
      match ApplyContentExclusions lib fc contentBytes entry.Format with
      | (_, some e) => .error e
      | (content, none) =>
        finishRecord (result.set "content".toList (normalizeContent content))
  else finishRecord result


/-! ## Package `encoding/json`

The output document is a struct with one field, a slice of `map[string]string`.  A nil
slice is encoded as `null`, a slice that is not nil as an array, a map as an object with
its keys in sorted order. -/

/-- A JSON value, as far as the output document needs it. -/
inductive Json where
  | null
  | str (s : Str)
  | arr (items : List Json)
  | obj (members : List (Str × Json))

/-- The escape sequence of one character inside a JSON string, as `json.Marshal` writes
it (with HTML escaping): the quote and the backslash behind a backslash, the short forms
for backspace, form feed, newline, carriage return and tab, `\u00XX` for the other
control characters and for `<`, `>`, `&`, and ` `, ` ` for the two separators. -/
def escapeRune (c : Char) : Str :=
  if c = '\\' ∨ c = Char.ofNat 34 then ['\\', c]
  else if c.toNat = 8 then ['\\', 'b']
  else if c.toNat = 12 then ['\\', 'f']
  else if c = '\n' then ['\\', 'n']
  else if c = '\r' then ['\\', 'r']
  else if c = '\t' then ['\\', 't']
  else if c.toNat < 0x20 ∨ c = '<' ∨ c = '>' ∨ c = '&' then
    ['\\', 'u', '0', '0', Nat.digitChar (c.toNat / 16), Nat.digitChar (c.toNat % 16)]
  else if c.toNat = 0x2028 ∨ c.toNat = 0x2029 then
    ['\\', 'u', '2', '0', '2', Nat.digitChar (c.toNat % 16)]
  else [c]

/-- A JSON string literal. -/
def quoteJson (s : Str) : Str := Char.ofNat 34 :: (s.flatMap escapeRune ++ [Char.ofNat 34])

/-- The indentation at the given depth, with the indent `"  "` of the call
`json.MarshalIndent(outputData, "", "  ")`. -/
def indentAt (depth : Nat) : Str := List.replicate (2 * depth) ' '

mutual
/-- The indented text of a JSON value at the given depth: an empty array is `[]`, an
empty object `{}`, and every element or member of another one is on a line of its own. -/
def Json.render (depth : Nat) : Json → Str
  | .null => "null".toList
  | .str s => quoteJson s
  | .arr items =>
    if items.isEmpty then ['[', ']']
    else '[' :: '\n' :: (Json.renderItems (depth + 1) items ++ '\n' :: (indentAt depth ++ [']']))
  | .obj members =>
    if members.isEmpty then ['{', '}']
    else '{' :: '\n' :: (Json.renderMembers (depth + 1) members ++
      '\n' :: (indentAt depth ++ ['}']))
/-- The elements of an array, each on its line, separated by commas. -/
def Json.renderItems (depth : Nat) : List Json → Str
  | [] => []
  | x :: rest =>
    indentAt depth ++ Json.render depth x ++
      (if rest.isEmpty then [] else ',' :: '\n' :: Json.renderItems depth rest)
/-- The members of an object, each on its line, separated by commas. -/
def Json.renderMembers (depth : Nat) : List (Str × Json) → Str
  | [] => []
  | (k, v) :: rest =>
    indentAt depth ++ quoteJson k ++ ':' :: ' ' :: Json.render depth v ++
      (if rest.isEmpty then [] else ',' :: '\n' :: Json.renderMembers depth rest)
end

/-- Insert a member into a list of members sorted by key. -/
def insertMember (m : Str × Json) : List (Str × Json) → List (Str × Json)
  | [] => [m]
  | x :: r => if strLess m.1 x.1 then m :: x :: r else x :: insertMember m r

/-- The JSON value of a record (`map[string]string`): an object with the keys sorted. -/
def recordJson (record : ProcessedFile) : Json :=
  .obj ((record.map (fun kv => (kv.1, Json.str kv.2))).foldr insertMember [])

/-- Go `collector.OutputJSON`.  The slice `ProjectFiles` is `none` when it is nil. -/
structure OutputJSON where
  ProjectFiles : Option (List ProcessedFile)

/-- The JSON value of the output document. -/
def outputJson (outputData : OutputJSON) : Json :=
  .obj [("project_files".toList,
    match outputData.ProjectFiles with
    | none => .null
    | some files => .arr (files.map recordJson))]

/-- Go `json.MarshalIndent(outputData, "", "  ")`, which does not fail for this type. -/
def MarshalIndent (outputData : OutputJSON) : Str := (outputJson outputData).render 0

/-- Go `append(s, x)` on a slice that may be nil: the result is never nil. -/
def appendSlice {α : Type} (s : Option (List α)) (x : α) : Option (List α) :=
  some (s.getD [] ++ [x])

/-- Go `len(s)` on a slice that may be nil. -/
def lenSlice {α : Type} (s : Option (List α)) : Nat := (s.getD []).length

/-! ## Package `utils` -/

/-- The text of `fmt.Sprintf("%.1f", float64(num)/float64(den))` for a power of two
`den`: the quotient is exact in binary floating point (for `num` below 2^53), and the
decimal is rounded to one digit, a tie to the even digit. -/
def formatFixed1 (num den : Nat) : Str :=
  let q := 10 * num / den
  let r := 10 * num % den
  let tenths := if den < 2 * r ∨ (2 * r = den ∧ q % 2 = 1) then q + 1 else q
  Nat.toDigits 10 (tenths / 10) ++ '.' :: Nat.toDigits 10 (tenths % 10)

/-- Go `utils.FormatSize(sizeBytes)`. -/
def FormatSize (sizeBytes : Nat) : Str :=
  if sizeBytes < 1024 then Nat.toDigits 10 sizeBytes ++ " B".toList
  else if sizeBytes < 1024 ^ 2 then formatFixed1 sizeBytes 1024 ++ " KB".toList
  else if sizeBytes < 1024 ^ 3 then formatFixed1 sizeBytes (1024 ^ 2) ++ " MB".toList
  else formatFixed1 sizeBytes (1024 ^ 3) ++ " GB".toList

/-! ## `Run`: the worker pool

`Run` starts `min(runtime.NumCPU(), len(filesToProcess))` workers that take the entries
from a channel filled in the order of `filesToProcess`.  A worker calls `processFile`,
which changes no shared state, and then enters the mutex once or twice: to append the
record, and to count the file and report the progress.  An execution of the pool is a
sequence of such steps, each by one worker; the schedule names the worker of each
step. -/

/-- Where a worker stands: about to receive from the channel, holding the result of
`processFile` for an entry, past the append of the record of an entry, or past the end of
its loop. -/
inductive WorkerState where
  | idle
  | holding (entry : FileEntry)
  | appended (entry : FileEntry)
  | done
  deriving DecidableEq, Repr

/-- The state shared by the workers of `Run`: the entries left in the channel `jobs`, the
workers, the slice `allProcessedFiles` (`none` when nil), the counter `processedCount`,
the calls of the progress callback made so far, and the entries counted so far, in the
order in which they were counted. -/
structure PoolState where
  jobs : List FileEntry
  workers : List WorkerState
  allProcessedFiles : Option (List ProcessedFile)
  processedCount : Nat
  calls : List (Nat × Nat)
  reported : List FileEntry

/-- The critical section that counts a file and reports the progress:
`processedCount++` and, unless the callback is nil,
`progressCallback(processedCount, len(filesToProcess))`.  The worker `w` returns to the
top of its loop. -/
def reportProgress (progressCallback : Bool) (total : Nat) (w : Nat) (entry : FileEntry)
    (st : PoolState) : PoolState :=
  let processedCount := st.processedCount + 1
  { st with
    workers := st.workers.set w .idle
    processedCount := processedCount
    calls := if progressCallback then st.calls ++ [(processedCount, total)] else st.calls
    reported := st.reported ++ [entry] }

/-- One step of the worker `w`; `none` when there is no such worker or its loop has
ended.  A worker at the top of its loop receives the next entry, or ends when the closed
channel is empty.  A worker holding a record appends it; a worker holding an error or a
nil record, or past the append, counts the file and reports the progress. -/
def workerStep (lib : RegexpLib) (fs : FileSystem) (fc : FileCollector)
    (progressCallback : Bool) (total : Nat) (w : Nat) (st : PoolState) : Option PoolState :=
  match st.workers[w]? with
  | none => none
  | some .done => none
  | some .idle =>
    match st.jobs with
    | [] => some { st with workers := st.workers.set w .done }
    | entry :: rest => some { st with jobs := rest, workers := st.workers.set w (.holding entry) }
  | some (.holding entry) =>
    match processFile lib fs fc entry with
    | .error _ => some (reportProgress progressCallback total w entry st)
    | .ok none => some (reportProgress progressCallback total w entry st)
    | .ok (some processed) =>
      some { st with
        workers := st.workers.set w (.appended entry)
        allProcessedFiles := appendSlice st.allProcessedFiles processed }
  | some (.appended entry) => some (reportProgress progressCallback total w entry st)

/-- Run the steps of a schedule one after the other; `none` when a step is not
possible. -/
def runPool (lib : RegexpLib) (fs : FileSystem) (fc : FileCollector)
    (progressCallback : Bool) (total : Nat) : List Nat → PoolState → Option PoolState
  | [], st => some st
  | w :: rest, st =>
    match workerStep lib fs fc progressCallback total w st with
    | none => none
    | some st' => runPool lib fs fc progressCallback total rest st'

/-- Has the loop of the worker ended. -/
def WorkerState.isDone : WorkerState → Bool
  | .done => true
  | _ => false

/-- What the process `Run` executes in: the number of processors, which is positive, and
the result of `os.WriteFile(path, data, 0644)` (nil when the file is written). -/
structure Host where
  NumCPU : Nat
  NumCPU_pos : 0 < NumCPU
  WriteFile : Str → Str → Option OsError

/-- What `Run` returns (count, size and error) and what it does: the calls of the
progress callback in order, the entries the workers counted in order, and the path and
data of the file written. -/
structure RunResult where
  count : Nat
  size : Str
  err : Option OsError
  calls : List (Nat × Nat)
  reported : List FileEntry
  written : Option (Str × Str)
  deriving DecidableEq, Repr

/-- The end of `Run`, shared by its two branches: marshal `outputData`, write the file,
return the count and the size. -/
def writeOutput (fc : FileCollector) (host : Host) (outputData : OutputJSON)
    (calls : List (Nat × Nat)) (reported : List FileEntry) : RunResult :=
  let jsonBytes := MarshalIndent outputData
  match host.WriteFile fc.Config.Output jsonBytes with
  | some e =>
    { count := 0, size := [], err := some e, calls := calls, reported := reported,
      written := none }
  | none =>
    { count := lenSlice outputData.ProjectFiles, size := FormatSize (utf8Len jsonBytes),
      err := none, calls := calls, reported := reported,
      written := some (fc.Config.Output, jsonBytes) }

/-- Go `(*FileCollector).Run(progressCallback)`, for the schedule `sched` of the worker
pool; `progressCallback` tells whether the callback is not nil.  The result is `none`
when `PreviewFiles` panics and when the schedule is not an execution of the pool up to
the return of `wg.Wait()` (a step is not possible, or a worker has not ended). -/
def Run (lib : RegexpLib) (fs : FileSystem) (fc : FileCollector) (ord : MapOrder)
    (host : Host) (sched : List Nat) (progressCallback : Bool) : Option RunResult :=
  match PreviewFiles fc fs ord with
  | none => none
  | some (.error e) =>
    some { count := 0, size := [], err := some e, calls := [], reported := [],
           written := none }
  | some (.ok filesToProcess) =>
    if filesToProcess.length = 0 then
      some (writeOutput fc host { ProjectFiles := some [] }
        (if progressCallback then [(0, 0)] else []) [])
    else
      let numWorkers := min host.NumCPU filesToProcess.length
      let start : PoolState :=
        { jobs := filesToProcess
          workers := List.replicate numWorkers .idle
          allProcessedFiles := none
          processedCount := 0
          calls := []
          reported := [] }
      match runPool lib fs fc progressCallback filesToProcess.length sched start with
      | none => none
      | some st =>
        if st.workers.all WorkerState.isDone then
          some (writeOutput fc host { ProjectFiles := st.allProcessedFiles }
            (if progressCallback then
              st.calls ++ [(filesToProcess.length, filesToProcess.length)]
            else st.calls) st.reported)
        else none


/-! # Specification-side definitions and sample data -/

/-- A pattern written between two slashes. -/
def isRegexPattern (pattern : Str) : Bool :=
  HasPrefix pattern ['/'] && HasSuffix pattern ['/']

/-- The text between the two slashes of a pattern. -/
def regexBody (pattern : Str) : Str := (pattern.take (pattern.length - 1)).drop 1

/-- One exclusion pattern applied to a path, as `isExcluded` does it: a pattern between
slashes whose body compiles is matched as a regular expression against the base name, the
path relative to the root and the full path; a pattern between slashes that does not
compile, and any other pattern that begins with a slash, matches nothing; every other
pattern is a glob matched against the base name and, if it contains a separator,
against the relative path. -/
def patternExcludes (lib : RegexpLib) (root path pattern : Str) : Bool :=
  if isRegexPattern pattern then
    match lib.Compile (regexBody pattern) with
    | some re =>
      re.MatchString (Base path) ||
        (match Rel root path with
          | some r => re.MatchString r
          | none => false) ||
        re.MatchString path
    | none => false
  else if HasPrefix pattern ['/'] then false
  else
    matchIgnoringErr pattern (Base path) ||
      (ContainsRune pattern '/' &&
        (match Rel root path with
          | some r => matchIgnoringErr pattern r
          | none => false))

/-- One exclusion pattern applied to a path, with every pattern that is not a compiled
regular expression or a regular expression that failed to compile taken as a glob. -/
def patternExcludesAnyGlob (lib : RegexpLib) (root path pattern : Str) : Bool :=
  if isRegexPattern pattern then
    match lib.Compile (regexBody pattern) with
    | some re =>
      re.MatchString (Base path) ||
        (match Rel root path with
          | some r => re.MatchString r
          | none => false) ||
        re.MatchString path
    | none => false
  else
    matchIgnoringErr pattern (Base path) ||
      (ContainsRune pattern '/' &&
        (match Rel root path with
          | some r => matchIgnoringErr pattern r
          | none => false))

/-- The compiled expressions recorded for the patterns `seen`. -/
def CompiledFor (lib : RegexpLib) (regexps : GoMap Regexp) (seen : List Str) : Prop :=
  ∀ p, GoMap.get? regexps p =
    if p ∈ seen ∧ isRegexPattern p = true then lib.Compile (regexBody p) else none

/-- A regular-expression library for the closed examples: it compiles a pattern made of
letters, digits and underscores, which stands for itself, to its literal syntax tree,
and knows no other pattern. -/
def literalLib : RegexpLib where
  Compile := fun pattern =>
    if pattern.all (fun c => c.isAlphanum || c = '_') then
      some (Regexp.ofSyntax (RegexpSyntax.lit pattern))
    else none

/-- The order of a map iteration that visits the bindings as they are stored. -/
def storedOrder : MapOrder where
  iter := fun l => l
  iter_perm := fun l => List.Perm.refl l

/-- A configuration with root `/proj`, the given include entries and exclusion
patterns, and the formats `go` and `js`. -/
def sampleConfig (includes excludes : List Str) : Config where
  Root := "/proj".toList
  Include := includes
  Formats := ["go".toList, "js".toList]
  Output := "out.json".toList
  ExcludePatterns := excludes
  ContentExclusions := []

/-- The collector that `NewFileCollector` returns for a configuration without patterns
written between slashes. -/
def plainCollector (cfg : Config) : FileCollector where
  Config := cfg
  excludeRegexps := []

/-- A configuration whose root is the root directory `/`, with the single exclusion
pattern `/*`. -/
def rootConfig : Config where
  Root := "/".toList
  Include := [".".toList]
  Formats := ["go".toList]
  Output := "out.json".toList
  ExcludePatterns := ["/*".toList]
  ContentExclusions := []

/-- A configuration with a regular expression, a glob on names and a glob on paths. -/
def excludeConfig : Config :=
  sampleConfig [] ["/test_data/".toList, "*.log".toList, "src/gen/*".toList]

/-- The collector that `NewFileCollector` returns for `excludeConfig` with `literalLib`. -/
def excludeCollector : FileCollector where
  Config := excludeConfig
  excludeRegexps :=
    [("/test_data/".toList, Regexp.ofSyntax (RegexpSyntax.lit "test_data".toList))]

/-- The mode of an include entry as the specification describes it: after a trailing
`/*` is removed, the text after the first `:` is trimmed and lower-cased and names the
mode if it is `path` or `content`; in every other case the mode is `both`. -/
def claimedMode (entry : Str) : Str :=
  match Cut [':'] (TrimSuffix entry ['/', '*']) with
  | none => "both".toList
  | some (_, after) =>
    let token := ToLower (TrimSpace after)
    if token = "path".toList then "path".toList
    else if token = "content".toList then "content".toList
    else "both".toList

/-- Replace every maximal run of the characters space, tab, newline, form feed and
carriage return by one space; `inRun` says that the character before was one of them. -/
def collapseRuns : Bool → Str → Str
  | _, [] => []
  | inRun, c :: t =>
    if isReSpace c then
      if inRun then collapseRuns true t else ' ' :: collapseRuns true t
    else c :: collapseRuns false t

/-- The whitespace normalisation of the specification: replace every maximal run of
space, tab, newline, form feed and carriage return by one space, then trim. -/
def collapse (s : Str) : Str := TrimSpace (collapseRuns false s)

/-- The scan of the specification for a delimiter rule: find the leftmost `start`, then
the nearest `stop` that begins at or after the end of that `start`; delete from the
start through the stop and continue after it; when no `start`, or no `stop` after it,
is left, keep the rest.  `fuel` bounds the number of deleted spans. -/
def deleteSpans (start stop : Str) : Nat → Str → Str
  | 0, s => s
  | fuel + 1, s =>
    match Cut start s with
    | none => s
    | some (before, afterStart) =>
      match Cut stop afterStart with
      | none => s
      | some (_, rest) => before ++ deleteSpans start stop fuel rest

/-- The delimiter scan on a whole content. -/
def scanDelimiters (start stop content : Str) : Str :=
  deleteSpans start stop (content.length + 1) content

/-- A collector whose only content-exclusion rule is the delimiter rule for `<style>`
blocks in `vue` files. -/
def styleCollector : FileCollector where
  Config :=
    { Root := "/proj".toList
      Include := []
      Formats := ["vue".toList]
      Output := "out.json".toList
      ExcludePatterns := []
      ContentExclusions :=
        [{ RuleType := "delimiters".toList
           FilePattern := "*.vue".toList
           Start := "<style>".toList
           End := "</style>".toList
           Pattern := [] }] }
  excludeRegexps := []

/-- A file tree: `/proj` with `node_modules/pkg/file.js`, `src/main.go` and
`src/sub/a.go`. -/
def sampleFs : FileSystem where
  cwd := []
  root := .dir true
    [("proj".toList, .dir true
      [("node_modules".toList, .dir true
          [("pkg".toList, .dir true [("file.js".toList, .file "x".toList true)])]),
       ("src".toList, .dir true
          [("main.go".toList, .file "package  main\n\nfunc main() {}\n".toList true),
           ("sub".toList, .dir true [("a.go".toList, .file "package sub".toList true)])])])]

/-- The entry of `src/main.go` in `sampleFs`, in mode `both`. -/
def mainGoEntry : FileEntry where
  Path := "proj/src/main.go".toList
  SourcePath := "/proj/src/main.go".toList
  Mode := "both".toList
  Size := 30
  Format := "go".toList
  OriginalPath := "src/main.go".toList

/-- The entry of `src/sub/a.go` in `sampleFs`, in the given mode. -/
def subGoEntry (mode : Str) : FileEntry where
  Path := "proj/src/sub/a.go".toList
  SourcePath := "/proj/src/sub/a.go".toList
  Mode := mode
  Size := 11
  Format := "go".toList
  OriginalPath := "src/sub/a.go".toList

/-- The entry of `node_modules/pkg/file.js` in `sampleFs`, in mode `both`. -/
def fileJsEntry : FileEntry where
  Path := "proj/node_modules/pkg/file.js".toList
  SourcePath := "/proj/node_modules/pkg/file.js".toList
  Mode := "both".toList
  Size := 1
  Format := "js".toList
  OriginalPath := "node_modules/pkg/file.js".toList

/-- The whole root is included and `node_modules` is excluded. -/
def wholeRootConfig : Config := sampleConfig [".".toList] ["node_modules".toList]

/-- The include entry `incl`, which names something below `node_modules`, with
`node_modules` excluded. -/
def insideExcludedConfig (incl : Str) : Config :=
  sampleConfig [incl] ["node_modules".toList]

/-- The include list `src`, `src/sub:path` of the specification. -/
def dedupConfig : Config := sampleConfig ["src".toList, "src/sub:path".toList] []

/-- A text in which the characters of the class `\s` are single spaces: every such
character is a space and no two of them are adjacent. -/
def Compact (s : Str) : Prop :=
  (∀ c ∈ s, isReSpace c = true → c = ' ') ∧
    List.Chain' (fun a b => ¬ (isReSpace a = true ∧ isReSpace b = true)) s

/-- The invariant of `foundFiles`: one binding for a key, and every entry is bound to
its own `Path`. -/
def FoundInv (m : GoMap FileEntry) : Prop :=
  (GoMap.keys m).Nodup ∧ ∀ b ∈ m, b.1 = b.2.Path

/-- No path on the descent from `top` through the first `n` of the directories `names`
is excluded. -/
def DescentOk (fc : FileCollector) (top : Str) (names : List Str) (n : Nat) : Prop :=
  ∀ k, k ≤ n → (isExcluded fc ((names.take k).foldl Join top) false).1 = false

/-- In the tree below `top`, following the entries named `names` one after the other
leads to the node `target`. -/
inductive NodeAt : FsNode → List Str → FsNode → Prop where
  | here (n : FsNode) : NodeAt n [] n
  | step (accessible : Bool) (entries : List (Str × FsNode)) (name : Str) (child : FsNode)
      (names : List Str) (target : FsNode) :
      (name, child) ∈ entries → NodeAt child names target →
      NodeAt (.dir accessible entries) (name :: names) target

/-- The entry `e` was written for a file reached from the node `topNode`, whose path is
`top`, through the entries named `names`; the file is not excluded and, unless `flat`,
no path on the descent is. -/
def FoundBelow (fc : FileCollector) (rootBase : Str) (incl : ParsedIncludeEntry) (top : Str)
    (topNode : FsNode) (flat : Bool) (e : FileEntry) : Prop :=
  ∃ names name size, e = mkEntry fc rootBase incl (names.foldl Join top) name size ∧
    (∃ fileNode, NodeAt topNode names fileNode) ∧
    (isExcluded fc (names.foldl Join top) false).1 = false ∧
    (flat = false → DescentOk fc top names names.length)


/-- The pattern that `ApplyContentExclusions` passes to `regexp.Compile` for a rule of
type `regexp` whose configured pattern is `pattern`: the value of the local variable
`pattern` after the two nested tests of the source. -/
def regexpPattern (pattern : Str) : Str :=
  if !HasPrefix pattern "(?s)".toList &&
      !Contains pattern ['\\', 'A'] && !Contains pattern ['\\', 'z'] then
    if !HasPrefix pattern "(?i)".toList && !HasPrefix pattern "(?m)".toList then
      "(?s)".toList ++ pattern
    else pattern
  else pattern

/-- The collector `fc` with the list of content-exclusion rules replaced by `rules`. -/
def withRules (fc : FileCollector) (rules : List ContentExclusionRule) : FileCollector :=
  { fc with Config := { fc.Config with ContentExclusions := rules } }

/-- An include entry is blank: it is empty or consists of white space only. -/
def isBlank (entry : Str) : Bool := entry.all isSpace

/-- A content-exclusion rule applies to the extension `e`, in the words of the
specification: its file pattern is `*`, or glob-matches `e`, or glob-matches `.` + `e`. -/
def claimedApplies (rule : ContentExclusionRule) (e : Str) : Bool :=
  decide (rule.FilePattern = ['*']) || decide (Match rule.FilePattern e = some true) ||
    decide (Match rule.FilePattern ('.' :: e) = some true)

/-- The characters that may stand in a mode-flag group of a Go regular expression. -/
def isFlagChar (c : Char) : Bool := c = 'i' || c = 'm' || c = 's' || c = 'U' || c = '-'

/-- The pattern begins with a mode-flag group: `(?`, one or more flag characters, `)`. -/
def beginsWithFlagGroup (pattern : Str) : Bool :=
  match pattern with
  | '(' :: '?' :: rest =>
    !(rest.takeWhile isFlagChar).isEmpty && (rest.dropWhile isFlagChar).head? = some ')'
  | _ => false

/-- The pattern compiled for a `regexp` rule as the specification states it: `(?s)`
followed by the configured pattern unless that pattern begins with a mode-flag group. -/
def flagGroupPattern (pattern : Str) : Str :=
  if beginsWithFlagGroup pattern then pattern else "(?s)".toList ++ pattern

/-- The pattern compiled for a `regexp` rule: the configured pattern unchanged when it
begins with `(?s)`, `(?i)` or `(?m)` or contains `\A` or `\z`, and `(?s)` followed by the
configured pattern otherwise. -/
def guardedPattern (pattern : Str) : Str :=
  if HasPrefix pattern "(?s)".toList || HasPrefix pattern "(?i)".toList ||
      HasPrefix pattern "(?m)".toList || Contains pattern ['\\', 'A'] ||
      Contains pattern ['\\', 'z'] then pattern
  else "(?s)".toList ++ pattern

/-- A regular-expression library for observing which pattern is compiled: the
expression it returns for a pattern replaces every source by the text of that
pattern. -/
def probeLib : RegexpLib where
  Compile := fun pattern =>
    some { MatchString := fun _ => true, ReplaceAllString := fun _ _ => pattern }

/-- A library in which a compile error of a pattern is also a compile error of that
pattern behind the flag group `(?s)`. -/
def KeepsErrors (lib : RegexpLib) : Prop :=
  ∀ pattern, lib.Compile pattern = none → lib.Compile ("(?s)".toList ++ pattern) = none

/-- The syntax tree of the documented pattern for JavaScript comments,
`(//.*)|(/\*[\s\S]*?\*/)`: two slashes and a greedy star of the dot, or `/*`, a lazy
star of any character and `*/`.  With the flag `s` (`dotAll`) the dot matches every
character, without it every character but the newline. -/
def jsCommentSyntax (dotAll : Bool) : RegexpSyntax :=
  .alt
    (.seq (RegexpSyntax.lit "//".toList)
      (.star true (fun c => dotAll || decide (c ≠ '\n'))))
    (.seq (RegexpSyntax.lit "/*".toList)
      (.seq (.star false (fun _ => true)) (RegexpSyntax.lit "*/".toList)))

/-- The documented pattern for JavaScript comments. -/
def jsCommentPattern : Str := "(//.*)|(/\\*[\\s\\S]*?\\*/)".toList

/-- A regular-expression library for the documented pattern for JavaScript comments: it
compiles that pattern, as written and behind the flag group `(?s)`, to its syntax tree,
and every other pattern as `literalLib` does. -/
def commentLib : RegexpLib where
  Compile := fun pattern =>
    if pattern = "(?s)".toList ++ jsCommentPattern then
      some (Regexp.ofSyntax (jsCommentSyntax true))
    else if pattern = jsCommentPattern then
      some (Regexp.ofSyntax (jsCommentSyntax false))
    else literalLib.Compile pattern

/-- A collector with root `/proj`, the format list `formats` and the content-exclusion
rules `rules`. -/
def rulesCollector (formats : List Str) (rules : List ContentExclusionRule) : FileCollector where
  Config :=
    { Root := "/proj".toList
      Include := []
      Formats := formats
      Output := "out.json".toList
      ExcludePatterns := []
      ContentExclusions := rules }
  excludeRegexps := []

/-- The documented rule that removes JavaScript comments from `js` files. -/
def jsCommentRule : ContentExclusionRule where
  RuleType := "regexp".toList
  FilePattern := "*.js".toList
  Start := []
  End := []
  Pattern := jsCommentPattern

/-- The rule that deletes `/*` ... `*/` spans, for the files that `filePattern` names. -/
def blockRule (filePattern : Str) : ContentExclusionRule where
  RuleType := "delimiters".toList
  FilePattern := filePattern
  Start := "/*".toList
  End := "*/".toList
  Pattern := []

/-- A rule of type `regexp` for all files with the given pattern. -/
def regexpRule (pattern : Str) : ContentExclusionRule where
  RuleType := "regexp".toList
  FilePattern := ['*']
  Start := []
  End := []
  Pattern := pattern

/-- A file tree: `/proj` with the files `main.js` and `.env.example`, both with the
content `x/*c*/y`. -/
def namedFs : FileSystem where
  cwd := []
  root := .dir true
    [("proj".toList, .dir true
      [(".env.example".toList, .file "x/*c*/y".toList true),
       ("main.js".toList, .file "x/*c*/y".toList true)])]

/-- The entry that `PreviewFiles` builds for the file `name` of `namedFs`, whose
lower-cased extension is `format`. -/
def namedEntry (name format : Str) : FileEntry where
  Path := "proj/".toList ++ name
  SourcePath := "/proj/".toList ++ name
  Mode := "content".toList
  Size := 7
  Format := format
  OriginalPath := name

/-- The collector `fc` with the include list replaced by `includes`. -/
def withInclude (fc : FileCollector) (includes : List Str) : FileCollector :=
  { fc with Config := { fc.Config with Include := includes } }

/-- The file at `filePath` goes by the name `name`: the name is the last element of the
path (the include target itself), or the path is the join of a directory and the name
(an entry of a directory listing). -/
def NamedBy (filePath name : Str) : Prop :=
  name = Base filePath ∨ ∃ dir, filePath = Join dir name

/-- The entry `e` was written by the directive `incl` for a file that passed both
filters: the file at `filePath`, which is not excluded, goes by a name that
`matchFormat` accepts. -/
def Listed (fc : FileCollector) (rootBase : Str) (incl : ParsedIncludeEntry)
    (e : FileEntry) : Prop :=
  ∃ filePath name size, e = mkEntry fc rootBase incl filePath name size ∧
    NamedBy filePath name ∧
    (isExcluded fc filePath false).1 = false ∧ matchFormat fc name = true

/-- A file tree with the corner cases of a scan: beside `/proj/src/main.go` there are a
directory that cannot be listed (`/proj/locked`), a file that cannot be read
(`/proj/secret.go`), a file of white space (`/proj/blank.go`), and a file outside the
root (`/other/x.go`). -/
def edgeFs : FileSystem where
  cwd := []
  root := .dir true
    [("other".toList, .dir true [("x.go".toList, .file "package other".toList true)]),
     ("proj".toList, .dir true
      [("blank.go".toList, .file " \n\t ".toList true),
       ("locked".toList, .dir false [("a.go".toList, .file "package locked".toList true)]),
       ("secret.go".toList, .file "package secret".toList false),
       ("src".toList, .dir true
          [("main.go".toList, .file "package  main\n\nfunc main() {}\n".toList true)])])]

/-- The entry of the file `name` directly below the root `/proj` of `edgeFs`, in the
given mode and with the given size. -/
def edgeEntry (name mode : Str) (size : Nat) : FileEntry where
  Path := "proj/".toList ++ name
  SourcePath := "/proj/".toList ++ name
  Mode := mode
  Size := size
  Format := "go".toList
  OriginalPath := name

/-- The record that `processFile` returns for an entry, if it returns one. -/
def successRecord (lib : RegexpLib) (fs : FileSystem) (fc : FileCollector)
    (entry : FileEntry) : Option ProcessedFile :=
  match processFile lib fs fc entry with
  | .ok (some record) => some record
  | _ => none

/-- The file of the entry cannot be read. -/
def unreadable (fs : FileSystem) (entry : FileEntry) : Bool :=
  match ReadFile fs entry.SourcePath with
  | .ok _ => false
  | .error _ => true

/-- The content of the entry is requested and its file cannot be read. -/
def failsToRead (fs : FileSystem) (entry : FileEntry) : Bool :=
  (decide (entry.Mode = "content".toList) || decide (entry.Mode = "both".toList)) &&
    unreadable fs entry

/-- The progress calls that the workers make for `n` files: `(1, n)`, ..., `(n, n)`. -/
def progressCalls (n : Nat) : List (Nat × Nat) := (List.range n).map (fun i => (i + 1, n))

/-- The entry a worker has received and not yet counted. -/
def inFlight : WorkerState → List FileEntry
  | .holding entry => [entry]
  | .appended entry => [entry]
  | _ => []

/-- The record a worker holds and has not yet appended. -/
def pendingRecord (lib : RegexpLib) (fs : FileSystem) (fc : FileCollector) :
    WorkerState → List ProcessedFile
  | .holding entry => (successRecord lib fs fc entry).toList
  | _ => []

/-- The entries with the workers. -/
def inFlightSum (ws : List WorkerState) : Multiset FileEntry :=
  (ws.map (fun w => (inFlight w : Multiset FileEntry))).sum

/-- The records the workers hold. -/
def pendingSum (lib : RegexpLib) (fs : FileSystem) (fc : FileCollector)
    (ws : List WorkerState) : Multiset ProcessedFile :=
  (ws.map (fun w => (pendingRecord lib fs fc w : Multiset ProcessedFile))).sum

/-- All entries of a pool state: those counted, those with the workers and those still
in the channel. -/
def entriesOf (st : PoolState) : Multiset FileEntry :=
  (st.reported : Multiset FileEntry) + inFlightSum st.workers + (st.jobs : Multiset FileEntry)

/-- All records of a pool state: those appended, those the workers hold, and those of
the entries still in the channel. -/
def recordsOf (lib : RegexpLib) (fs : FileSystem) (fc : FileCollector) (st : PoolState) :
    Multiset ProcessedFile :=
  ((st.allProcessedFiles.getD [] : List ProcessedFile) : Multiset ProcessedFile) +
    pendingSum lib fs fc st.workers +
    ((st.jobs.filterMap (successRecord lib fs fc) : List ProcessedFile) :
      Multiset ProcessedFile)

/-- The invariant of the worker pool for the entries `entries`: no entry and no record
is lost or made up, the counter is the number of entries counted, the progress calls
made are `(1, total)`, `(2, total)`, ... up to the counter, the channel is empty once a
worker has ended, and the slice of records is nil or not empty. -/
structure PoolInv (lib : RegexpLib) (fs : FileSystem) (fc : FileCollector)
    (progressCallback : Bool) (total : Nat) (entries : List FileEntry) (numWorkers : Nat)
    (st : PoolState) : Prop where
  entries_eq : entriesOf st = (entries : Multiset FileEntry)
  records_eq : recordsOf lib fs fc st =
    ((entries.filterMap (successRecord lib fs fc) : List ProcessedFile) :
      Multiset ProcessedFile)
  count_eq : st.processedCount = st.reported.length
  calls_eq : st.calls =
    if progressCallback then (List.range st.processedCount).map (fun i => (i + 1, total))
    else []
  jobs_done : WorkerState.done ∈ st.workers → st.jobs = []
  workers_length : st.workers.length = numWorkers
  records_ne : st.allProcessedFiles ≠ some []

/-- The schedule in which the first worker processes every entry, one after the other,
and then every worker finds the channel empty. -/
def serialSchedule (lib : RegexpLib) (fs : FileSystem) (fc : FileCollector)
    (entries : List FileEntry) (numWorkers : Nat) : List Nat :=
  entries.flatMap (fun entry =>
    match successRecord lib fs fc entry with
    | some _ => [0, 0, 0]
    | none => [0, 0]) ++ List.range numWorkers

/-- A host with two processors on which every file can be written. -/
def sampleHost : Host where
  NumCPU := 2
  NumCPU_pos := by decide
  WriteFile := fun _ _ => none

/-- The collector with root `/proj`, the formats `go` and `js`, no exclusions and the
given include list. -/
def includeCollector (includes : List Str) : FileCollector :=
  plainCollector (sampleConfig includes [])

/-- The three entries that `PreviewFiles` returns in `edgeFs` for the include list
`secret.go:content`, `blank.go`, `src`: the file of white space, the file that cannot be
read, and `src/main.go`. -/
def edgeEntries : List FileEntry :=
  [edgeEntry "blank.go".toList "both".toList 4,
   edgeEntry "secret.go".toList "content".toList 14,
   mainGoEntry]

/-- The include list for which the scan of `edgeFs` discovers `edgeEntries`. -/
def edgeIncludes : List Str :=
  ["secret.go:content".toList, "blank.go".toList, "src".toList]

/-- A schedule of two workers for the three entries `edgeEntries`: the first worker
receives `blank.go`; the second receives `secret.go`, fails and reports, receives
`src/main.go` and appends its record; the first appends its record; the second reports,
the first reports, and both find the channel empty. -/
def interleavedSchedule : List Nat := [0, 1, 1, 1, 1, 0, 1, 0, 0, 1]

/-- Go `unicode.IsSpace` on a code point. -/
def isSpaceNat (n : Nat) : Bool :=
  n = 0x09 || n = 0x0A || n = 0x0B || n = 0x0C || n = 0x0D || n = 0x20 ||
  n = 0x85 || n = 0xA0 || n = 0x1680 ||
  (0x2000 ≤ n && n ≤ 0x200A) ||
  n = 0x2028 || n = 0x2029 || n = 0x202F || n = 0x205F ||
  n = 0x3000

/-- No code point from `a` to `b` is white space. -/
def spaceFree (a b : Nat) : Bool :=
  (0x0D < a || b < 0x09) && (0x20 < a || b < 0x20) && (0x85 < a || b < 0x85) &&
  (0xA0 < a || b < 0xA0) && (0x1680 < a || b < 0x1680) && (0x200A < a || b < 0x2000) &&
  (0x2029 < a || b < 0x2028) && (0x202F < a || b < 0x202F) && (0x205F < a || b < 0x205F) &&
  (0x3000 < a || b < 0x3000)

/-- A case range maps no white space, maps to no white space, and maps to code points
that are characters. -/
def caseRangeOk (r : Nat × Nat × Nat × Nat) : Bool :=
  spaceFree r.1 r.2.1 && spaceFree r.2.2.2 (r.2.2.2 + (r.2.1 - r.1)) &&
    (r.2.2.2 + (r.2.1 - r.1) < 0xD800 ||
      (0xDFFF < r.2.2.2 && r.2.2.2 + (r.2.1 - r.1) < 0x110000))


/-! # Theorems -/


/-! ## Exclusion patterns -/

theorem GoMap.get?_filter_ne {V : Type} (m : GoMap V) (k k' : Str) (h : k ≠ k') :
    GoMap.get? (m.filter (fun b => b.1 ≠ k)) k' = GoMap.get? m k' := by
  induction m with
  | nil => rfl
  | cons b r ih =>
    obtain ⟨kb, vb⟩ := b
    by_cases hb : kb = k
    · subst hb
      have : GoMap.get? ((kb, vb) :: r) k' = GoMap.get? r k' := by
        simp [GoMap.get?, h]
      rw [this, ← ih]
      simp [List.filter]
    · have hf : List.filter (fun b : Str × V => decide (b.1 ≠ k)) ((kb, vb) :: r)
          = (kb, vb) :: List.filter (fun b : Str × V => decide (b.1 ≠ k)) r := by
        simp [List.filter, hb]
      rw [hf]
      simp only [GoMap.get?]
      rw [ih]

theorem GoMap.get?_set {V : Type} (m : GoMap V) (k k' : Str) (v : V) :
    GoMap.get? (m.set k v) k' = if k = k' then some v else GoMap.get? m k' := by
  unfold GoMap.set
  by_cases h : k = k'
  · simp [GoMap.get?, h]
  · simp only [GoMap.get?, h, if_false]
    exact GoMap.get?_filter_ne m k k' h

theorem sliceStr_eq_regexBody {pattern regexStr : Str}
    (h : sliceStr pattern 1 (pattern.length - 1) = some regexStr) :
    regexStr = regexBody pattern := by
  unfold sliceStr at h
  split at h
  · simp only [Option.some.injEq] at h
    exact h.symm
  · exact absurd h (by simp)

theorem compileExclude_compiledFor (lib : RegexpLib) (regexps regexps' : GoMap Regexp)
    (seen : List Str) (pattern : Str) (hinv : CompiledFor lib regexps seen)
    (h : compileExclude lib regexps pattern = some regexps') :
    CompiledFor lib regexps' (seen ++ [pattern]) := by
  intro p
  unfold compileExclude at h
  by_cases hre : (HasPrefix pattern ['/'] && HasSuffix pattern ['/']) = true
  · rw [if_pos hre] at h
    cases hs : sliceStr pattern 1 (pattern.length - 1) with
    | none => rw [hs] at h; exact absurd h (by simp)
    | some regexStr =>
      have hbody := sliceStr_eq_regexBody hs
      subst hbody
      simp only [hs] at h
      cases hc : lib.Compile (regexBody pattern) with
      | none =>
        simp only [hc, Option.some.injEq] at h
        subst h
        rw [hinv p]
        by_cases hp : p = pattern
        · subst hp
          simp [hc]
        · simp [hp]
      | some re =>
        simp only [hc, Option.some.injEq] at h
        subst h
        rw [GoMap.get?_set]
        by_cases hp : pattern = p
        · subst hp
          simp [isRegexPattern, hre, hc]
        · have hp' : p ≠ pattern := fun e => hp e.symm
          rw [if_neg hp, hinv p]
          simp [hp']
  · rw [if_neg hre] at h
    simp only [Option.some.injEq] at h
    subst h
    rw [hinv p]
    by_cases hp : p = pattern
    · subst hp
      have : isRegexPattern p = false := by
        simpa [isRegexPattern] using hre
      simp [this]
    · simp [hp]

theorem compileExcludes_compiledFor (lib : RegexpLib) (ps : List Str) :
    ∀ (regexps regexps' : GoMap Regexp) (seen : List Str),
      CompiledFor lib regexps seen → compileExcludes lib regexps ps = some regexps' →
      CompiledFor lib regexps' (seen ++ ps) := by
  induction ps with
  | nil =>
    intro regexps regexps' seen hinv h
    simp only [compileExcludes, Option.some.injEq] at h
    subst h
    simpa using hinv
  | cons pattern rest ih =>
    intro regexps regexps' seen hinv h
    simp only [compileExcludes] at h
    cases hc : compileExclude lib regexps pattern with
    | none => rw [hc] at h; exact absurd h (by simp)
    | some r1 =>
      rw [hc] at h
      have := ih r1 regexps' (seen ++ [pattern])
        (compileExclude_compiledFor lib regexps r1 seen pattern hinv hc) h
      simpa using this

theorem NewFileCollector_spec (lib : RegexpLib) (cfg : Config) (fc : FileCollector)
    (err : Option OsError) (h : NewFileCollector lib cfg = some (fc, err)) :
    fc.Config = cfg ∧ err = none ∧ CompiledFor lib fc.excludeRegexps cfg.ExcludePatterns := by
  unfold NewFileCollector at h
  cases hc : compileExcludes lib [] cfg.ExcludePatterns with
  | none => rw [hc] at h; exact absurd h (by simp)
  | some regexps =>
    rw [hc] at h
    simp only [Option.some.injEq, Prod.mk.injEq] at h
    obtain ⟨h1, h2⟩ := h
    subst h1
    refine ⟨rfl, h2.symm, ?_⟩
    have h0 : CompiledFor lib ([] : GoMap Regexp) [] := by
      intro p
      simp [GoMap.get?]
    simpa using compileExcludes_compiledFor lib cfg.ExcludePatterns [] regexps [] h0 hc

theorem excludedLoop_eq_any (lib : RegexpLib) (fc : FileCollector) (path : Str)
    (ps : List Str)
    (hmap : ∀ p ∈ ps, GoMap.get? fc.excludeRegexps p =
      if isRegexPattern p = true then lib.Compile (regexBody p) else none) :
    excludedLoop fc (Base path)
        (match Rel fc.Config.Root path with
          | some r => r
          | none => Base path) path ps
      = ps.any (patternExcludes lib fc.Config.Root path) := by
  induction ps with
  | nil => rfl
  | cons pattern rest ih =>
    have ih' := ih (fun p hp => hmap p (List.mem_cons_of_mem _ hp))
    have hp := hmap pattern (List.mem_cons_self _ _)
    simp only [excludedLoop, List.any_cons]
    rw [ih']
    unfold patternExcludes
    by_cases hre : isRegexPattern pattern = true
    · rw [if_pos hre] at hp
      rw [if_pos hre]
      cases hc : lib.Compile (regexBody pattern) with
      | none =>
        rw [hc] at hp
        rw [hp]
        have hpre : HasPrefix pattern ['/'] = true := by
          simp only [isRegexPattern, Bool.and_eq_true] at hre
          exact hre.1
        simp [hpre]
      | some re =>
        rw [hc] at hp
        rw [hp]
        cases hrel : Rel fc.Config.Root path with
        | none =>
          simp only
          cases re.MatchString (Base path) <;> cases re.MatchString path <;> simp
        | some r =>
          simp only
          cases re.MatchString (Base path) <;> cases re.MatchString r <;>
            cases re.MatchString path <;> simp
    · rw [if_neg hre] at hp
      rw [if_neg hre, hp]
      cases hpre : HasPrefix pattern ['/'] with
      | true => simp
      | false =>
        cases hrel : Rel fc.Config.Root path with
        | none =>
          simp only
          cases matchIgnoringErr pattern (Base path) <;> cases ContainsRune pattern '/' <;> simp
        | some r =>
          simp only
          cases matchIgnoringErr pattern (Base path) <;> cases ContainsRune pattern '/' <;>
            cases matchIgnoringErr pattern r <;> simp

theorem isExcluded_eq_any (lib : RegexpLib) (cfg : Config) (fc : FileCollector)
    (err : Option OsError) (path : Str) (isDir : Bool)
    (h : NewFileCollector lib cfg = some (fc, err)) :
    isExcluded fc path isDir = (cfg.ExcludePatterns.any (patternExcludes lib cfg.Root path), none) := by
  obtain ⟨hcfg, _, hinv⟩ := NewFileCollector_spec lib cfg fc err h
  unfold isExcluded
  simp only
  rw [excludedLoop_eq_any lib fc path fc.Config.ExcludePatterns, hcfg]
  intro p hp
  rw [hinv p]
  rw [hcfg] at hp
  simp [hp]

/-- C1 (as amended): for a collector built by `NewFileCollector`, `isExcluded` returns true
exactly when some exclusion pattern excludes the path under the rules of
`patternExcludes` (compiled regular expression between slashes: base name, relative path
or full path; pattern beginning with a slash that is not a compiled regular expression:
nothing; any other pattern: glob on the base name, and on the relative path when the
pattern contains a separator).  The error is nil, and without patterns the result is
false. -/
theorem isExcluded_iff_pattern (lib : RegexpLib) (cfg : Config) (fc : FileCollector)
    (err : Option OsError) (path : Str) (isDir : Bool)
    (h : NewFileCollector lib cfg = some (fc, err)) :
    ((isExcluded fc path isDir).1 = true ↔
        ∃ pattern ∈ cfg.ExcludePatterns, patternExcludes lib cfg.Root path pattern = true) ∧
      (isExcluded fc path isDir).2 = none ∧
      (cfg.ExcludePatterns = [] → (isExcluded fc path isDir).1 = false) := by
  rw [isExcluded_eq_any lib cfg fc err path isDir h]
  refine ⟨?_, rfl, ?_⟩
  · simp only [List.any_eq_true]
  · intro hnil
    simp [hnil]

/-- C1, closed instance: the configuration with patterns `/test_data/`, `*.log` and
`src/gen/*` under root `/proj`, and the path `/proj/src/gen/x.go`. -/
theorem isExcluded_iff_pattern_witness :
    NewFileCollector literalLib excludeConfig = some (excludeCollector, none) ∧
    (((isExcluded excludeCollector "/proj/src/gen/x.go".toList false).1 = true ↔
        ∃ pattern ∈ excludeConfig.ExcludePatterns,
          patternExcludes literalLib excludeConfig.Root "/proj/src/gen/x.go".toList pattern
            = true) ∧
      (isExcluded excludeCollector "/proj/src/gen/x.go".toList false).2 = none ∧
      (excludeConfig.ExcludePatterns = [] →
        (isExcluded excludeCollector "/proj/src/gen/x.go".toList false).1 = false)) :=
  ⟨rfl, isExcluded_iff_pattern literalLib excludeConfig excludeCollector none
    "/proj/src/gen/x.go".toList false rfl⟩

/-- C1 as stated fails: with root `/` and the exclusion pattern `/*`, which is not
written between slashes, the glob `/*` matches the base name `/` of the path `/`, yet
`isExcluded` returns false, because a pattern beginning with a slash is never used as a
glob. -/
theorem isExcluded_slash_glob_counterexample :
    NewFileCollector literalLib rootConfig = some (plainCollector rootConfig, none) ∧
    "/*".toList ∈ rootConfig.ExcludePatterns ∧
    isRegexPattern "/*".toList = false ∧
    Match "/*".toList (Base "/".toList) = some true ∧
    patternExcludesAnyGlob literalLib rootConfig.Root "/".toList "/*".toList = true ∧
    isExcluded (plainCollector rootConfig) "/".toList true = (false, none) := by
  refine ⟨rfl, by decide, by decide, by decide, by decide, by decide⟩

/-! ## Include directives -/

/-- C9: on the include entry `assets/*:path` the code does not give the flat directive
that the documented syntax `path/*[:mode]` describes: `parseInclude` tests the suffix
`/*` before it removes the mode, so the directive has path `assets/*`, mode `path` and
the flat flag unset.  The flat directive with path `assets` and mode `path` is what the
code gives for the entry `assets:path/*`. -/
theorem parseInclude_flat_mode_entry :
    parseInclude (plainCollector (sampleConfig ["assets/*:path".toList] [])) =
      some [{ Path := "assets/*".toList, Mode := "path".toList, IsDirOnlyFiles := false }] ∧
    parseInclude (plainCollector (sampleConfig ["assets:path/*".toList] [])) =
      some [{ Path := "assets".toList, Mode := "path".toList, IsDirOnlyFiles := true }] := by
  decide

theorem char_eq_of_toNat_eq {a b : Char} (h : a.toNat = b.toNat) : a = b := by
  rw [← Char.ofNat_toNat a, ← Char.ofNat_toNat b, h]

theorem isSpace_eq_isSpaceNat (c : Char) : isSpace c = isSpaceNat c.toNat := by
  have h : ∀ (d : Char), decide (c = d) = decide (c.toNat = d.toNat) := by
    intro d
    apply decide_eq_decide.mpr
    exact ⟨fun h => by rw [h], char_eq_of_toNat_eq⟩
  unfold isSpace isSpaceNat
  rw [h '\t', h '\n', h '\r', h ' ']
  rfl

theorem spaceFree_spec (a b n : Nat) (h : spaceFree a b = true) (ha : a ≤ n) (hb : n ≤ b) :
    isSpaceNat n = false := by
  unfold spaceFree at h
  simp only [Bool.and_eq_true, Bool.or_eq_true, decide_eq_true_eq] at h
  unfold isSpaceNat
  simp only [Bool.or_eq_false_iff, Bool.and_eq_false_iff, decide_eq_false_iff_not]
  omega

theorem toNat_ofNat_of_valid (m : Nat) (h : m < 0xD800 ∨ (0xDFFF < m ∧ m < 0x110000)) :
    (Char.ofNat m).toNat = m := by
  have hv : m.isValidChar := h
  simp only [Char.ofNat, hv, dite_true, Char.ofNatAux, Char.toNat]
  rfl

theorem lowerRanges_ok : lowerRanges.all caseRangeOk = true := by decide

theorem isSpace_toLowerRune (c : Char) : isSpace (toLowerRune c) = isSpace c := by
  rw [isSpace_eq_isSpaceNat, isSpace_eq_isSpaceNat]
  unfold toLowerRune toLowerNat
  split
  · split
    · rename_i h1 h2
      rw [toNat_ofNat_of_valid _ (by omega)]
      rw [spaceFree_spec 0x61 0x7A (c.toNat + 0x20) (by decide) (by omega) (by omega),
        spaceFree_spec 0x41 0x5A c.toNat (by decide) h2.1 h2.2]
    · rw [Char.ofNat_toNat]
  · cases hf : lowerRanges.find?
        (fun r => decide (r.1 ≤ c.toNat) && decide (c.toNat ≤ r.2.1) &&
          (c.toNat - r.1) % r.2.2.1 == 0) with
    | none =>
      simp only
      rw [Char.ofNat_toNat]
    | some r =>
      simp only
      have hp := List.find?_some hf
      have hm := List.mem_of_find?_eq_some hf
      have hok := List.all_eq_true.mp lowerRanges_ok r hm
      unfold caseRangeOk at hok
      simp only [Bool.and_eq_true, Bool.or_eq_true, decide_eq_true_eq] at hok hp
      obtain ⟨⟨hs1, hs2⟩, hv⟩ := hok
      obtain ⟨⟨hlo, hhi⟩, _⟩ := hp
      rw [toNat_ofNat_of_valid _ (by omega)]
      rw [spaceFree_spec _ _ _ hs2 (by omega) (by omega), spaceFree_spec _ _ _ hs1 hlo hhi]

theorem dropWhile_isSpace_ToLower (s : Str) :
    (ToLower s).dropWhile isSpace = ToLower (s.dropWhile isSpace) := by
  unfold ToLower
  rw [List.dropWhile_map]
  have : (isSpace ∘ toLowerRune) = isSpace := by
    funext c
    exact isSpace_toLowerRune c
  rw [this]

theorem TrimSpace_ToLower (s : Str) : TrimSpace (ToLower s) = ToLower (TrimSpace s) := by
  unfold TrimSpace dropWhileEnd
  rw [dropWhile_isSpace_ToLower]
  have h : ∀ t : Str, (ToLower t).reverse = ToLower t.reverse := by
    intro t
    simp [ToLower, List.map_reverse]
  rw [h, dropWhile_isSpace_ToLower, ← h]

theorem parseIncludeEntry_spec (entry : Str) :
    ∃ d, parseIncludeEntry entry = some d ∧ d.Mode = claimedMode entry := by
  unfold parseIncludeEntry claimedMode
  have hpath : (if HasSuffix entry ['/', '*'] = true then TrimSuffix entry ['/', '*'] else entry)
      = TrimSuffix entry ['/', '*'] := by
    by_cases h : HasSuffix entry ['/', '*'] = true
    · simp [h]
    · simp [h, TrimSuffix]
  simp only [hpath]
  cases hcut : Cut [':'] (TrimSuffix entry ['/', '*']) with
  | none =>
    simp [Contains, hcut]
  | some ab =>
    obtain ⟨a, b⟩ := ab
    simp only [Contains, hcut, Option.isSome_some, if_true, SplitN2]
    refine ⟨_, rfl, ?_⟩
    simp only [TrimSpace_ToLower]
    by_cases h1 : ToLower (TrimSpace b) = ['p', 'a', 't', 'h']
    · simp [h1]
    · by_cases h2 : ToLower (TrimSpace b) = ['c', 'o', 'n', 't', 'e', 'n', 't']
      · simp [h2]
      · simp [h1, h2]

theorem claimedMode_cases (entry : Str) :
    claimedMode entry = "path".toList ∨ claimedMode entry = "content".toList ∨
      claimedMode entry = "both".toList := by
  unfold claimedMode
  split
  · exact Or.inr (Or.inr rfl)
  · simp only
    split
    · exact Or.inl rfl
    · split
      · exact Or.inr (Or.inl rfl)
      · exact Or.inr (Or.inr rfl)

theorem parseIncludeLoop_spec (entries : List Str) :
    ∀ parsed : List ParsedIncludeEntry, ∃ ds,
      parseIncludeLoop entries parsed = some (parsed ++ ds) ∧
      ds.map some = (entries.filter (fun e => decide (TrimSpace e ≠ []))).map parseIncludeEntry := by
  induction entries with
  | nil =>
    intro parsed
    exact ⟨[], by simp [parseIncludeLoop], rfl⟩
  | cons entry rest ih =>
    intro parsed
    by_cases hb : TrimSpace entry = []
    · obtain ⟨ds, h1, h2⟩ := ih parsed
      refine ⟨ds, ?_, ?_⟩
      · simp [parseIncludeLoop, hb, h1]
      · simp [List.filter, hb, h2]
    · obtain ⟨d, hd, _⟩ := parseIncludeEntry_spec entry
      obtain ⟨ds, h1, h2⟩ := ih (parsed ++ [d])
      refine ⟨d :: ds, ?_, ?_⟩
      · simp [parseIncludeLoop, hb, hd, h1]
      · simp [List.filter, hb, h2, hd]

theorem parseInclude_spec (fc : FileCollector) :
    ∃ ds, parseInclude fc = some ds ∧
      ds.map some =
        (fc.Config.Include.filter (fun e => decide (TrimSpace e ≠ []))).map parseIncludeEntry := by
  obtain ⟨ds, h1, h2⟩ := parseIncludeLoop_spec fc.Config.Include []
  exact ⟨ds, by simpa [parseInclude] using h1, h2⟩

theorem forall₂_of_map_some {α β : Type} (g : α → Option β) (R : α → β → Prop)
    (hR : ∀ a b, g a = some b → R a b) :
    ∀ (es : List α) (ds : List β), ds.map some = es.map g → List.Forall₂ R es ds := by
  intro es
  induction es with
  | nil =>
    intro ds h
    cases ds with
    | nil => exact List.Forall₂.nil
    | cons d r => simp at h
  | cons e r ih =>
    intro ds h
    cases ds with
    | nil => simp at h
    | cons d r' =>
      simp only [List.map_cons, List.cons.injEq] at h
      exact List.Forall₂.cons (hR e d h.1.symm) (ih r' h.2)

/-- C10: `parseInclude` returns for every configuration (it does not fail); the directives
correspond one to one, in order, to the include entries that are not blank, and the mode
of each directive is the one the specification describes for its entry (`claimedMode`),
hence one of `path`, `content`, `both`. -/
theorem parseInclude_mode (fc : FileCollector) :
    ∃ ds, parseInclude fc = some ds ∧
      List.Forall₂ (fun entry d => d.Mode = claimedMode entry)
        (fc.Config.Include.filter (fun e => decide (TrimSpace e ≠ []))) ds ∧
      ∀ d ∈ ds, d.Mode = "path".toList ∨ d.Mode = "content".toList ∨ d.Mode = "both".toList := by
  obtain ⟨ds, h1, h2⟩ := parseInclude_spec fc
  have hf : List.Forall₂ (fun (entry : Str) (d : ParsedIncludeEntry) => d.Mode = claimedMode entry)
      (fc.Config.Include.filter (fun e => decide (TrimSpace e ≠ []))) ds := by
    apply forall₂_of_map_some parseIncludeEntry _ _ _ _ h2
    intro entry d hd
    obtain ⟨d', hd', hm⟩ := parseIncludeEntry_spec entry
    rw [hd] at hd'
    simp only [Option.some.injEq] at hd'
    subst hd'
    exact hm
  refine ⟨ds, h1, hf, ?_⟩
  intro d hd
  have hmem : some d ∈ ds.map some := List.mem_map_of_mem some hd
  rw [h2] at hmem
  obtain ⟨entry, _, he⟩ := List.mem_map.mp hmem
  obtain ⟨d', hd', hm⟩ := parseIncludeEntry_spec entry
  rw [he] at hd'
  simp only [Option.some.injEq] at hd'
  subst hd'
  rw [hm]
  exact claimedMode_cases entry

/-! ## The regular expressions built by the collector -/

theorem replaceAllLoop_none (re : RegexpSyntax) (repl : Str) (fuel : Nat) (atZero : Bool)
    (gap s : Str) (h : findMatch re s = none) :
    replaceAllLoop re repl (fuel + 1) atZero gap s = gap ++ s := by
  simp [replaceAllLoop, h]

theorem replaceAllLoop_step (re : RegexpSyntax) (repl : Str) (fuel : Nat) (atZero : Bool)
    (s pre rest : Str) (h : findMatch re s = some (pre, rest))
    (hlen : pre.length + rest.length < s.length) :
    replaceAllLoop re repl (fuel + 1) atZero [] s
      = pre ++ repl ++ replaceAllLoop re repl fuel false [] rest := by
  cases s with
  | nil => simp at hlen
  | cons c t =>
    have hm : 0 < (c :: t).length - pre.length - rest.length := by omega
    have hm' : ¬ (pre.length + ((c :: t).length - pre.length - rest.length) = 0) := by omega
    simp only [replaceAllLoop, h, List.nil_append, List.length_nil, Nat.zero_add]
    rw [if_neg hm']
    have hc : (0 < pre.length + ((c :: t).length - pre.length - rest.length) ∨
        atZero = true ∧ pre = []) := Or.inl (by omega)
    rw [if_pos hc]

theorem matchHere_lit (w : Str) : ∀ (s : Str) (k : Str → Option Str),
    matchHere (RegexpSyntax.lit w) s k = if w.isPrefixOf s then k (s.drop w.length) else none := by
  induction w with
  | nil =>
    intro s k
    simp [RegexpSyntax.lit, matchHere]
  | cons c w ih =>
    intro s k
    cases s with
    | nil => simp [RegexpSyntax.lit, matchHere]
    | cons d t =>
      simp only [RegexpSyntax.lit, matchHere, List.isPrefixOf, List.length_cons, List.drop_succ_cons]
      by_cases hd : d = c
      · subst hd
        simp [ih]
      · have : (c == d) = false := by
          simp [beq_iff_eq]
          exact fun e => hd e.symm
        simp [hd, this]

theorem starLoop_lazy_lit (stop : Str) (s : Str) :
    starLoop false (fun _ => true)
        (fun s' => if stop.isPrefixOf s' = true then some (s'.drop stop.length) else none) s
      = (Cut stop s).map Prod.snd := by
  induction s with
  | nil =>
    simp only [starLoop, Cut]
    split <;> simp
  | cons c t ih =>
    simp only [starLoop, Cut]
    by_cases hp : stop.isPrefixOf (c :: t) = true
    · simp [hp]
    · simp only [hp]
      simp only [Bool.false_eq_true, if_false, if_true]
      rw [ih]
      cases Cut stop t with
      | none => rfl
      | some ab => rfl

theorem matchHere_delimiters (start stop s : Str) :
    matchHere (.seq (RegexpSyntax.lit start)
        (.seq (.star false (fun _ => true)) (RegexpSyntax.lit stop))) s some
      = if start.isPrefixOf s then (Cut stop (s.drop start.length)).map Prod.snd else none := by
  simp only [matchHere, matchHere_lit]
  split
  · exact starLoop_lazy_lit stop _
  · rfl

theorem Cut_eq_some {sep s a b : Str} (h : Cut sep s = some (a, b)) : s = a ++ sep ++ b := by
  induction s generalizing a b with
  | nil =>
    simp only [Cut] at h
    split at h
    · rename_i hp
      simp only [Option.some.injEq, Prod.mk.injEq] at h
      obtain ⟨h1, h2⟩ := h
      subst h1 h2
      cases sep with
      | nil => rfl
      | cons x r => simp [List.isPrefixOf] at hp
    · exact absurd h (by simp)
  | cons c t ih =>
    simp only [Cut] at h
    split at h
    · rename_i hp
      simp only [Option.some.injEq, Prod.mk.injEq] at h
      obtain ⟨h1, h2⟩ := h
      subst h1 h2
      have hpre : sep <+: (c :: t) := List.isPrefixOf_iff_prefix.mp hp
      obtain ⟨r, hr⟩ := hpre
      rw [← hr]
      simp
    · cases hc : Cut sep t with
      | none => rw [hc] at h; exact absurd h (by simp)
      | some ab =>
        obtain ⟨a', b'⟩ := ab
        rw [hc] at h
        simp only [Option.some.injEq, Prod.mk.injEq] at h
        obtain ⟨h1, h2⟩ := h
        subst h1 h2
        rw [ih hc]
        simp

theorem Cut_none_of_suffix {sep s t : Str} (h : Cut sep s = none) (hsuf : t <:+ s) :
    Cut sep t = none := by
  induction s with
  | nil =>
    have : t = [] := List.eq_nil_of_suffix_nil hsuf
    subst this
    exact h
  | cons c r ih =>
    rcases List.suffix_cons_iff.mp hsuf with heq | hsuf'
    · subst heq
      exact h
    · apply ih _ hsuf'
      simp only [Cut] at h
      split at h
      · exact absurd h (by simp)
      · cases hc : Cut sep r with
        | none => rfl
        | some ab => rw [hc] at h; exact absurd h (by simp)

theorem findMatch_delimiters (start stop : Str) (hstart : start ≠ []) (s : Str) :
    findMatch (.seq (RegexpSyntax.lit start)
        (.seq (.star false (fun _ => true)) (RegexpSyntax.lit stop))) s
      = match Cut start s with
        | none => none
        | some (before, afterStart) =>
          match Cut stop afterStart with
          | none => none
          | some (_, rest) => some (before, rest) := by
  induction s with
  | nil =>
    have hp : start.isPrefixOf ([] : Str) = false := by
      cases start with
      | nil => exact absurd rfl hstart
      | cons x r => rfl
    simp [findMatch, matchHere_delimiters, Cut, hp]
  | cons c t ih =>
    simp only [findMatch, matchHere_delimiters, Cut]
    by_cases hp : start.isPrefixOf (c :: t) = true
    · simp only [hp, if_true]
      cases hstop : Cut stop ((c :: t).drop start.length) with
      | some ab =>
        obtain ⟨a, b⟩ := ab
        simp
      | none =>
        simp only [Option.map_none']
        rw [ih]
        cases hct : Cut start t with
        | none => rfl
        | some ab =>
          obtain ⟨a, b⟩ := ab
          simp only
          have hsuf : b <:+ (c :: t).drop start.length := by
            have ht := Cut_eq_some hct
            have hpre : start <+: (c :: t) := List.isPrefixOf_iff_prefix.mp hp
            obtain ⟨r, hr⟩ := hpre
            have hdrop : (c :: t).drop start.length = r := by
              rw [← hr]
              simp
            rw [hdrop]
            have hlen : (c :: t).length = start.length + r.length := by
              rw [← hr]; simp
            have h2 : c :: t = (c :: a ++ start) ++ b := by
              rw [ht]; simp
            have hb : b <:+ (c :: t) := ⟨c :: a ++ start, h2.symm⟩
            have hr' : r <:+ (c :: t) := ⟨start, hr⟩
            rcases List.suffix_or_suffix_of_suffix hb hr' with h | h
            · exact h
            · have hl := h.length_le
              have hbl := congrArg List.length h2
              simp at hbl hlen
              have : r.length = b.length := by omega
              rw [List.IsSuffix.eq_of_length h this]
          rw [Cut_none_of_suffix hstop hsuf]
    · simp only [hp]
      simp only [Bool.false_eq_true, if_false]
      rw [ih]
      cases hct : Cut start t with
      | none => rfl
      | some ab =>
        obtain ⟨a, b⟩ := ab
        simp only
        cases Cut stop b with
        | none => rfl
        | some cd => rfl

theorem delimiters_loop (start stop : Str) (hstart : start ≠ []) :
    ∀ (fuel : Nat) (s : Str) (atZero : Bool), s.length < fuel →
      replaceAllLoop (.seq (RegexpSyntax.lit start)
          (.seq (.star false (fun _ => true)) (RegexpSyntax.lit stop))) [] fuel atZero [] s
        = deleteSpans start stop fuel s := by
  intro fuel
  induction fuel with
  | zero => intro s atZero h; exact absurd h (Nat.not_lt_zero _)
  | succ fuel ih =>
    intro s atZero hlen
    have hfind := findMatch_delimiters start stop hstart s
    cases hcs : Cut start s with
    | none =>
      rw [hcs] at hfind
      rw [replaceAllLoop_none _ _ _ _ _ _ hfind]
      simp [deleteSpans, hcs]
    | some ab =>
      obtain ⟨before, afterStart⟩ := ab
      rw [hcs] at hfind
      simp only at hfind
      cases hce : Cut stop afterStart with
      | none =>
        rw [hce] at hfind
        rw [replaceAllLoop_none _ _ _ _ _ _ hfind]
        simp [deleteSpans, hcs, hce]
      | some cd =>
        obtain ⟨mid, rest⟩ := cd
        rw [hce] at hfind
        simp only at hfind
        have h1 := congrArg List.length (Cut_eq_some hcs)
        have h2 := congrArg List.length (Cut_eq_some hce)
        have hpos : 0 < start.length := List.length_pos.mpr hstart
        simp only [List.length_append] at h1 h2
        rw [replaceAllLoop_step _ _ _ _ _ _ _ hfind (by omega)]
        rw [ih rest false (by omega)]
        simp [deleteSpans, hcs, hce]

theorem delimitersRe_ReplaceAllString (start stop content : Str) (hstart : start ≠ []) :
    (delimitersRe start stop).ReplaceAllString content [] = scanDelimiters start stop content := by
  unfold delimitersRe Regexp.ofSyntax scanDelimiters
  exact delimiters_loop start stop hstart _ _ _ (Nat.lt_succ_self _)

/-- C3: with a single rule that applies to the file, of type `delimiters`, with
non-empty start and end, `ApplyContentExclusions` returns the result of the
left-to-right scan `scanDelimiters` (leftmost start, nearest end at or after the end of
that start, both compared character by character; the span is deleted and the scan
continues after it; without a start, or an end after it, the rest is kept), and a nil
error. -/
theorem ApplyContentExclusions_delimiters (lib : RegexpLib) (fc : FileCollector)
    (content fileExt : Str) (rule : ContentExclusionRule)
    (hrules : fc.Config.ContentExclusions = [rule])
    (happlies : rule.FilePattern = ['*'] ∨ matchIgnoringErr rule.FilePattern fileExt = true ∨
      matchIgnoringErr rule.FilePattern ('.' :: fileExt) = true)
    (htype : rule.RuleType = "delimiters".toList)
    (hstart : rule.Start ≠ []) (hend : rule.End ≠ []) :
    ApplyContentExclusions lib fc content fileExt
      = (scanDelimiters rule.Start rule.End content, none) := by
  unfold ApplyContentExclusions
  rw [hrules]
  simp only [List.length_singleton, Nat.one_ne_zero, if_false, List.foldl_cons, List.foldl_nil]
  unfold applyExclusion
  have happ : (if rule.FilePattern = ['*'] then true
      else matchIgnoringErr rule.FilePattern fileExt ||
        matchIgnoringErr rule.FilePattern ('.' :: fileExt)) = true := by
    rcases happlies with h | h | h
    · simp [h]
    · simp [h]
    · simp [h]
  simp only [happ, Bool.not_true, Bool.false_eq_true, if_false, htype, if_true]
  rw [if_pos ⟨hstart, hend⟩, delimitersRe_ReplaceAllString _ _ _ hstart]

/-- C3, closed instance: the content `A<style>B</style>C` of a `vue` file with the
rule for `<style>` and `</style>` becomes `AC`. -/
theorem ApplyContentExclusions_delimiters_witness :
    (styleCollector.Config.ContentExclusions =
        [{ RuleType := "delimiters".toList, FilePattern := "*.vue".toList,
           Start := "<style>".toList, End := "</style>".toList, Pattern := [] }]) ∧
    matchIgnoringErr "*.vue".toList ('.' :: "vue".toList) = true ∧
    ApplyContentExclusions literalLib styleCollector "A<style>B</style>C".toList "vue".toList
      = (scanDelimiters "<style>".toList "</style>".toList "A<style>B</style>C".toList, none) ∧
    scanDelimiters "<style>".toList "</style>".toList "A<style>B</style>C".toList = "AC".toList :=
  ⟨rfl, by decide,
    ApplyContentExclusions_delimiters literalLib styleCollector "A<style>B</style>C".toList
      "vue".toList _ rfl (Or.inr (Or.inr (by decide))) rfl (by decide) (by decide),
    by decide⟩

/-! ## Whitespace normalisation -/

theorem dropWhileEnd_isPrefix (p : Char → Bool) (s : Str) : dropWhileEnd p s <+: s := by
  have h : (s.reverse.dropWhile p) <:+ s.reverse := List.dropWhile_suffix p
  have h2 := List.reverse_prefix.mpr h
  rw [List.reverse_reverse] at h2
  exact h2

theorem TrimSpace_isInfix (s : Str) : TrimSpace s <:+: s :=
  List.IsInfix.trans (dropWhileEnd_isPrefix isSpace _).isInfix
    (List.dropWhile_suffix isSpace).isInfix

theorem head?_dropWhile_false (p : Char → Bool) (s : Str) (c : Char)
    (h : (s.dropWhile p).head? = some c) : p c = false := by
  have := List.head?_dropWhile_not p s
  rw [h] at this
  exact this

theorem TrimSpace_head (s : Str) (c : Char) (h : (TrimSpace s).head? = some c) :
    isSpace c = false := by
  obtain ⟨r, hr⟩ := dropWhileEnd_isPrefix isSpace (s.dropWhile isSpace)
  apply head?_dropWhile_false isSpace s c
  rw [← hr]
  change (TrimSpace s ++ r).head? = some c
  cases ht : TrimSpace s with
  | nil => rw [ht] at h; exact absurd h (by simp)
  | cons d t =>
    rw [ht] at h
    simpa using h

theorem TrimSpace_getLast (s : Str) (c : Char) (h : (TrimSpace s).getLast? = some c) :
    isSpace c = false := by
  unfold TrimSpace dropWhileEnd at h
  rw [List.getLast?_reverse] at h
  exact head?_dropWhile_false isSpace _ c h

theorem dropWhile_eq_self_of_head (p : Char → Bool) (s : Str)
    (h : ∀ c, s.head? = some c → p c = false) : s.dropWhile p = s := by
  cases s with
  | nil => rfl
  | cons c t =>
    have := h c rfl
    simp [List.dropWhile, this]

theorem TrimSpace_eq_self (s : Str) (hh : ∀ c, s.head? = some c → isSpace c = false)
    (hl : ∀ c, s.getLast? = some c → isSpace c = false) : TrimSpace s = s := by
  unfold TrimSpace dropWhileEnd
  rw [dropWhile_eq_self_of_head isSpace s hh]
  rw [dropWhile_eq_self_of_head isSpace s.reverse]
  · exact List.reverse_reverse s
  · intro c hc
    rw [List.head?_reverse] at hc
    exact hl c hc

theorem TrimSpace_idem (s : Str) : TrimSpace (TrimSpace s) = TrimSpace s :=
  TrimSpace_eq_self _ (TrimSpace_head s) (TrimSpace_getLast s)

theorem starLoop_greedy_some (p : Char → Bool) (s : Str) :
    starLoop true p some s = some (s.dropWhile p) := by
  induction s with
  | nil => rfl
  | cons c t ih =>
    simp only [starLoop, if_true, ih]
    by_cases hc : p c = true
    · simp [hc, List.dropWhile]
    · simp [hc, List.dropWhile]

theorem collapseRuns_true (s : Str) :
    collapseRuns true s = collapseRuns false (s.dropWhile isReSpace) := by
  induction s with
  | nil => rfl
  | cons c t ih =>
    by_cases hc : isReSpace c = true
    · simp [collapseRuns, hc, List.dropWhile, ih]
    · simp [collapseRuns, hc, List.dropWhile]

theorem findMatch_space (s : Str) :
    match findMatch (.seq (.chr isReSpace) (.star true isReSpace)) s with
    | none => collapseRuns false s = s
    | some (pre, rest) =>
      collapseRuns false s = pre ++ ' ' :: collapseRuns false rest ∧
        pre.length + rest.length < s.length := by
  induction s with
  | nil => simp [findMatch, matchHere, collapseRuns]
  | cons c t ih =>
    by_cases hc : isReSpace c = true
    · simp only [findMatch, matchHere, hc, if_true, starLoop_greedy_some]
      refine ⟨?_, ?_⟩
      · simp [collapseRuns, hc, collapseRuns_true]
      · have := (List.dropWhile_suffix isReSpace (l := t)).length_le
        simp only [List.length_nil, List.length_cons]
        omega
    · simp only [findMatch, matchHere, hc]
      simp only [Bool.false_eq_true, if_false]
      cases hf : findMatch (.seq (.chr isReSpace) (.star true isReSpace)) t with
      | none =>
        rw [hf] at ih
        simp only at ih ⊢
        simp [collapseRuns, hc, ih]
      | some ab =>
        obtain ⟨a, b⟩ := ab
        rw [hf] at ih
        simp only at ih ⊢
        refine ⟨?_, ?_⟩
        · simp [collapseRuns, hc, ih.1]
        · simp only [List.length_cons]
          omega

theorem space_loop : ∀ (fuel : Nat) (s : Str) (atZero : Bool), s.length < fuel →
    replaceAllLoop (.seq (.chr isReSpace) (.star true isReSpace)) [' '] fuel atZero [] s
      = collapseRuns false s := by
  intro fuel
  induction fuel with
  | zero => intro s atZero h; exact absurd h (Nat.not_lt_zero _)
  | succ fuel ih =>
    intro s atZero hlen
    have hf := findMatch_space s
    cases hm : findMatch (.seq (.chr isReSpace) (.star true isReSpace)) s with
    | none =>
      rw [hm] at hf
      simp only at hf
      rw [replaceAllLoop_none _ _ _ _ _ _ hm, hf]
      rfl
    | some ab =>
      obtain ⟨pre, rest⟩ := ab
      rw [hm] at hf
      simp only at hf
      rw [replaceAllLoop_step _ _ _ _ _ _ _ hm hf.2, ih rest false (by omega), hf.1]
      simp

theorem normalizeContent_eq_collapse (s : Str) : normalizeContent s = collapse s := by
  unfold normalizeContent collapse spaceRe Regexp.ofSyntax
  simp only
  rw [space_loop _ _ _ (Nat.lt_succ_self _)]

theorem collapseRuns_compact (s : Str) : ∀ inRun : Bool,
    Compact (collapseRuns inRun s) ∧
      (inRun = true → ∀ c, (collapseRuns inRun s).head? = some c → isReSpace c = false) := by
  induction s with
  | nil =>
    intro inRun
    exact ⟨⟨by simp [collapseRuns], by simp [collapseRuns]⟩, by simp [collapseRuns]⟩
  | cons c t ih =>
    intro inRun
    by_cases hc : isReSpace c = true
    · cases inRun with
      | true =>
        have e : collapseRuns true (c :: t) = collapseRuns true t := by
          simp [collapseRuns, hc]
        rw [e]
        exact ih true
      | false =>
        have e : collapseRuns false (c :: t) = ' ' :: collapseRuns true t := by
          simp [collapseRuns, hc]
        rw [e]
        obtain ⟨⟨h1, h2⟩, h3⟩ := ih true
        refine ⟨⟨?_, ?_⟩, by simp⟩
        · intro d hd hsp
          rcases List.mem_cons.mp hd with h | h
          · exact h
          · exact h1 d h hsp
        · rw [List.chain'_cons']
          refine ⟨?_, h2⟩
          intro d hd
          have := h3 rfl d (by simpa [Option.mem_def] using hd)
          simp [this]
    · have e : collapseRuns inRun (c :: t) = c :: collapseRuns false t := by
        simp [collapseRuns, hc]
      rw [e]
      obtain ⟨⟨h1, h2⟩, _⟩ := ih false
      refine ⟨⟨?_, ?_⟩, ?_⟩
      · intro d hd hsp
        rcases List.mem_cons.mp hd with h | h
        · subst h; exact absurd hsp hc
        · exact h1 d h hsp
      · rw [List.chain'_cons']
        refine ⟨?_, h2⟩
        intro d _
        simp [hc]
      · intro _ d hd
        simp only [List.head?_cons, Option.some.injEq] at hd
        subst hd
        simpa using hc

theorem Compact.of_isInfix {s t : Str} (h : Compact s) (ht : t <:+: s) : Compact t :=
  ⟨fun c hc => h.1 c (List.IsInfix.mem hc ht), List.Chain'.infix h.2 ht⟩

theorem collapseRuns_of_compact (s : Str) (h : Compact s) :
    collapseRuns false s = s ∧
      ((∀ c, s.head? = some c → isReSpace c = false) → collapseRuns true s = s) := by
  induction s with
  | nil => simp [collapseRuns]
  | cons c t ih =>
    have ht : Compact t := h.of_isInfix ⟨[c], [], by simp⟩
    obtain ⟨ih1, ih2⟩ := ih ht
    have hch := List.chain'_cons'.mp h.2
    by_cases hc : isReSpace c = true
    · have hsp : c = ' ' := h.1 c (List.mem_cons_self _ _) hc
      have hhead : ∀ d, t.head? = some d → isReSpace d = false := by
        intro d hd
        have := hch.1 d (by simpa [Option.mem_def] using hd)
        simpa [hc] using this
      refine ⟨?_, ?_⟩
      · simp only [collapseRuns, hc, if_true]
        simp only [Bool.false_eq_true, if_false]
        rw [ih2 hhead, hsp]
      · intro hh
        have := hh c rfl
        rw [hc] at this
        exact absurd this (by simp)
    · refine ⟨?_, ?_⟩
      · simp only [collapseRuns, hc]
        simp only [Bool.false_eq_true, if_false]
        rw [ih1]
      · intro _
        simp only [collapseRuns, hc]
        simp only [Bool.false_eq_true, if_false]
        rw [ih1]

theorem collapse_compact (s : Str) : Compact (collapse s) :=
  (collapseRuns_compact s false).1.of_isInfix (TrimSpace_isInfix _)

theorem collapse_idem (s : Str) : collapse (collapse s) = collapse s := by
  have h := (collapseRuns_of_compact (collapse s) (collapse_compact s)).1
  have e : collapse (collapse s) = TrimSpace (collapseRuns false (collapse s)) := rfl
  rw [e, h]
  exact TrimSpace_idem _

/-- C5: the normalisation of `processFile` is the `collapse` of the specification
(every maximal run of space, tab, newline, form feed and carriage return replaced by one
space, then trimmed), and it is idempotent. -/
theorem normalizeContent_idempotent (s : Str) :
    normalizeContent s = collapse s ∧
      normalizeContent (normalizeContent s) = normalizeContent s := by
  refine ⟨normalizeContent_eq_collapse s, ?_⟩
  rw [normalizeContent_eq_collapse, normalizeContent_eq_collapse, collapse_idem]

/-! ## Output records -/

theorem collapse_properties (s : Str) :
    (∀ c ∈ collapse s, c ≠ '\n' ∧ c ≠ '\r' ∧ c ≠ '\t' ∧ c ≠ '\x0c') ∧
      List.Chain' (fun a b => ¬ (a = ' ' ∧ b = ' ')) (collapse s) ∧
      (∀ c, (collapse s).head? = some c → isSpace c = false) ∧
      (∀ c, (collapse s).getLast? = some c → isSpace c = false) := by
  obtain ⟨h1, h2⟩ := collapse_compact s
  refine ⟨?_, ?_, TrimSpace_head _, TrimSpace_getLast _⟩
  · intro c hc
    refine ⟨?_, ?_, ?_, ?_⟩ <;>
    · intro e
      subst e
      exact absurd (h1 _ hc (by decide)) (by decide)
  · refine List.Chain'.imp ?_ h2
    intro a b hab e
    obtain ⟨ea, eb⟩ := e
    subst ea eb
    exact hab ⟨by decide, by decide⟩

theorem finishRecord_eq_some (result record : ProcessedFile)
    (h : finishRecord result = .ok (some record)) : record = result := by
  unfold finishRecord at h
  split at h
  · exact absurd h (by simp)
  · simp only [Result.ok.injEq, Option.some.injEq] at h
    exact h.symm

theorem processFile_content (lib : RegexpLib) (fs : FileSystem) (fc : FileCollector)
    (entry : FileEntry) (record : ProcessedFile) (v : Str)
    (h : processFile lib fs fc entry = .ok (some record))
    (hv : GoMap.get? record "content".toList = some v) :
    ∃ content, v = normalizeContent content := by
  unfold processFile at h
  simp only at h
  by_cases hm : entry.Mode = "content".toList ∨ entry.Mode = "both".toList
  · rw [if_pos hm] at h
    cases hr : ReadFile fs entry.SourcePath with
    | error e => rw [hr] at h; exact absurd h (by simp)
    | ok contentBytes =>
      rw [hr] at h
      simp only at h
      cases ha : ApplyContentExclusions lib fc contentBytes entry.Format with
      | mk content err =>
        rw [ha] at h
        cases err with
        | some e => exact absurd h (by simp)
        | none =>
          simp only at h
          have hrec := finishRecord_eq_some _ _ h
          subst hrec
          rw [GoMap.get?_set] at hv
          simp only [if_true, Option.some.injEq] at hv
          exact ⟨content, hv.symm⟩
  · rw [if_neg hm] at h
    have hrec := finishRecord_eq_some _ _ h
    subst hrec
    split at hv
    · rw [GoMap.get?_set] at hv
      have : ¬ ("path".toList = "content".toList) := by decide
      rw [if_neg this] at hv
      simp [GoMap.get?] at hv
    · simp [GoMap.get?] at hv

/-- C4: whatever the file content and the content-exclusion rules, the `content` value of
the record that `processFile` returns contains no newline, carriage return, tab or form
feed, no two adjacent spaces, and neither begins nor ends with white space. -/
theorem processFile_content_normalized (lib : RegexpLib) (fs : FileSystem)
    (fc : FileCollector) (entry : FileEntry) (record : ProcessedFile) (v : Str)
    (h : processFile lib fs fc entry = .ok (some record))
    (hv : GoMap.get? record "content".toList = some v) :
    (∀ c ∈ v, c ≠ '\n' ∧ c ≠ '\r' ∧ c ≠ '\t' ∧ c ≠ '\x0c') ∧
      List.Chain' (fun a b => ¬ (a = ' ' ∧ b = ' ')) v ∧
      (∀ c, v.head? = some c → isSpace c = false) ∧
      (∀ c, v.getLast? = some c → isSpace c = false) := by
  obtain ⟨content, hc⟩ := processFile_content lib fs fc entry record v h hv
  rw [hc, normalizeContent_eq_collapse]
  exact collapse_properties content

theorem ApplyContentExclusions_snd (lib : RegexpLib) (fc : FileCollector) (content fileExt : Str) :
    ∃ c, ApplyContentExclusions lib fc content fileExt = (c, none) := by
  unfold ApplyContentExclusions
  split
  · exact ⟨_, rfl⟩
  · exact ⟨_, rfl⟩

/-- C6: for an entry whose file can be read, `processFile` returns a record whose keys
are given by the mode: in mode `path` the record is exactly the key `path` with the
display path; in mode `content` it is exactly a key `content`; in mode `both` it is
exactly the two keys `content` and `path`, the latter with the display path. -/
theorem processFile_keys (lib : RegexpLib) (fs : FileSystem) (fc : FileCollector)
    (entry : FileEntry) (content : Str)
    (hread : ReadFile fs entry.SourcePath = .ok content) :
    (entry.Mode = "path".toList →
        processFile lib fs fc entry = .ok (some [("path".toList, entry.Path)])) ∧
      (entry.Mode = "content".toList →
        ∃ v, processFile lib fs fc entry = .ok (some [("content".toList, v)])) ∧
      (entry.Mode = "both".toList →
        ∃ v, processFile lib fs fc entry =
          .ok (some [("content".toList, v), ("path".toList, entry.Path)])) := by
  obtain ⟨c, hc⟩ := ApplyContentExclusions_snd lib fc content entry.Format
  refine ⟨?_, ?_, ?_⟩
  · intro hm
    unfold processFile
    rw [hm]
    simp [finishRecord, GoMap.set]
  · intro hm
    refine ⟨normalizeContent c, ?_⟩
    unfold processFile
    rw [hm]
    simp [finishRecord, GoMap.set, hread, hc]
  · intro hm
    refine ⟨normalizeContent c, ?_⟩
    unfold processFile
    rw [hm]
    simp [finishRecord, GoMap.set, hread, hc]

/-! ## The order of strings and sorting by path -/

theorem strLess_irrefl (s : Str) : strLess s s = false := by
  induction s with
  | nil => rfl
  | cons a s ih => simp [strLess, ih]

theorem strLess_trans : ∀ (s t u : Str), strLess s t = true → strLess t u = true →
    strLess s u = true := by
  intro s
  induction s with
  | nil =>
    intro t u h1 h2
    cases t with
    | nil => simp [strLess] at h1
    | cons b t =>
      cases u with
      | nil => simp [strLess] at h2
      | cons c u => rfl
  | cons a s ih =>
    intro t u h1 h2
    cases t with
    | nil => simp [strLess] at h1
    | cons b t =>
      cases u with
      | nil => simp [strLess] at h2
      | cons c u =>
        simp only [strLess] at h1 h2 ⊢
        by_cases hab : a.toNat < b.toNat
        · by_cases hbc : b.toNat < c.toNat
          · have : a.toNat < c.toNat := by omega
            simp [this]
          · by_cases hcb : c.toNat < b.toNat
            · simp [hbc, hcb] at h2
            · have : a.toNat < c.toNat := by omega
              simp [this]
        · by_cases hba : b.toNat < a.toNat
          · simp [hab, hba] at h1
          · simp only [hab, hba, if_false] at h1
            by_cases hbc : b.toNat < c.toNat
            · have : a.toNat < c.toNat := by omega
              simp [this]
            · by_cases hcb : c.toNat < b.toNat
              · simp [hbc, hcb] at h2
              · simp only [hbc, hcb, if_false] at h2
                have h3 : ¬ a.toNat < c.toNat := by omega
                have h4 : ¬ c.toNat < a.toNat := by omega
                simp only [h3, h4, if_false]
                exact ih t u h1 h2

theorem strLess_total : ∀ (s t : Str), strLess s t = false → strLess t s = false → s = t := by
  intro s
  induction s with
  | nil =>
    intro t h1 _
    cases t with
    | nil => rfl
    | cons b t => simp [strLess] at h1
  | cons a s ih =>
    intro t h1 h2
    cases t with
    | nil => simp [strLess] at h2
    | cons b t =>
      simp only [strLess] at h1 h2
      by_cases hab : a.toNat < b.toNat
      · simp [hab] at h1
      · by_cases hba : b.toNat < a.toNat
        · simp [hba] at h2
        · simp only [hab, hba, if_false] at h1 h2
          have hc : a = b := char_eq_of_toNat_eq (by omega)
          rw [hc, ih t h1 h2]

theorem strLess_asymm (s t : Str) (h : strLess s t = true) : strLess t s = false := by
  cases h2 : strLess t s with
  | false => rfl
  | true =>
    have := strLess_trans s t s h h2
    rw [strLess_irrefl] at this
    exact absurd this (by simp)

theorem insertByPath_perm (e : FileEntry) (l : List FileEntry) :
    (insertByPath e l).Perm (e :: l) := by
  induction l with
  | nil => exact List.Perm.refl _
  | cons x r ih =>
    simp only [insertByPath]
    split
    · exact List.Perm.refl _
    · exact (List.Perm.cons x ih).trans (List.Perm.swap e x r)

theorem sortByPath_perm (l : List FileEntry) : (sortByPath l).Perm l := by
  induction l with
  | nil => exact List.Perm.refl _
  | cons e r ih =>
    simp only [sortByPath, List.foldr_cons]
    exact (insertByPath_perm e _).trans (List.Perm.cons e ih)

theorem insertByPath_sorted (e : FileEntry) (l : List FileEntry)
    (h : List.Pairwise (fun a b => strLess b.Path a.Path = false) l) :
    List.Pairwise (fun a b => strLess b.Path a.Path = false) (insertByPath e l) := by
  induction l with
  | nil => simp [insertByPath]
  | cons x r ih =>
    obtain ⟨hx, hr⟩ := List.pairwise_cons.mp h
    simp only [insertByPath]
    by_cases hlt : strLess e.Path x.Path = true
    · rw [if_pos hlt]
      refine List.pairwise_cons.mpr ⟨?_, h⟩
      intro y hy
      rcases List.mem_cons.mp hy with hy | hy
      · subst hy
        exact strLess_asymm _ _ hlt
      · cases hye : strLess y.Path e.Path with
        | false => rfl
        | true =>
          have := strLess_trans _ _ _ hye hlt
          rw [hx y hy] at this
          exact absurd this (by simp)
    · rw [if_neg hlt]
      refine List.pairwise_cons.mpr ⟨?_, ih hr⟩
      intro y hy
      have hy' := (insertByPath_perm e r).subset hy
      rcases List.mem_cons.mp hy' with hy' | hy'
      · subst hy'
        simpa using hlt
      · exact hx y hy'

theorem sortByPath_sorted (l : List FileEntry) :
    List.Pairwise (fun a b => strLess b.Path a.Path = false) (sortByPath l) := by
  induction l with
  | nil => simp [sortByPath]
  | cons e r ih =>
    simp only [sortByPath, List.foldr_cons]
    exact insertByPath_sorted e _ ih

theorem sortByPath_strict (l : List FileEntry) (hnd : (l.map FileEntry.Path).Nodup) :
    List.Pairwise (fun a b => strLess a.Path b.Path = true) (sortByPath l) := by
  have hs := sortByPath_sorted l
  have hnd' : ((sortByPath l).map FileEntry.Path).Nodup :=
    ((sortByPath_perm l).map FileEntry.Path).nodup_iff.mpr hnd
  have hne : List.Pairwise (fun a b : FileEntry => a.Path ≠ b.Path) (sortByPath l) :=
    List.pairwise_map.mp hnd'
  refine (hs.and hne).imp ?_
  intro a b hab
  obtain ⟨h1, h2⟩ := hab
  cases h3 : strLess a.Path b.Path with
  | true => rfl
  | false => exact absurd (strLess_total _ _ h3 h1) h2

theorem sorted_perm_unique (l₁ l₂ : List FileEntry) (hp : l₁.Perm l₂)
    (h₁ : List.Pairwise (fun a b => strLess a.Path b.Path = true) l₁)
    (h₂ : List.Pairwise (fun a b => strLess a.Path b.Path = true) l₂) : l₁ = l₂ := by
  haveI : IsAntisymm FileEntry (fun a b => strLess a.Path b.Path = true) :=
    ⟨fun a b hab hba => by
      rw [strLess_asymm _ _ hab] at hba
      exact absurd hba (by simp)⟩
  exact List.eq_of_perm_of_sorted hp h₁ h₂

/-! ## The map of found files -/

theorem GoMap.keys_set {V : Type} (m : GoMap V) (k : Str) (v : V) (h : (GoMap.keys m).Nodup) :
    (GoMap.keys (m.set k v)).Nodup := by
  unfold GoMap.set GoMap.keys
  simp only [List.map_cons, List.nodup_cons]
  refine ⟨?_, ?_⟩
  · intro hk
    obtain ⟨b, hb, hbk⟩ := List.mem_map.mp hk
    have := (List.mem_filter.mp hb).2
    simp at this
    exact this hbk
  · exact (List.filter_sublist m).map Prod.fst |>.nodup h

theorem GoMap.mem_set {V : Type} (m : GoMap V) (k : Str) (v : V) (b : Str × V)
    (hb : b ∈ m.set k v) : b = (k, v) ∨ b ∈ m := by
  unfold GoMap.set at hb
  rcases List.mem_cons.mp hb with h | h
  · exact Or.inl h
  · exact Or.inr (List.mem_filter.mp h).1

theorem GoMap.get?_eq_some_of_mem {V : Type} (m : GoMap V) (k : Str) (v : V)
    (hnd : (GoMap.keys m).Nodup) (h : (k, v) ∈ m) : GoMap.get? m k = some v := by
  induction m with
  | nil => exact absurd h (List.not_mem_nil _)
  | cons b r ih =>
    obtain ⟨kb, vb⟩ := b
    simp only [GoMap.keys, List.map_cons, List.nodup_cons] at hnd
    rcases List.mem_cons.mp h with h | h
    · simp only [Prod.mk.injEq] at h
      obtain ⟨h1, h2⟩ := h
      subst h1 h2
      simp [GoMap.get?]
    · have hne : kb ≠ k := by
        intro e
        subst e
        exact hnd.1 (List.mem_map.mpr ⟨(kb, v), h, rfl⟩)
      simp only [GoMap.get?, hne, if_false]
      exact ih hnd.2 h

theorem GoMap.mem_of_get?_eq_some {V : Type} (m : GoMap V) (k : Str) (v : V)
    (h : GoMap.get? m k = some v) : (k, v) ∈ m := by
  induction m with
  | nil => simp [GoMap.get?] at h
  | cons b r ih =>
    obtain ⟨kb, vb⟩ := b
    simp only [GoMap.get?] at h
    by_cases hk : kb = k
    · simp only [hk, if_true, Option.some.injEq] at h
      subst hk h
      exact List.mem_cons_self _ _
    · simp only [hk, if_false] at h
      exact List.mem_cons_of_mem _ (ih h)

theorem recordAll_inv (es : List FileEntry) : ∀ m : GoMap FileEntry, FoundInv m →
    FoundInv (recordAll m es) := by
  induction es with
  | nil => intro m h; exact h
  | cons e r ih =>
    intro m h
    simp only [recordAll, List.foldl_cons]
    apply ih
    refine ⟨GoMap.keys_set m e.Path e h.1, ?_⟩
    intro b hb
    rcases GoMap.mem_set m e.Path e b hb with hb | hb
    · subst hb; rfl
    · exact h.2 b hb

theorem scanAll_inv (fc : FileCollector) (fs : FileSystem) (rootBase : Str)
    (incls : List ParsedIncludeEntry) : ∀ (m m' : GoMap FileEntry), FoundInv m →
    scanAll fc fs rootBase incls m = .ok m' → FoundInv m' := by
  induction incls with
  | nil =>
    intro m m' h hs
    simp only [scanAll, Result.ok.injEq] at hs
    subst hs
    exact h
  | cons incl rest ih =>
    intro m m' h hs
    simp only [scanAll] at hs
    cases hsc : scanInclude fc fs rootBase incl with
    | error e => rw [hsc] at hs; exact absurd hs (by simp)
    | ok es =>
      rw [hsc] at hs
      exact ih _ m' (recordAll_inv es m h) hs

theorem FoundInv.values_nodup {m : GoMap FileEntry} (h : FoundInv m) :
    ((GoMap.values m).map FileEntry.Path).Nodup := by
  have : (GoMap.values m).map FileEntry.Path = GoMap.keys m := by
    unfold GoMap.values GoMap.keys
    rw [List.map_map]
    apply List.map_congr_left
    intro b hb
    exact (h.2 b hb).symm
  rw [this]
  exact h.1

theorem PreviewFiles_eq_some (fc : FileCollector) (fs : FileSystem) (ord : MapOrder)
    (res : List FileEntry) (h : PreviewFiles fc fs ord = some (.ok res)) :
    ∃ incls foundFiles, parseInclude fc = some incls ∧
      scanAll fc fs (Base fc.Config.Root) incls [] = .ok foundFiles ∧ FoundInv foundFiles ∧
      res = sortByPath (ord.iter (GoMap.values foundFiles)) := by
  unfold PreviewFiles at h
  simp only at h
  cases hp : parseInclude fc with
  | none => rw [hp] at h; exact absurd h (by simp)
  | some incls =>
    rw [hp] at h
    simp only at h
    cases hs : scanAll fc fs (Base fc.Config.Root) incls [] with
    | error e => rw [hs] at h; simp at h
    | ok foundFiles =>
      rw [hs] at h
      simp only [Option.some.injEq, Result.ok.injEq] at h
      refine ⟨incls, foundFiles, rfl, hs, ?_, h.symm⟩
      exact scanAll_inv fc fs _ incls [] foundFiles ⟨List.nodup_nil, by simp⟩ hs

theorem PreviewFiles_strict (fc : FileCollector) (fs : FileSystem) (ord : MapOrder)
    (res : List FileEntry) (h : PreviewFiles fc fs ord = some (.ok res)) :
    List.Pairwise (fun a b => strLess a.Path b.Path = true) res := by
  obtain ⟨incls, foundFiles, _, _, hinv, hres⟩ := PreviewFiles_eq_some fc fs ord res h
  rw [hres]
  apply sortByPath_strict
  exact ((ord.iter_perm _).map FileEntry.Path).nodup_iff.mpr hinv.values_nodup

/-- C7: when `PreviewFiles` succeeds, the returned list is strictly increasing by
`Path` in the order of Go strings, so it is sorted and has no two entries with the same
`Path`; and the list is the same for every order in which the intermediate map is
iterated. -/
theorem PreviewFiles_sorted (fc : FileCollector) (fs : FileSystem) (ord : MapOrder)
    (res : List FileEntry) (h : PreviewFiles fc fs ord = some (.ok res)) :
    List.Pairwise (fun a b => strLess a.Path b.Path = true) res ∧
      ∀ ord' : MapOrder, PreviewFiles fc fs ord' = some (.ok res) := by
  refine ⟨PreviewFiles_strict fc fs ord res h, ?_⟩
  intro ord'
  obtain ⟨incls, foundFiles, hp, hs, hinv, hres⟩ := PreviewFiles_eq_some fc fs ord res h
  have h' : PreviewFiles fc fs ord' =
      some (.ok (sortByPath (ord'.iter (GoMap.values foundFiles)))) := by
    unfold PreviewFiles
    simp only [hp, hs]
  rw [h']
  have hperm : (sortByPath (ord'.iter (GoMap.values foundFiles))).Perm res := by
    rw [hres]
    exact ((sortByPath_perm _).trans (ord'.iter_perm _)).trans
      (((sortByPath_perm _).trans (ord.iter_perm _)).symm)
  rw [sorted_perm_unique _ _ hperm (PreviewFiles_strict fc fs ord' _ h')
    (PreviewFiles_strict fc fs ord res h)]

/-! ## Scanning the directives -/

theorem isExcluded_isDir (fc : FileCollector) (path : Str) (a b : Bool) :
    isExcluded fc path a = isExcluded fc path b := rfl

theorem DescentOk.snoc {fc : FileCollector} {top : Str} {names : List Str} (name : Str)
    (h : DescentOk fc top names names.length) :
    DescentOk fc top (names ++ [name]) names.length := by
  intro k hk
  rw [List.take_append_of_le_length hk]
  exact h k hk

theorem DescentOk.full {fc : FileCollector} {top : Str} {names : List Str} {n : Nat}
    (hn : n + 1 = names.length) (h : DescentOk fc top names n)
    (hlast : (isExcluded fc (names.foldl Join top) false).1 = false) :
    DescentOk fc top names names.length := by
  intro k hk
  by_cases hk' : k ≤ n
  · exact h k hk'
  · have : k = names.length := by omega
    rw [this, List.take_length]
    exact hlast

theorem NodeAt.append_entry {top : FsNode} {names : List Str} {accessible : Bool}
    {entries : List (Str × FsNode)} {name : Str} {child : FsNode}
    (h : NodeAt top names (.dir accessible entries)) (hmem : (name, child) ∈ entries) :
    NodeAt top (names ++ [name]) child := by
  generalize hcur : FsNode.dir accessible entries = cur at h
  induction h with
  | here n =>
    subst hcur
    exact NodeAt.step accessible entries name child [] child hmem (NodeAt.here child)
  | step acc es nm ch nms tgt hm _ ih =>
    exact NodeAt.step acc es nm ch (nms ++ [name]) child hm (ih hcur)

mutual
theorem walkDir_found (fc : FileCollector) (rootBase : Str) (incl : ParsedIncludeEntry)
    (top : Str) (topNode : FsNode) (names : List Str) (name : Str) (node : FsNode)
    (found : List FileEntry) (hat : NodeAt topNode names node)
    (hd : ∀ n, n + 1 = names.length → DescentOk fc top names n) :
    ∀ e ∈ (walkDir (walkFn fc rootBase incl) (names.foldl Join top) name node found).1,
      e ∈ found ∨ FoundBelow fc rootBase incl top topNode false e := by
  cases node with
  | file content readable =>
    intro e he
    simp only [walkDir, walkFn] at he
    by_cases hex : (isExcluded fc (names.foldl Join top) false).1 = true
    · simp only [hex, if_true] at he
      simp only [Bool.false_eq_true, if_false] at he
      exact Or.inl he
    · simp only [hex] at he
      simp only [Bool.false_eq_true, if_false, Bool.not_false, Bool.true_and] at he
      split at he
      · rcases List.mem_append.mp he with h | h
        · exact Or.inl h
        · simp only [List.mem_singleton] at h
          refine Or.inr ⟨names, name, _, h, ⟨_, hat⟩, by simpa using hex, ?_⟩
          intro _
          cases hn : names.length with
          | zero =>
            intro k hk
            have hk0 : k = 0 := by omega
            subst hk0
            have hnil : names = [] := List.length_eq_zero.mp hn
            subst hnil
            simpa using hex
          | succ n =>
            have := DescentOk.full (n := n) (by omega) (hd n (by omega)) (by simpa using hex)
            rw [hn] at this
            exact this
      · exact Or.inl he
  | dir accessible entries =>
    intro e he
    simp only [walkDir, walkFn] at he
    by_cases hex : (isExcluded fc (names.foldl Join top) true).1 = true
    · simp only [hex, if_true] at he
      exact Or.inl he
    · simp only [hex] at he
      simp only [Bool.false_eq_true, if_false, Bool.not_true, Bool.false_and] at he
      have hex' : (isExcluded fc (names.foldl Join top) false).1 = false := by
        rw [isExcluded_isDir fc _ false true]
        simpa using hex
      have hfull : DescentOk fc top names names.length := by
        cases hn : names.length with
        | zero =>
          intro k hk
          have hk0 : k = 0 := by omega
          subst hk0
          have hnil : names = [] := List.length_eq_zero.mp hn
          subst hnil
          simpa using hex'
        | succ n =>
          have := DescentOk.full (n := n) (by omega) (hd n (by omega)) hex'
          rw [hn] at this
          exact this
      by_cases hacc : accessible = false
      · simp only [hacc, if_true] at he
        exact Or.inl he
      · simp only [hacc, if_false] at he
        exact walkEntries_found fc rootBase incl top topNode names entries found accessible
          entries hat (fun b hb => hb) hfull e he
theorem walkEntries_found (fc : FileCollector) (rootBase : Str) (incl : ParsedIncludeEntry)
    (top : Str) (topNode : FsNode) (names : List Str) (entries : List (Str × FsNode))
    (found : List FileEntry) (accessible : Bool) (all : List (Str × FsNode))
    (hat : NodeAt topNode names (.dir accessible all)) (hsub : ∀ b ∈ entries, b ∈ all)
    (hd : DescentOk fc top names names.length) :
    ∀ e ∈ (walkEntries (walkFn fc rootBase incl) (names.foldl Join top) entries found).1,
      e ∈ found ∨ FoundBelow fc rootBase incl top topNode false e := by
  cases entries with
  | nil =>
    intro e he
    simp only [walkEntries] at he
    exact Or.inl he
  | cons b rest =>
    obtain ⟨name, n⟩ := b
    intro e he
    simp only [walkEntries] at he
    have hpath : Join (names.foldl Join top) name = (names ++ [name]).foldl Join top := by
      simp [List.foldl_append]
    have hd' : ∀ m, m + 1 = (names ++ [name]).length → DescentOk fc top (names ++ [name]) m := by
      intro m hm
      have : m = names.length := by simpa using hm
      subst this
      exact hd.snoc name
    have hat' : NodeAt topNode (names ++ [name]) n :=
      hat.append_entry (hsub (name, n) (List.mem_cons_self _ _))
    have h1 := walkDir_found fc rootBase incl top topNode (names ++ [name]) name n found hat' hd'
    rw [← hpath] at h1
    cases hw : walkDir (walkFn fc rootBase incl) (Join (names.foldl Join top) name) name n found with
    | mk s1 r =>
      rw [hw] at he h1
      simp only at h1
      have hsub' : ∀ b ∈ rest, b ∈ all := fun b hb => hsub b (List.mem_cons_of_mem _ hb)
      cases r with
      | nil =>
        simp only at he
        rcases walkEntries_found fc rootBase incl top topNode names rest s1 accessible all
            hat hsub' hd e he with h | h
        · exact h1 e h
        · exact Or.inr h
      | SkipDir =>
        simp only at he
        exact h1 e he
      | err x =>
        simp only at he
        exact h1 e he
end

theorem flatStep_found (fc : FileCollector) (rootBase : Str) (incl : ParsedIncludeEntry)
    (top : Str) (topNode : FsNode) (accessible : Bool) (all : List (Str × FsNode))
    (htop : topNode = .dir accessible all) (files : List FileInfo)
    (hfiles : ∀ f ∈ files, (f.Name, f.node) ∈ all) : ∀ (found : List FileEntry),
    ∀ e ∈ files.foldl (flatStep fc rootBase incl top) found,
      e ∈ found ∨ FoundBelow fc rootBase incl top topNode true e := by
  induction files with
  | nil =>
    intro found e he
    exact Or.inl he
  | cons file rest ih =>
    intro found e he
    simp only [List.foldl_cons] at he
    rcases ih (fun f hf => hfiles f (List.mem_cons_of_mem _ hf)) _ e he with h | h
    · unfold flatStep at h
      by_cases hdir : (!file.IsDir) = true
      · rw [if_pos hdir] at h
        simp only at h
        by_cases hcond : (!(isExcluded fc (Join top file.Name) false).1 &&
            matchFormat fc file.Name) = true
        · rw [if_pos hcond] at h
          simp only [Bool.and_eq_true, Bool.not_eq_true'] at hcond
          rcases List.mem_append.mp h with h | h
          · exact Or.inl h
          · simp only [List.mem_singleton] at h
            refine Or.inr ⟨[file.Name], file.Name, file.Size, ?_, ⟨file.node, ?_⟩, ?_, by simp⟩
            · simpa using h
            · rw [htop]
              exact NodeAt.step accessible all file.Name file.node [] file.node
                (hfiles file (List.mem_cons_self _ _)) (NodeAt.here _)
            · simpa using hcond.1
        · rw [if_neg hcond] at h
          exact Or.inl h
      · rw [if_neg hdir] at h
        exact Or.inl h
    · exact Or.inr h

theorem Stat_resolve (fs : FileSystem) (path : Str) (info : FileInfo)
    (h : Stat fs path = .ok info) : resolve fs path = .ok info.node := by
  unfold Stat at h
  cases hr : resolve fs path with
  | error x => rw [hr] at h; exact absurd h (by simp)
  | ok n =>
    rw [hr] at h
    simp only [Result.ok.injEq] at h
    rw [← h]

theorem scanInclude_found (fc : FileCollector) (fs : FileSystem) (rootBase : Str)
    (incl : ParsedIncludeEntry) (es : List FileEntry)
    (h : scanInclude fc fs rootBase incl = .ok es) :
    ∀ e ∈ es, ∃ topNode, resolve fs (Join fc.Config.Root incl.Path) = .ok topNode ∧
      FoundBelow fc rootBase incl (Join fc.Config.Root incl.Path) topNode
        incl.IsDirOnlyFiles e := by
  unfold scanInclude at h
  simp only at h
  cases hst : Stat fs (Join fc.Config.Root incl.Path) with
  | error x =>
    rw [hst] at h
    simp only at h
    split at h
    · simp only [Result.ok.injEq] at h
      subst h
      intro e he
      exact absurd he (List.not_mem_nil _)
    · exact absurd h (by simp)
  | ok info =>
    rw [hst] at h
    simp only at h
    have hres := Stat_resolve fs _ info hst
    by_cases hflat : (incl.IsDirOnlyFiles && info.IsDir) = true
    · rw [if_pos hflat] at h
      have hf : incl.IsDirOnlyFiles = true := by
        simp only [Bool.and_eq_true] at hflat
        exact hflat.1
      unfold ReadDir at h
      rw [hres] at h
      simp only at h
      cases hnode : info.node with
      | file content readable =>
        rw [hnode] at h
        simp [readDirNode] at h
      | dir accessible all =>
        rw [hnode] at h
        simp only [readDirNode] at h
        by_cases hacc : accessible = false
        · rw [if_pos hacc] at h
          exact absurd h (by simp)
        · rw [if_neg hacc] at h
          simp only [Result.ok.injEq] at h
          subst h
          intro e he
          have hfiles : ∀ f ∈ all.map (fun e =>
              ({ Name := e.1, IsDir := e.2.IsDir, Size := e.2.Size, node := e.2 } : FileInfo)),
              (f.Name, f.node) ∈ all := by
            intro f hf
            obtain ⟨b, hb, hbf⟩ := List.mem_map.mp hf
            rw [← hbf]
            exact hb
          rcases flatStep_found fc rootBase incl _ info.node accessible all hnode _ hfiles []
              e he with h | h
          · exact absurd h (List.not_mem_nil _)
          · rw [hf]
            exact ⟨info.node, hres, h⟩
    · rw [if_neg hflat] at h
      by_cases hdir : info.IsDir = true
      · rw [if_pos hdir] at h
        cases hw : WalkDir fs (Join fc.Config.Root incl.Path) (walkFn fc rootBase incl) [] with
        | mk found err =>
          rw [hw] at h
          cases err with
          | some x => exact absurd h (by simp)
          | none =>
            simp only [Result.ok.injEq] at h
            subst h
            intro e he
            have hmem : e ∈ ([] : List FileEntry) ∨
                FoundBelow fc rootBase incl (Join fc.Config.Root incl.Path) info.node false e := by
              unfold WalkDir at hw
              simp only [hres] at hw
              have hwalk := walkDir_found fc rootBase incl (Join fc.Config.Root incl.Path)
                info.node [] (Base (Join fc.Config.Root incl.Path)) info.node []
                (NodeAt.here _) (by intro n hn; simp at hn)
              simp only [List.foldl_nil] at hwalk
              cases hwd : walkDir (walkFn fc rootBase incl) (Join fc.Config.Root incl.Path)
                  (Base (Join fc.Config.Root incl.Path)) info.node [] with
              | mk s1 r =>
                rw [hwd] at hw hwalk
                cases r with
                | nil =>
                  simp only [Prod.mk.injEq] at hw
                  rw [← hw.1] at he
                  exact hwalk e he
                | SkipDir =>
                  simp only [Prod.mk.injEq] at hw
                  rw [← hw.1] at he
                  exact hwalk e he
                | err x => simp at hw
            rcases hmem with h | h
            · exact absurd h (List.not_mem_nil _)
            · obtain ⟨names, name, size, h1, h2, h3, h4⟩ := h
              exact ⟨info.node, hres, names, name, size, h1, h2, h3, fun _ => h4 rfl⟩
      · rw [if_neg hdir] at h
        by_cases hcond : (!(isExcluded fc (Join fc.Config.Root incl.Path) false).1 &&
            matchFormat fc info.Name) = true
        · rw [if_pos hcond] at h
          simp only [Result.ok.injEq] at h
          subst h
          intro e he
          simp only [List.mem_singleton] at he
          simp only [Bool.and_eq_true, Bool.not_eq_true'] at hcond
          refine ⟨info.node, hres, [], info.Name, info.Size, by simpa using he,
            ⟨info.node, NodeAt.here _⟩, by simpa using hcond.1, ?_⟩
          intro _ k hk
          have hk0 : k = 0 := by simpa using hk
          subst hk0
          simpa using hcond.1
        · rw [if_neg hcond] at h
          simp only [Result.ok.injEq] at h
          subst h
          intro e he
          exact absurd he (List.not_mem_nil _)

theorem FoundBelow.mode {fc : FileCollector} {rootBase : Str} {incl : ParsedIncludeEntry}
    {top : Str} {topNode : FsNode} {flat : Bool} {e : FileEntry}
    (h : FoundBelow fc rootBase incl top topNode flat e) : e.Mode = incl.Mode := by
  obtain ⟨names, name, size, h1, _, _, _⟩ := h
  rw [h1]
  rfl

theorem FoundBelow.sourcePath {fc : FileCollector} {rootBase : Str}
    {incl : ParsedIncludeEntry} {top : Str} {topNode : FsNode} {flat : Bool} {e : FileEntry}
    (h : FoundBelow fc rootBase incl top topNode flat e) :
    ∃ names fileNode, NodeAt topNode names fileNode ∧ e.SourcePath = names.foldl Join top ∧
      (isExcluded fc e.SourcePath false).1 = false ∧
      (flat = false → DescentOk fc top names names.length) := by
  obtain ⟨names, name, size, h1, ⟨fileNode, h2⟩, h3, h4⟩ := h
  refine ⟨names, fileNode, h2, ?_, ?_, h4⟩
  · rw [h1]; rfl
  · rw [h1]; exact h3

theorem recordAll_get?_of_not_mem (es : List FileEntry) (p : Str) :
    ∀ m : GoMap FileEntry, (∀ e ∈ es, e.Path ≠ p) →
      GoMap.get? (recordAll m es) p = GoMap.get? m p := by
  induction es with
  | nil => intro m _; rfl
  | cons x r ih =>
    intro m h
    simp only [recordAll, List.foldl_cons]
    have := ih (m.set x.Path x) (fun e he => h e (List.mem_cons_of_mem _ he))
    simp only [recordAll] at this
    rw [this, GoMap.get?_set, if_neg (h x (List.mem_cons_self _ _))]

theorem recordAll_get?_of_mem (es : List FileEntry) (p : Str) :
    ∀ m : GoMap FileEntry, (∃ e ∈ es, e.Path = p) →
      ∃ e ∈ es, e.Path = p ∧ GoMap.get? (recordAll m es) p = some e := by
  induction es with
  | nil =>
    intro m h
    obtain ⟨e, he, _⟩ := h
    exact absurd he (List.not_mem_nil _)
  | cons x r ih =>
    intro m h
    by_cases hr : ∃ e ∈ r, e.Path = p
    · obtain ⟨e, he, hp, hg⟩ := ih (m.set x.Path x) hr
      exact ⟨e, List.mem_cons_of_mem _ he, hp, by simpa [recordAll] using hg⟩
    · have hx : x.Path = p := by
        obtain ⟨e, he, hp⟩ := h
        rcases List.mem_cons.mp he with h1 | h1
        · subst h1; exact hp
        · exact absurd ⟨e, h1, hp⟩ hr
      refine ⟨x, List.mem_cons_self _ _, hx, ?_⟩
      have hnot : ∀ e ∈ r, e.Path ≠ p := fun e he hp => hr ⟨e, he, hp⟩
      have := recordAll_get?_of_not_mem r p (m.set x.Path x) hnot
      simp only [recordAll, List.foldl_cons] at this ⊢
      rw [this, GoMap.get?_set, if_pos hx]

theorem recordAll_mem (es : List FileEntry) : ∀ (m : GoMap FileEntry) (b : Str × FileEntry),
    b ∈ recordAll m es → b ∈ m ∨ b.2 ∈ es := by
  induction es with
  | nil => intro m b h; exact Or.inl h
  | cons x r ih =>
    intro m b h
    simp only [recordAll, List.foldl_cons] at h
    rcases ih (m.set x.Path x) b h with h1 | h1
    · rcases GoMap.mem_set m x.Path x b h1 with h2 | h2
      · subst h2
        exact Or.inr (List.mem_cons_self _ _)
      · exact Or.inl h2
    · exact Or.inr (List.mem_cons_of_mem _ h1)

theorem scanAll_append (fc : FileCollector) (fs : FileSystem) (rootBase : Str)
    (pre : List ParsedIncludeEntry) : ∀ (post : List ParsedIncludeEntry)
    (m m' : GoMap FileEntry), scanAll fc fs rootBase (pre ++ post) m = .ok m' →
    ∃ m1, scanAll fc fs rootBase pre m = .ok m1 ∧ scanAll fc fs rootBase post m1 = .ok m' := by
  induction pre with
  | nil =>
    intro post m m' h
    exact ⟨m, rfl, h⟩
  | cons incl rest ih =>
    intro post m m' h
    simp only [List.cons_append, scanAll] at h ⊢
    cases hsc : scanInclude fc fs rootBase incl with
    | error e => rw [hsc] at h; exact absurd h (by simp)
    | ok es =>
      rw [hsc] at h
      exact ih post _ m' h

theorem scanAll_get?_of_not_found (fc : FileCollector) (fs : FileSystem) (rootBase : Str)
    (p : Str) (post : List ParsedIncludeEntry) : ∀ (m m' : GoMap FileEntry),
    scanAll fc fs rootBase post m = .ok m' →
    (∀ incl ∈ post, ∀ es, scanInclude fc fs rootBase incl = .ok es → ∀ e ∈ es, e.Path ≠ p) →
    GoMap.get? m' p = GoMap.get? m p := by
  induction post with
  | nil =>
    intro m m' h _
    simp only [scanAll, Result.ok.injEq] at h
    rw [h]
  | cons incl rest ih =>
    intro m m' h hnot
    simp only [scanAll] at h
    cases hsc : scanInclude fc fs rootBase incl with
    | error e => rw [hsc] at h; exact absurd h (by simp)
    | ok es =>
      rw [hsc] at h
      rw [ih _ m' h (fun i hi => hnot i (List.mem_cons_of_mem _ hi))]
      exact recordAll_get?_of_not_mem es p m (hnot incl (List.mem_cons_self _ _) es hsc)

theorem scanAll_mem (fc : FileCollector) (fs : FileSystem) (rootBase : Str)
    (incls : List ParsedIncludeEntry) : ∀ (m m' : GoMap FileEntry) (b : Str × FileEntry),
    scanAll fc fs rootBase incls m = .ok m' → b ∈ m' →
    b ∈ m ∨ ∃ incl ∈ incls, ∃ es, scanInclude fc fs rootBase incl = .ok es ∧ b.2 ∈ es := by
  induction incls with
  | nil =>
    intro m m' b h hb
    simp only [scanAll, Result.ok.injEq] at h
    subst h
    exact Or.inl hb
  | cons incl rest ih =>
    intro m m' b h hb
    simp only [scanAll] at h
    cases hsc : scanInclude fc fs rootBase incl with
    | error e => rw [hsc] at h; exact absurd h (by simp)
    | ok es =>
      rw [hsc] at h
      rcases ih _ m' b h hb with h1 | h1
      · rcases recordAll_mem es m b h1 with h2 | h2
        · exact Or.inl h2
        · exact Or.inr ⟨incl, List.mem_cons_self _ _, es, hsc, h2⟩
      · obtain ⟨i, hi, es', hes', hb'⟩ := h1
        exact Or.inr ⟨i, List.mem_cons_of_mem _ hi, es', hes', hb'⟩

theorem mem_sortByPath_iter (ord : MapOrder)
    (foundFiles : GoMap FileEntry) (e : FileEntry) :
    e ∈ sortByPath (ord.iter (GoMap.values foundFiles)) ↔ e ∈ GoMap.values foundFiles :=
  ((sortByPath_perm _).trans (ord.iter_perm _)).mem_iff

/-- C8: if the directive `incl` of the include list finds a file with display path
`e.Path` and no later directive of the list finds that path, then the result of
`PreviewFiles` has exactly one entry with that path, and its mode is the mode of
`incl`. -/
theorem PreviewFiles_last_directive_mode (fc : FileCollector) (fs : FileSystem)
    (ord : MapOrder) (res : List FileEntry) (pre post : List ParsedIncludeEntry)
    (incl : ParsedIncludeEntry) (es : List FileEntry) (e : FileEntry)
    (h : PreviewFiles fc fs ord = some (.ok res))
    (hincl : parseInclude fc = some (pre ++ incl :: post))
    (hes : scanInclude fc fs (Base fc.Config.Root) incl = .ok es) (he : e ∈ es)
    (hlast : ∀ incl' ∈ post, ∀ es', scanInclude fc fs (Base fc.Config.Root) incl' = .ok es' →
      ∀ e' ∈ es', e'.Path ≠ e.Path) :
    ∃ e' ∈ res, e'.Path = e.Path ∧ e'.Mode = incl.Mode ∧
      ∀ e'' ∈ res, e''.Path = e.Path → e'' = e' := by
  obtain ⟨incls, foundFiles, hp, hs, hinv, hres⟩ := PreviewFiles_eq_some fc fs ord res h
  rw [hincl] at hp
  simp only [Option.some.injEq] at hp
  subst hp
  obtain ⟨m1, _, h2⟩ := scanAll_append fc fs _ pre (incl :: post) [] foundFiles hs
  simp only [scanAll, hes] at h2
  obtain ⟨e2, he2, hp2, hg2⟩ := recordAll_get?_of_mem es e.Path m1 ⟨e, he, rfl⟩
  have hget : GoMap.get? foundFiles e.Path = some e2 := by
    rw [scanAll_get?_of_not_found fc fs _ e.Path post _ foundFiles h2 hlast]
    exact hg2
  have hmem := GoMap.mem_of_get?_eq_some foundFiles e.Path e2 hget
  refine ⟨e2, ?_, hp2, ?_, ?_⟩
  · rw [hres, mem_sortByPath_iter]
    exact List.mem_map.mpr ⟨(e.Path, e2), hmem, rfl⟩
  · obtain ⟨_, _, hfb⟩ := scanInclude_found fc fs _ incl es hes e2 he2
    exact hfb.mode
  · intro e'' he'' hp''
    rw [hres, mem_sortByPath_iter] at he''
    obtain ⟨b, hb, hb2⟩ := List.mem_map.mp he''
    obtain ⟨k, v⟩ := b
    simp only at hb2
    subst hb2
    have hk : k = v.Path := hinv.2 (k, v) hb
    have := GoMap.get?_eq_some_of_mem foundFiles k v hinv.1 hb
    rw [hk, hp'', hget] at this
    simp only [Option.some.injEq] at this
    exact this.symm

theorem glob_false_of_not_excluded (lib : RegexpLib) (cfg : Config) (fc : FileCollector)
    (err : Option OsError) (path : Str) (h : NewFileCollector lib cfg = some (fc, err))
    (hex : (isExcluded fc path false).1 = false) :
    ∀ g ∈ cfg.ExcludePatterns, HasPrefix g ['/'] = false →
      matchIgnoringErr g (Base path) = false := by
  intro g hg hpre
  rw [isExcluded_eq_any lib cfg fc err path false h] at hex
  simp only [List.any_eq_false] at hex
  have hg' := hex g hg
  unfold patternExcludes at hg'
  have hre : isRegexPattern g = false := by
    simp [isRegexPattern, hpre]
  simp only [hre, hpre, Bool.false_eq_true, if_false] at hg'
  cases hm : matchIgnoringErr g (Base path) with
  | false => rfl
  | true => simp [hm] at hg'

/-- C2 (as amended): every entry that `PreviewFiles` returns was found by an include
directive by descending in the file tree from the directive's target through the
entries `names` to the file; no glob of the exclusion patterns (a pattern that does not
begin with a slash) matches the base name of the file, and for a directive without the
flat marker no glob matches the base name of the target or of a directory on the
descent.  So a directory whose base name matches a glob is pruned from every walk that
reaches it. -/
theorem PreviewFiles_descent_not_excluded (lib : RegexpLib) (cfg : Config)
    (fc : FileCollector) (err : Option OsError) (fs : FileSystem) (ord : MapOrder)
    (res : List FileEntry) (hnew : NewFileCollector lib cfg = some (fc, err))
    (h : PreviewFiles fc fs ord = some (.ok res)) :
    ∀ e ∈ res, ∃ (incls : List ParsedIncludeEntry) (incl : ParsedIncludeEntry)
        (topNode fileNode : FsNode) (names : List Str),
      parseInclude fc = some incls ∧ incl ∈ incls ∧
      resolve fs (Join cfg.Root incl.Path) = .ok topNode ∧ NodeAt topNode names fileNode ∧
      e.SourcePath = names.foldl Join (Join cfg.Root incl.Path) ∧
      (∀ g ∈ cfg.ExcludePatterns, HasPrefix g ['/'] = false →
        matchIgnoringErr g (Base e.SourcePath) = false) ∧
      (incl.IsDirOnlyFiles = false → ∀ k, k ≤ names.length →
        ∀ g ∈ cfg.ExcludePatterns, HasPrefix g ['/'] = false →
          matchIgnoringErr g (Base ((names.take k).foldl Join (Join cfg.Root incl.Path)))
            = false) := by
  intro e he
  obtain ⟨incls, foundFiles, hp, hs, _, hres⟩ := PreviewFiles_eq_some fc fs ord res h
  obtain ⟨hcfg, _, _⟩ := NewFileCollector_spec lib cfg fc err hnew
  rw [hres, mem_sortByPath_iter] at he
  obtain ⟨b, hb, hb2⟩ := List.mem_map.mp he
  rcases scanAll_mem fc fs _ incls [] foundFiles b hs hb with h0 | h0
  · exact absurd h0 (List.not_mem_nil _)
  · obtain ⟨incl, hincl, es, hes, hbe⟩ := h0
    rw [hb2] at hbe
    obtain ⟨topNode, htop, hfb⟩ := scanInclude_found fc fs _ incl es hes e hbe
    obtain ⟨names, fileNode, hat, hsrc, hex, hdesc⟩ := hfb.sourcePath
    rw [hcfg] at hsrc hdesc htop
    refine ⟨incls, incl, topNode, fileNode, names, hp, hincl, htop, hat, hsrc, ?_, ?_⟩
    · exact glob_false_of_not_excluded lib cfg fc err _ hnew hex
    · intro hflat k hk
      exact glob_false_of_not_excluded lib cfg fc err _ hnew (hdesc hflat k hk)

/-- C2, closed instance: the whole root of `sampleFs` is scanned with `node_modules`
excluded. -/
theorem PreviewFiles_descent_not_excluded_witness :
    NewFileCollector literalLib wholeRootConfig = some (plainCollector wholeRootConfig, none) ∧
    PreviewFiles (plainCollector wholeRootConfig) sampleFs storedOrder =
      some (.ok [mainGoEntry, subGoEntry "both".toList]) ∧
    ∀ e ∈ [mainGoEntry, subGoEntry "both".toList],
      ∃ (incls : List ParsedIncludeEntry) (incl : ParsedIncludeEntry)
        (topNode fileNode : FsNode) (names : List Str),
      parseInclude (plainCollector wholeRootConfig) = some incls ∧ incl ∈ incls ∧
      resolve sampleFs (Join wholeRootConfig.Root incl.Path) = .ok topNode ∧
      NodeAt topNode names fileNode ∧
      e.SourcePath = names.foldl Join (Join wholeRootConfig.Root incl.Path) ∧
      (∀ g ∈ wholeRootConfig.ExcludePatterns, HasPrefix g ['/'] = false →
        matchIgnoringErr g (Base e.SourcePath) = false) ∧
      (incl.IsDirOnlyFiles = false → ∀ k, k ≤ names.length →
        ∀ g ∈ wholeRootConfig.ExcludePatterns, HasPrefix g ['/'] = false →
          matchIgnoringErr g
            (Base ((names.take k).foldl Join (Join wholeRootConfig.Root incl.Path))) = false) :=
  ⟨rfl, by decide,
    PreviewFiles_descent_not_excluded literalLib wholeRootConfig
      (plainCollector wholeRootConfig) none sampleFs storedOrder _ rfl (by decide)⟩

/-- C2 as stated fails: `node_modules` is a directory of `sampleFs` under the root
whose base name the exclusion glob `node_modules` matches; for the recursive directive
`node_modules/pkg`, the flat directive `node_modules/pkg/*` and the single file
`node_modules/pkg/file.js`, each of which targets a path inside that directory,
`PreviewFiles` returns the entry of `node_modules/pkg/file.js`. -/
theorem PreviewFiles_inside_excluded_counterexample :
    NewFileCollector literalLib (insideExcludedConfig "node_modules/pkg".toList) =
      some (plainCollector (insideExcludedConfig "node_modules/pkg".toList), none) ∧
    "node_modules".toList ∈ (insideExcludedConfig "node_modules/pkg".toList).ExcludePatterns ∧
    (match Stat sampleFs "/proj/node_modules".toList with
      | .ok info => info.IsDir
      | .error _ => false) = true ∧
    Match "node_modules".toList (Base "/proj/node_modules".toList) = some true ∧
    fileJsEntry.SourcePath = "/proj/node_modules/pkg/file.js".toList ∧
    PreviewFiles (plainCollector (insideExcludedConfig "node_modules/pkg".toList)) sampleFs
      storedOrder = some (.ok [fileJsEntry]) ∧
    PreviewFiles (plainCollector (insideExcludedConfig "node_modules/pkg/*".toList)) sampleFs
      storedOrder = some (.ok [fileJsEntry]) ∧
    PreviewFiles (plainCollector (insideExcludedConfig "node_modules/pkg/file.js".toList))
      sampleFs storedOrder = some (.ok [fileJsEntry]) := by
  refine ⟨rfl, by decide, by decide, by decide, rfl, by decide, by decide, by decide⟩

/-- C7, closed instance: the scan of `src` and `src/sub:path` in `sampleFs`. -/
theorem PreviewFiles_sorted_witness :
    PreviewFiles (plainCollector dedupConfig) sampleFs storedOrder =
      some (.ok [mainGoEntry, subGoEntry "path".toList]) ∧
    (List.Pairwise (fun a b => strLess a.Path b.Path = true)
        [mainGoEntry, subGoEntry "path".toList] ∧
      ∀ ord' : MapOrder, PreviewFiles (plainCollector dedupConfig) sampleFs ord' =
        some (.ok [mainGoEntry, subGoEntry "path".toList])) :=
  ⟨by decide, PreviewFiles_sorted (plainCollector dedupConfig) sampleFs storedOrder _ (by decide)⟩

/-- C8, closed instance: with the include list `src`, `src/sub:path` the file
`src/sub/a.go` is found by both directives, and its entry in the result has mode
`path`. -/
theorem PreviewFiles_last_directive_mode_witness :
    PreviewFiles (plainCollector dedupConfig) sampleFs storedOrder =
      some (.ok [mainGoEntry, subGoEntry "path".toList]) ∧
    parseInclude (plainCollector dedupConfig) =
      some ([{ Path := "src".toList, Mode := "both".toList, IsDirOnlyFiles := false }] ++
        { Path := "src/sub".toList, Mode := "path".toList, IsDirOnlyFiles := false } :: []) ∧
    scanInclude (plainCollector dedupConfig) sampleFs (Base (plainCollector dedupConfig).Config.Root)
        { Path := "src".toList, Mode := "both".toList, IsDirOnlyFiles := false } =
      .ok [mainGoEntry, subGoEntry "both".toList] ∧
    scanInclude (plainCollector dedupConfig) sampleFs (Base (plainCollector dedupConfig).Config.Root)
        { Path := "src/sub".toList, Mode := "path".toList, IsDirOnlyFiles := false } =
      .ok [subGoEntry "path".toList] ∧
    ∃ e' ∈ [mainGoEntry, subGoEntry "path".toList],
      e'.Path = (subGoEntry "path".toList).Path ∧ e'.Mode = "path".toList ∧
      ∀ e'' ∈ [mainGoEntry, subGoEntry "path".toList],
        e''.Path = (subGoEntry "path".toList).Path → e'' = e' :=
  ⟨by decide, by decide, by decide, by decide,
    PreviewFiles_last_directive_mode (plainCollector dedupConfig) sampleFs storedOrder
      [mainGoEntry, subGoEntry "path".toList]
      [{ Path := "src".toList, Mode := "both".toList, IsDirOnlyFiles := false }] []
      { Path := "src/sub".toList, Mode := "path".toList, IsDirOnlyFiles := false }
      [subGoEntry "path".toList] (subGoEntry "path".toList)
      (by decide) (by decide) (by decide) (by decide)
      (fun incl' h => absurd h (List.not_mem_nil _))⟩

/-- C4, closed instance: `src/main.go` of `sampleFs` in mode `both`. -/
theorem processFile_content_normalized_witness :
    processFile literalLib sampleFs (plainCollector dedupConfig) mainGoEntry =
      .ok (some [("content".toList, "package main func main() {}".toList),
        ("path".toList, "proj/src/main.go".toList)]) ∧
    GoMap.get? [("content".toList, "package main func main() {}".toList),
        ("path".toList, "proj/src/main.go".toList)] "content".toList =
      some "package main func main() {}".toList ∧
    ((∀ c ∈ "package main func main() {}".toList,
        c ≠ '\n' ∧ c ≠ '\r' ∧ c ≠ '\t' ∧ c ≠ '\x0c') ∧
      List.Chain' (fun a b => ¬ (a = ' ' ∧ b = ' ')) "package main func main() {}".toList ∧
      (∀ c, "package main func main() {}".toList.head? = some c → isSpace c = false) ∧
      (∀ c, "package main func main() {}".toList.getLast? = some c → isSpace c = false)) :=
  ⟨by decide, by decide,
    processFile_content_normalized literalLib sampleFs (plainCollector dedupConfig) mainGoEntry
      [("content".toList, "package main func main() {}".toList),
        ("path".toList, "proj/src/main.go".toList)]
      "package main func main() {}".toList (by decide) (by decide)⟩

/-- C6, closed instance: `src/main.go` of `sampleFs`, which can be read. -/
theorem processFile_keys_witness :
    ReadFile sampleFs mainGoEntry.SourcePath = .ok "package  main\n\nfunc main() {}\n".toList ∧
    ((mainGoEntry.Mode = "path".toList →
        processFile literalLib sampleFs (plainCollector dedupConfig) mainGoEntry =
          .ok (some [("path".toList, mainGoEntry.Path)])) ∧
      (mainGoEntry.Mode = "content".toList →
        ∃ v, processFile literalLib sampleFs (plainCollector dedupConfig) mainGoEntry =
          .ok (some [("content".toList, v)])) ∧
      (mainGoEntry.Mode = "both".toList →
        ∃ v, processFile literalLib sampleFs (plainCollector dedupConfig) mainGoEntry =
          .ok (some [("content".toList, v), ("path".toList, mainGoEntry.Path)]))) :=
  ⟨by decide,
    processFile_keys literalLib sampleFs (plainCollector dedupConfig) mainGoEntry
      "package  main\n\nfunc main() {}\n".toList (by decide)⟩

/-! ### Include entries: one directive per non-blank entry -/

theorem TrimSpace_eq_nil_iff (s : Str) : TrimSpace s = [] ↔ isBlank s = true := by
  unfold TrimSpace dropWhileEnd isBlank
  rw [List.reverse_eq_nil_iff, List.all_eq_true]
  constructor
  · intro h
    have hd : s.dropWhile isSpace = [] := by
      cases hu : s.dropWhile isSpace with
      | nil => rfl
      | cons c u =>
        exfalso
        have hc : isSpace c = false := head?_dropWhile_false isSpace s c (by rw [hu]; rfl)
        rw [List.dropWhile_eq_nil_iff] at h
        have := h c (by rw [hu]; simp)
        rw [hc] at this
        exact Bool.false_ne_true this
    exact List.dropWhile_eq_nil_iff.mp hd
  · intro h
    rw [List.dropWhile_eq_nil_iff.mpr h]
    rfl

theorem filter_not_blank (entries : List Str) :
    entries.filter (fun e => decide (TrimSpace e ≠ [])) = entries.filter (fun e => !isBlank e) := by
  apply List.filter_congr
  intro e _
  by_cases h : isBlank e = true
  · simp [h, (TrimSpace_eq_nil_iff e).mpr h]
  · have h2 : TrimSpace e ≠ [] := fun ht => h ((TrimSpace_eq_nil_iff e).mp ht)
    simp [h, h2]

/-- C11: `parseInclude` always returns a list of directives, and that list holds exactly
one directive for each include entry that is not blank (empty or white space only): the
directives are the readings of the non-blank entries, in the order of the entries, so
their number is the number of non-blank entries and a blank entry gives none. -/
theorem parseInclude_one_per_entry (fc : FileCollector) :
    ∃ ds, parseInclude fc = some ds ∧
      List.Forall₂ (fun entry d => parseIncludeEntry entry = some d)
        (fc.Config.Include.filter (fun e => !isBlank e)) ds ∧
      ds.length = (fc.Config.Include.filter (fun e => !isBlank e)).length := by
  obtain ⟨ds, h1, h2⟩ := parseInclude_spec fc
  rw [filter_not_blank] at h2
  have hf := forall₂_of_map_some parseIncludeEntry
    (fun entry d => parseIncludeEntry entry = some d) (fun _ _ h => h) _ ds h2
  exact ⟨ds, h1, hf, hf.length_eq.symm⟩

/-- C12: the path of a directive is not always trimmed.  The entry `  src  ` (two blanks
on either side, no mode) gives the path `  src  ` with its blanks, while the entry
`  src  :path` gives the path `src`: only the branch for an entry with a colon trims. -/
theorem parseInclude_untrimmed_path :
    parseInclude (plainCollector (sampleConfig ["  src  ".toList] [])) =
        some [{ Path := "  src  ".toList, Mode := "both".toList, IsDirOnlyFiles := false }] ∧
      parseInclude (plainCollector (sampleConfig ["  src  :path".toList] [])) =
        some [{ Path := "src".toList, Mode := "path".toList, IsDirOnlyFiles := false }] := by
  decide

/-- C13: the format filter lowers the case of the file extension only.  With the format
list `GO` neither `main.go` nor `main.GO` is accepted, while with the format list `go`
both `main.go` and `MAIN.GO` are; with an empty format list no file is accepted. -/
theorem matchFormat_upper_case_format :
    matchFormat (rulesCollector ["GO".toList] []) "main.go".toList = false ∧
      matchFormat (rulesCollector ["GO".toList] []) "main.GO".toList = false ∧
      matchFormat (rulesCollector ["go".toList] []) "main.go".toList = true ∧
      matchFormat (rulesCollector ["go".toList] []) "MAIN.GO".toList = true ∧
      (∀ filename, matchFormat (rulesCollector [] []) filename = false) := by
  refine ⟨by decide, by decide, by decide, by decide, ?_⟩
  intro filename
  simp [matchFormat, rulesCollector]

/-- C14: with the exclusion pattern `/` (a single slash) `NewFileCollector` faults,
whatever the regular-expression library: the pattern both begins and ends with a slash,
and the regex body is the slice from index 1 to index 0, which is out of range. -/
theorem NewFileCollector_single_slash (lib : RegexpLib) :
    sliceStr ['/'] 1 (['/'].length - 1) = none ∧
      NewFileCollector lib (sampleConfig [] [['/']]) = none := by
  constructor
  · decide
  · rfl


/-! ### Content exclusions: which rules apply, in which order -/

theorem ApplyContentExclusions_eq_foldl (lib : RegexpLib) (fc : FileCollector)
    (content fileExt : Str) :
    ApplyContentExclusions lib fc content fileExt =
      (fc.Config.ContentExclusions.foldl (applyExclusion lib fileExt) content, none) := by
  unfold ApplyContentExclusions
  split
  · rename_i h
    rw [List.length_eq_zero.mp h]
    rfl
  · rfl

theorem ApplyContentExclusions_withRules (lib : RegexpLib) (fc : FileCollector)
    (rules : List ContentExclusionRule) (content fileExt : Str) :
    ApplyContentExclusions lib (withRules fc rules) content fileExt =
      (rules.foldl (applyExclusion lib fileExt) content, none) :=
  ApplyContentExclusions_eq_foldl lib (withRules fc rules) content fileExt

theorem matchIgnoringErr_eq (pattern name : Str) :
    matchIgnoringErr pattern name = decide (Match pattern name = some true) := by
  unfold matchIgnoringErr
  cases h : Match pattern name with
  | none => simp
  | some b => cases b <;> simp

theorem applyExclusion_not_applies (lib : RegexpLib) (fileExt content : Str)
    (rule : ContentExclusionRule) (h : claimedApplies rule fileExt = false) :
    applyExclusion lib fileExt content rule = content := by
  unfold claimedApplies at h
  simp only [Bool.or_eq_false_iff, decide_eq_false_iff_not] at h
  obtain ⟨⟨h1, h2⟩, h3⟩ := h
  unfold applyExclusion
  simp [h1, matchIgnoringErr_eq, h2, h3]

theorem applyExclusion_applies (lib : RegexpLib) (fileExt content : Str)
    (rule : ContentExclusionRule) (h : claimedApplies rule fileExt = true) :
    applyExclusion lib fileExt content rule =
      applyExclusion lib fileExt content { rule with FilePattern := ['*'] } := by
  unfold claimedApplies at h
  simp only [Bool.or_eq_true, decide_eq_true_eq] at h
  unfold applyExclusion
  by_cases h1 : rule.FilePattern = ['*']
  · simp [h1]
  · have h2 : (matchIgnoringErr rule.FilePattern fileExt ||
        matchIgnoringErr rule.FilePattern ('.' :: fileExt)) = true := by
      rw [matchIgnoringErr_eq, matchIgnoringErr_eq]
      simp only [Bool.or_eq_true, decide_eq_true_eq]
      tauto
    simp [h1, h2]

theorem foldl_applyExclusion_not_applies (lib : RegexpLib) (fileExt : Str) :
    ∀ (rules : List ContentExclusionRule) (content : Str),
      (∀ rule ∈ rules, claimedApplies rule fileExt = false) →
      rules.foldl (applyExclusion lib fileExt) content = content := by
  intro rules
  induction rules with
  | nil => intro content _; rfl
  | cons rule rest ih =>
    intro content h
    rw [List.foldl_cons, applyExclusion_not_applies lib fileExt content rule
      (h rule (List.mem_cons_self _ _))]
    exact ih content (fun r hr => h r (List.mem_cons_of_mem _ hr))

/-- C15: a content-exclusion rule applies to a file with extension `e` exactly when its
file pattern is `*`, or glob-matches `e`, or glob-matches `.` + `e`: a rule for which
none of the three holds leaves every content as it is, and a rule for which one holds
acts as the same rule with the file pattern `*` does.  The patterns `vue` and `*.vue`
apply to the extension `vue` and not to `js`, where the `<style>` rule with either
pattern removes the block for `vue` and nothing for `js`.  When no rule of the list
applies to `e`, `ApplyContentExclusions` returns the content unchanged. -/
theorem applyExclusion_applies_iff (lib : RegexpLib) (fc : FileCollector) (e : Str) :
    (∀ rule content, claimedApplies rule e = false →
        applyExclusion lib e content rule = content) ∧
      (∀ rule content, claimedApplies rule e = true →
        applyExclusion lib e content rule =
          applyExclusion lib e content { rule with FilePattern := ['*'] }) ∧
      (∀ pattern ∈ ["vue".toList, "*.vue".toList],
        claimedApplies { blockRule pattern with Start := "<style>".toList,
                                                End := "</style>".toList } "vue".toList = true ∧
        claimedApplies { blockRule pattern with Start := "<style>".toList,
                                                End := "</style>".toList } "js".toList = false ∧
        applyExclusion lib "vue".toList "A<style>B</style>C".toList
          { blockRule pattern with Start := "<style>".toList, End := "</style>".toList } =
            "AC".toList ∧
        applyExclusion lib "js".toList "A<style>B</style>C".toList
          { blockRule pattern with Start := "<style>".toList, End := "</style>".toList } =
            "A<style>B</style>C".toList) ∧
      (∀ content, (∀ rule ∈ fc.Config.ContentExclusions, claimedApplies rule e = false) →
        ApplyContentExclusions lib fc content e = (content, none)) := by
  refine ⟨fun rule content h => applyExclusion_not_applies lib e content rule h,
    fun rule content h => applyExclusion_applies lib e content rule h, ?_, ?_⟩
  · intro pattern hp
    simp only [List.mem_cons, List.mem_singleton, List.not_mem_nil, or_false] at hp
    rcases hp with rfl | rfl
    · exact ⟨by decide, by decide, rfl, rfl⟩
    · exact ⟨by decide, by decide, rfl, rfl⟩
  · intro content h
    rw [ApplyContentExclusions_eq_foldl, foldl_applyExclusion_not_applies lib e _ content h]

/-- C16: content-exclusion rules are applied in the declared order, each to the output
of the one before: with the rules `r1 ++ r2` the result of `ApplyContentExclusions` on a
content is the result with the rules `r2` on the result with the rules `r1`. -/
theorem ApplyContentExclusions_append (lib : RegexpLib) (fc : FileCollector)
    (r1 r2 : List ContentExclusionRule) (c e : Str) :
    ApplyContentExclusions lib (withRules fc (r1 ++ r2)) c e =
      ApplyContentExclusions lib (withRules fc r2)
        (ApplyContentExclusions lib (withRules fc r1) c e).1 e := by
  simp only [ApplyContentExclusions_withRules, List.foldl_append]

theorem regexpPattern_cases (pattern : Str) :
    regexpPattern pattern = pattern ∨ regexpPattern pattern = "(?s)".toList ++ pattern := by
  unfold regexpPattern
  split
  · split
    · exact Or.inr rfl
    · exact Or.inl rfl
  · exact Or.inl rfl

theorem applyExclusion_regexp (lib : RegexpLib) (fileExt content : Str)
    (rule : ContentExclusionRule) (happ : claimedApplies rule fileExt = true)
    (ht : rule.RuleType = "regexp".toList) (hp : rule.Pattern ≠ []) :
    applyExclusion lib fileExt content rule =
      match lib.Compile (regexpPattern rule.Pattern) with
      | none => content
      | some re => re.ReplaceAllString content [] := by
  rw [applyExclusion_applies lib fileExt content rule happ]
  unfold applyExclusion regexpPattern
  have hne : "regexp".toList ≠ "delimiters".toList := by decide
  simp only [ht, hne, hp, if_true, if_false, ne_eq, not_false_eq_true, Bool.not_true,
    Bool.false_eq_true]

theorem applyExclusion_ignored (lib : RegexpLib) (fileExt content : Str)
    (rule : ContentExclusionRule)
    (h : (rule.RuleType ≠ "delimiters".toList ∧ rule.RuleType ≠ "regexp".toList) ∨
      (rule.RuleType = "regexp".toList ∧ lib.Compile (regexpPattern rule.Pattern) = none) ∨
      (rule.RuleType = "regexp".toList ∧ lib.Compile rule.Pattern = none ∧ KeepsErrors lib)) :
    applyExclusion lib fileExt content rule = content := by
  by_cases happ : claimedApplies rule fileExt = true
  · have hcomp : rule.RuleType = "regexp".toList →
        lib.Compile (regexpPattern rule.Pattern) = none →
        applyExclusion lib fileExt content rule = content := by
      intro ht hc
      by_cases hp : rule.Pattern = []
      · rw [applyExclusion_applies lib fileExt content rule happ]
        unfold applyExclusion
        have hne : "regexp".toList ≠ "delimiters".toList := by decide
        simp [ht, hne, hp]
      · rw [applyExclusion_regexp lib fileExt content rule happ ht hp, hc]
    rcases h with ⟨h1, h2⟩ | ⟨ht, hc⟩ | ⟨ht, hc, hk⟩
    · have h1n : ¬ rule.RuleType = ['d', 'e', 'l', 'i', 'm', 'i', 't', 'e', 'r', 's'] := h1
      have h2n : ¬ rule.RuleType = ['r', 'e', 'g', 'e', 'x', 'p'] := h2
      rw [applyExclusion_applies lib fileExt content rule happ]
      unfold applyExclusion
      simp [h1n, h2n]
    · exact hcomp ht hc
    · apply hcomp ht
      rcases regexpPattern_cases rule.Pattern with hr | hr
      · rw [hr]; exact hc
      · rw [hr]; exact hk _ hc
  · exact applyExclusion_not_applies lib fileExt content rule (by simpa using happ)

theorem literalLib_keepsErrors : KeepsErrors literalLib := by
  intro pattern _
  simp [literalLib]

/-- C17: a content-exclusion rule whose type is neither `delimiters` nor `regexp`, or a
`regexp` rule whose pattern does not compile (the pattern handed to the library does not
compile, or the configured pattern does not and the library keeps a compile error behind
the flag group `(?s)`), has no effect and does not stop the other rules: the result of
`ApplyContentExclusions` is the result with that rule removed from the list, and the
returned error is nil. -/
theorem ApplyContentExclusions_ignored_rule (lib : RegexpLib) (fc : FileCollector)
    (before after : List ContentExclusionRule) (rule : ContentExclusionRule) (c e : Str)
    (h : (rule.RuleType ≠ "delimiters".toList ∧ rule.RuleType ≠ "regexp".toList) ∨
      (rule.RuleType = "regexp".toList ∧ lib.Compile (regexpPattern rule.Pattern) = none) ∨
      (rule.RuleType = "regexp".toList ∧ lib.Compile rule.Pattern = none ∧ KeepsErrors lib)) :
    ApplyContentExclusions lib (withRules fc (before ++ rule :: after)) c e =
        ApplyContentExclusions lib (withRules fc (before ++ after)) c e ∧
      (ApplyContentExclusions lib (withRules fc (before ++ rule :: after)) c e).2 = none := by
  simp only [ApplyContentExclusions_withRules, List.foldl_append, List.foldl_cons,
    applyExclusion_ignored lib e _ rule h, and_self]

/-- Witness for C17: between two rules that delete `/*` ... `*/` and `<` ... `>` spans, a
`regexp` rule with the pattern `[`, which the library does not compile, changes nothing:
the content `a/*x*/b[<y>c` becomes `ab[c` with and without it. -/
theorem ApplyContentExclusions_ignored_rule_witness :
    (regexpRule ['[']).RuleType = "regexp".toList ∧
      literalLib.Compile (regexpRule ['[']).Pattern = none ∧
      ApplyContentExclusions literalLib
        (withRules styleCollector
          ([blockRule ['*']] ++ regexpRule ['['] ::
            [{ blockRule ['*'] with Start := ['<'], End := ['>'] }]))
        "a/*x*/b[<y>c".toList "js".toList = ("ab[c".toList, none) ∧
      ApplyContentExclusions literalLib
        (withRules styleCollector
          ([blockRule ['*']] ++ [{ blockRule ['*'] with Start := ['<'], End := ['>'] }]))
        "a/*x*/b[<y>c".toList "js".toList = ("ab[c".toList, none) := by
  have h := ApplyContentExclusions_ignored_rule literalLib styleCollector [blockRule ['*']]
    [{ blockRule ['*'] with Start := ['<'], End := ['>'] }] (regexpRule ['['])
    "a/*x*/b[<y>c".toList "js".toList
    (Or.inr (Or.inr ⟨rfl, rfl, literalLib_keepsErrors⟩))
  refine ⟨rfl, rfl, ?_, by decide⟩
  rw [h.1]
  decide


/-! ### Content exclusions: the pattern of a `regexp` rule, and the extension of a file -/

theorem regexpPattern_eq_guardedPattern (pattern : Str) :
    regexpPattern pattern = guardedPattern pattern := by
  unfold regexpPattern guardedPattern
  cases HasPrefix pattern "(?s)".toList <;> cases HasPrefix pattern "(?i)".toList <;>
    cases HasPrefix pattern "(?m)".toList <;> cases Contains pattern ['\\', 'A'] <;>
    cases Contains pattern ['\\', 'z'] <;> rfl

/-- C18, as the code has it: for a `regexp` rule that applies to the file and has a
pattern, the pattern handed to the library is the configured pattern unchanged when that
pattern begins with `(?s)`, `(?i)` or `(?m)` or contains `\A` or `\z`, and `(?s)` followed
by the configured pattern otherwise; the rule replaces every match of the compiled
pattern by nothing, and leaves the content alone when the pattern does not compile. -/
theorem ApplyContentExclusions_regexp_pattern (lib : RegexpLib) (fc : FileCollector)
    (rule : ContentExclusionRule) (c e : Str)
    (happ : claimedApplies rule e = true)
    (ht : rule.RuleType = "regexp".toList) (hp : rule.Pattern ≠ []) :
    ApplyContentExclusions lib (withRules fc [rule]) c e =
      (match lib.Compile (guardedPattern rule.Pattern) with
        | none => c
        | some re => re.ReplaceAllString c [], none) := by
  rw [ApplyContentExclusions_withRules, List.foldl_cons, List.foldl_nil,
    applyExclusion_regexp lib e c rule happ ht hp, regexpPattern_eq_guardedPattern]

/-- Witness for C18: the library that answers with the text of the compiled pattern
shows `(?s)abc` for the configured pattern `abc`. -/
theorem ApplyContentExclusions_regexp_pattern_witness :
    claimedApplies (regexpRule "abc".toList) "js".toList = true ∧
      (regexpRule "abc".toList).RuleType = "regexp".toList ∧
      (regexpRule "abc".toList).Pattern ≠ [] ∧
      ApplyContentExclusions probeLib (withRules styleCollector [regexpRule "abc".toList])
        "x".toList "js".toList = ("(?s)abc".toList, none) :=
  ⟨by decide, rfl, by decide,
    ApplyContentExclusions_regexp_pattern probeLib styleCollector (regexpRule "abc".toList)
      "x".toList "js".toList (by decide) rfl (by decide)⟩

/-- Counterexample to C18 as stated: the pattern `a\z` does not begin with a mode-flag
group, so that `(?s)a\z` should be compiled, but the pattern compiled is `a\z`; the
pattern `(?U)a` begins with a mode-flag group, so that it should be compiled unchanged,
but the pattern compiled is `(?s)(?U)a`. -/
theorem ApplyContentExclusions_flag_group_counterexample :
    beginsWithFlagGroup "a\\z".toList = false ∧
      flagGroupPattern "a\\z".toList = "(?s)a\\z".toList ∧
      ApplyContentExclusions probeLib (rulesCollector [] [regexpRule "a\\z".toList])
        "x".toList "js".toList = ("a\\z".toList, none) ∧
      beginsWithFlagGroup "(?U)a".toList = true ∧
      flagGroupPattern "(?U)a".toList = "(?U)a".toList ∧
      ApplyContentExclusions probeLib (rulesCollector [] [regexpRule "(?U)a".toList])
        "x".toList "js".toList = ("(?s)(?U)a".toList, none) := by
  decide

/-- C19: with the documented rule for JavaScript comments the content `a // c`, newline,
`b` becomes `a ` and the line `b` is lost: the pattern is compiled behind `(?s)`, so that
the dot of `//.*` matches the newline and the line comment runs to the end of the
content.  The same pattern without `(?s)` gives `a `, newline, `b`. -/
theorem ApplyContentExclusions_js_comment_rule :
    regexpPattern jsCommentRule.Pattern = "(?s)(//.*)|(/\\*[\\s\\S]*?\\*/)".toList ∧
      ApplyContentExclusions commentLib (rulesCollector [] [jsCommentRule])
        "a // c\nb".toList "js".toList = ("a ".toList, none) ∧
      (Regexp.ofSyntax (jsCommentSyntax false)).ReplaceAllString "a // c\nb".toList [] =
        "a \nb".toList := by
  decide

theorem processFile_content_eq (lib : RegexpLib) (fs : FileSystem) (fc : FileCollector)
    (entry : FileEntry) (content : Str) (record : ProcessedFile) (v : Str)
    (hread : ReadFile fs entry.SourcePath = .ok content)
    (h : processFile lib fs fc entry = .ok (some record))
    (hv : GoMap.get? record "content".toList = some v) :
    v = normalizeContent (ApplyContentExclusions lib fc content entry.Format).1 := by
  unfold processFile at h
  simp only at h
  by_cases hm : entry.Mode = "content".toList ∨ entry.Mode = "both".toList
  · rw [if_pos hm, hread] at h
    simp only at h
    rw [ApplyContentExclusions_eq_foldl] at h ⊢
    simp only at h
    have hrec := finishRecord_eq_some _ _ h
    subst hrec
    rw [GoMap.get?_set] at hv
    simp only [if_true, Option.some.injEq] at hv
    exact hv.symm
  · rw [if_neg hm] at h
    have hrec := finishRecord_eq_some _ _ h
    subst hrec
    split at hv
    · rw [GoMap.get?_set] at hv
      have : ¬ ("path".toList = "content".toList) := by decide
      rw [if_neg this] at hv
      simp [GoMap.get?] at hv
    · simp [GoMap.get?] at hv

/-- C20, as the code has it: `processFile` selects the content-exclusion rules by the
extension recorded in the entry (`Format`), not by the name of the file.  The `content`
value of the record is the normalised result of the rules applied for that extension,
and when no rule has the file pattern `*` or a file pattern that glob-matches the
extension or `.` + extension, it is the normalised content of the file. -/
theorem processFile_rules_by_extension (lib : RegexpLib) (fs : FileSystem)
    (fc : FileCollector) (entry : FileEntry) (content : Str) (record : ProcessedFile)
    (v : Str)
    (hread : ReadFile fs entry.SourcePath = .ok content)
    (h : processFile lib fs fc entry = .ok (some record))
    (hv : GoMap.get? record "content".toList = some v) :
    v = normalizeContent
          (fc.Config.ContentExclusions.foldl (applyExclusion lib entry.Format) content) ∧
      ((∀ rule ∈ fc.Config.ContentExclusions, claimedApplies rule entry.Format = false) →
        v = normalizeContent content) := by
  have hv2 := processFile_content_eq lib fs fc entry content record v hread h hv
  rw [ApplyContentExclusions_eq_foldl] at hv2
  refine ⟨hv2, fun hno => ?_⟩
  rw [hv2, foldl_applyExclusion_not_applies lib entry.Format _ content hno]

/-- Witness for C20: the rule for `/*` ... `*/` spans with the file pattern `*.js` is
applied to `main.js`, whose extension is `js`: the content `x/*c*/y` is recorded as
`xy`. -/
theorem processFile_rules_by_extension_witness :
    ReadFile namedFs (namedEntry "main.js".toList "js".toList).SourcePath =
        .ok "x/*c*/y".toList ∧
      processFile literalLib namedFs (rulesCollector ["js".toList] [blockRule "*.js".toList])
        (namedEntry "main.js".toList "js".toList) =
          .ok (some [("content".toList, "xy".toList)]) ∧
      "xy".toList = normalizeContent
        ((rulesCollector ["js".toList] [blockRule "*.js".toList]).Config.ContentExclusions.foldl
          (applyExclusion literalLib (namedEntry "main.js".toList "js".toList).Format)
          "x/*c*/y".toList) :=
  ⟨by decide, by decide,
    (processFile_rules_by_extension literalLib namedFs
      (rulesCollector ["js".toList] [blockRule "*.js".toList])
      (namedEntry "main.js".toList "js".toList) "x/*c*/y".toList
      [("content".toList, "xy".toList)] "xy".toList (by decide) (by decide) (by decide)).1⟩

/-- Counterexample to C20 as stated: the files `main.js` and `.env.example` of the tree
are listed by `PreviewFiles` with the extensions `js` and `example`.  The rule with the
file pattern `main.js`, which glob-matches the name `main.js`, is not applied to
`main.js`, and the rule with the file pattern `.env.example` is not applied to
`.env.example`: the content `x/*c*/y` is recorded as it is, where the same rule with the
file pattern `*` records `xy`. -/
theorem processFile_file_name_pattern_counterexample :
    PreviewFiles
        (plainCollector
          { (sampleConfig ["main.js:content".toList, ".env.example:content".toList] []) with
            Formats := ["js".toList, "example".toList] })
        namedFs storedOrder =
      some (.ok [namedEntry ".env.example".toList "example".toList,
                 namedEntry "main.js".toList "js".toList]) ∧
      Match "main.js".toList (Base (namedEntry "main.js".toList "js".toList).SourcePath) =
        some true ∧
      processFile literalLib namedFs (rulesCollector ["js".toList] [blockRule "main.js".toList])
        (namedEntry "main.js".toList "js".toList) =
          .ok (some [("content".toList, "x/*c*/y".toList)]) ∧
      processFile literalLib namedFs (rulesCollector ["js".toList] [blockRule ['*']])
        (namedEntry "main.js".toList "js".toList) =
          .ok (some [("content".toList, "xy".toList)]) ∧
      Match ".env.example".toList
        (Base (namedEntry ".env.example".toList "example".toList).SourcePath) = some true ∧
      processFile literalLib namedFs
        (rulesCollector ["example".toList] [blockRule ".env.example".toList])
        (namedEntry ".env.example".toList "example".toList) =
          .ok (some [("content".toList, "x/*c*/y".toList)]) := by
  refine ⟨by decide, by decide, by decide, by decide, by decide, by decide⟩

/-- Witness for C15: the only rule of the collector has the file pattern `*.vue`, which
does not apply to the extension `js`, and the content of a `js` file is returned
unchanged. -/
theorem applyExclusion_applies_iff_witness :
    (∀ rule ∈ styleCollector.Config.ContentExclusions,
        claimedApplies rule "js".toList = false) ∧
      ApplyContentExclusions literalLib styleCollector "A<style>B</style>C".toList
        "js".toList = ("A<style>B</style>C".toList, none) :=
  ⟨by decide,
    (applyExclusion_applies_iff literalLib styleCollector "js".toList).2.2.2
      "A<style>B</style>C".toList (by decide)⟩


/-! ### The directives of `PreviewFiles`: missing targets, errors, the empty list -/

theorem filterMap_of_map_some {α β : Type} (g : α → Option β) :
    ∀ (es : List α) (ds : List β), ds.map some = es.map g → es.filterMap g = ds := by
  intro es
  induction es with
  | nil =>
    intro ds h
    cases ds with
    | nil => rfl
    | cons d r => simp at h
  | cons e r ih =>
    intro ds h
    cases ds with
    | nil => simp at h
    | cons d r' =>
      simp only [List.map_cons, List.cons.injEq] at h
      rw [List.filterMap_cons, ← h.1]
      simp only
      rw [ih r' h.2]

theorem parseInclude_eq (fc : FileCollector) :
    parseInclude fc =
      some ((fc.Config.Include.filter (fun e => !isBlank e)).filterMap parseIncludeEntry) := by
  obtain ⟨ds, h1, h2⟩ := parseInclude_spec fc
  rw [filter_not_blank] at h2
  rw [h1, filterMap_of_map_some _ _ _ h2]

theorem parseInclude_mode_mem (fc : FileCollector) (incls : List ParsedIncludeEntry)
    (h : parseInclude fc = some incls) :
    ∀ d ∈ incls, d.Mode = "path".toList ∨ d.Mode = "content".toList ∨
      d.Mode = "both".toList := by
  intro d hd
  rw [parseInclude_eq] at h
  simp only [Option.some.injEq] at h
  rw [← h] at hd
  obtain ⟨entry, _, he⟩ := List.mem_filterMap.mp hd
  obtain ⟨d', hd', hm⟩ := parseIncludeEntry_spec entry
  rw [he] at hd'
  simp only [Option.some.injEq] at hd'
  rw [hd', hm]
  exact claimedMode_cases entry

theorem scanAll_skip (fc : FileCollector) (fs : FileSystem) (rootBase : Str)
    (incl : ParsedIncludeEntry) (h : scanInclude fc fs rootBase incl = .ok [])
    (post : List ParsedIncludeEntry) : ∀ (pre : List ParsedIncludeEntry) (m : GoMap FileEntry),
    scanAll fc fs rootBase (pre ++ incl :: post) m = scanAll fc fs rootBase (pre ++ post) m := by
  intro pre
  induction pre with
  | nil =>
    intro m
    simp only [List.nil_append, scanAll, h, recordAll, List.foldl_nil]
  | cons a r ih =>
    intro m
    simp only [List.cons_append, scanAll]
    cases scanInclude fc fs rootBase a with
    | error e => rfl
    | ok es => exact ih _

theorem scanInclude_missing (fc : FileCollector) (fs : FileSystem) (rootBase : Str)
    (incl : ParsedIncludeEntry) (e : OsError)
    (h : Stat fs (Join fc.Config.Root incl.Path) = .error e) (hne : IsNotExist e = true) :
    scanInclude fc fs rootBase incl = .ok [] := by
  unfold scanInclude
  simp only [h, hne, if_true]

theorem scanAll_error (fc : FileCollector) (fs : FileSystem) (rootBase : Str)
    (incl : ParsedIncludeEntry) (e : OsError)
    (h : scanInclude fc fs rootBase incl = .error e) :
    ∀ (incls : List ParsedIncludeEntry), incl ∈ incls → ∀ m : GoMap FileEntry,
      ∃ e', scanAll fc fs rootBase incls m = .error e' := by
  intro incls
  induction incls with
  | nil => intro hm; exact absurd hm (List.not_mem_nil _)
  | cons a r ih =>
    intro hm m
    simp only [scanAll]
    cases ha : scanInclude fc fs rootBase a with
    | error e' => exact ⟨e', rfl⟩
    | ok es =>
      simp only
      rcases List.mem_cons.mp hm with hm | hm
      · rw [← hm, h] at ha
        exact absurd ha (by simp)
      · exact ih hm _

theorem PreviewFiles_empty_include (fc : FileCollector) (fs : FileSystem) (ord : MapOrder)
    (h : fc.Config.Include = []) : PreviewFiles fc fs ord = some (.ok []) := by
  unfold PreviewFiles
  rw [parseInclude_eq, h]
  simp only [List.filter_nil, List.filterMap_nil, scanAll, GoMap.values, List.map_nil]
  have : ord.iter [] = [] := List.perm_nil.mp (ord.iter_perm [])
  rw [this]
  rfl

theorem excludedLoop_withInclude (fc : FileCollector) (l : List Str)
    (baseName relPath path : Str) : ∀ patterns : List Str,
    excludedLoop (withInclude fc l) baseName relPath path patterns =
      excludedLoop fc baseName relPath path patterns := by
  intro patterns
  induction patterns with
  | nil => rfl
  | cons a t ih =>
    simp only [excludedLoop, ih]
    rfl

theorem isExcluded_withInclude (fc : FileCollector) (l : List Str) :
    isExcluded (withInclude fc l) = isExcluded fc := by
  funext path d
  unfold isExcluded
  simp only [excludedLoop_withInclude]
  rfl

theorem scanInclude_withInclude (fc : FileCollector) (l : List Str) (fs : FileSystem)
    (rootBase : Str) (incl : ParsedIncludeEntry) :
    scanInclude (withInclude fc l) fs rootBase incl = scanInclude fc fs rootBase incl := by
  have hflat : flatStep (withInclude fc l) rootBase incl = flatStep fc rootBase incl := by
    funext a found file
    unfold flatStep
    rw [isExcluded_withInclude]
    rfl
  have hwalk : walkFn (withInclude fc l) rootBase incl = walkFn fc rootBase incl := by
    funext p d err found
    unfold walkFn
    rw [isExcluded_withInclude]
    rfl
  unfold scanInclude
  rw [hflat, hwalk, isExcluded_withInclude]
  rfl

theorem scanAll_withInclude (fc : FileCollector) (l : List Str) (fs : FileSystem)
    (rootBase : Str) : ∀ (incls : List ParsedIncludeEntry) (m : GoMap FileEntry),
    scanAll (withInclude fc l) fs rootBase incls m = scanAll fc fs rootBase incls m := by
  intro incls
  induction incls with
  | nil => intro m; rfl
  | cons a r ih =>
    intro m
    simp only [scanAll, scanInclude_withInclude, ih]

theorem PreviewFiles_withInclude (fc : FileCollector) (l : List Str) (fs : FileSystem)
    (ord : MapOrder) :
    PreviewFiles (withInclude fc l) fs ord =
      match scanAll fc fs (Base fc.Config.Root)
          ((l.filter (fun e => !isBlank e)).filterMap parseIncludeEntry) [] with
      | .error e => some (.error e)
      | .ok foundFiles => some (.ok (sortByPath (ord.iter foundFiles.values))) := by
  unfold PreviewFiles
  rw [parseInclude_eq]
  simp only [scanAll_withInclude]
  rfl

/-- C26: a missing include target is skipped.  When the target of the include entry
`entry` does not exist (the stat of root joined with its path fails with a not-found
error), `PreviewFiles` returns for the include list with that entry exactly what it
returns for the list without it, entries and error alike; for that entry alone it
returns no entries and a nil error. -/
theorem PreviewFiles_missing_target (fc : FileCollector) (fs : FileSystem) (ord : MapOrder)
    (before after : List Str) (entry : Str) (d : ParsedIncludeEntry) (e : OsError)
    (hd : parseIncludeEntry entry = some d)
    (hstat : Stat fs (Join fc.Config.Root d.Path) = .error e)
    (hmiss : IsNotExist e = true) :
    PreviewFiles (withInclude fc (before ++ entry :: after)) fs ord =
        PreviewFiles (withInclude fc (before ++ after)) fs ord ∧
      PreviewFiles (withInclude fc [entry]) fs ord = some (.ok []) := by
  have key : ∀ pre post : List Str,
      PreviewFiles (withInclude fc (pre ++ entry :: post)) fs ord =
        PreviewFiles (withInclude fc (pre ++ post)) fs ord := by
    intro pre post
    rw [PreviewFiles_withInclude, PreviewFiles_withInclude]
    simp only [List.filter_append, List.filter_cons, List.filterMap_append]
    by_cases hb : isBlank entry = true
    · simp only [hb, Bool.not_true, Bool.false_eq_true, if_false]
    · simp only [hb, Bool.not_false, if_true, List.filterMap_cons, hd]
      rw [scanAll_skip fc fs (Base fc.Config.Root) d
        (scanInclude_missing fc fs _ d e hstat hmiss)]
  refine ⟨key before after, ?_⟩
  have h1 := key [] []
  simp only [List.nil_append] at h1
  rw [h1]
  exact PreviewFiles_empty_include _ fs ord rfl

/-- Witness for C26: in `edgeFs` the target of `missing` does not exist, and the include
list `src`, `missing` gives the one file of `src`, as the list `src` does. -/
theorem PreviewFiles_missing_target_witness :
    Stat edgeFs (Join "/proj".toList "missing".toList) = .error .ENOENT ∧
      PreviewFiles (withInclude (plainCollector (sampleConfig [] []))
          (["src".toList] ++ "missing".toList :: [])) edgeFs storedOrder =
        some (.ok [mainGoEntry]) ∧
      PreviewFiles (withInclude (plainCollector (sampleConfig [] []))
          (["src".toList] ++ [])) edgeFs storedOrder =
        some (.ok [mainGoEntry]) := by
  have h := PreviewFiles_missing_target (plainCollector (sampleConfig [] [])) edgeFs
    storedOrder ["src".toList] [] "missing".toList
    { Path := "missing".toList, Mode := "both".toList, IsDirOnlyFiles := false } .ENOENT
    (by decide) rfl (by decide)
  refine ⟨rfl, ?_, by decide⟩
  rw [h.1]
  decide

theorem scanInclude_error (fc : FileCollector) (fs : FileSystem) (rootBase : Str)
    (incl : ParsedIncludeEntry)
    (hbad : (∃ e, Stat fs (Join fc.Config.Root incl.Path) = .error e ∧ IsNotExist e = false) ∨
      (∃ info e, Stat fs (Join fc.Config.Root incl.Path) = .ok info ∧ info.IsDir = true ∧
        incl.IsDirOnlyFiles = true ∧ ReadDir fs (Join fc.Config.Root incl.Path) = .error e) ∨
      (∃ info e, Stat fs (Join fc.Config.Root incl.Path) = .ok info ∧ info.IsDir = true ∧
        incl.IsDirOnlyFiles = false ∧
        (WalkDir fs (Join fc.Config.Root incl.Path) (walkFn fc rootBase incl) []).2 = some e)) :
    ∃ e, scanInclude fc fs rootBase incl = .error e := by
  unfold scanInclude
  rcases hbad with ⟨e, hs, hne⟩ | ⟨info, e, hs, hdir, hflat, hrd⟩ | ⟨info, e, hs, hdir, hflat, hw⟩
  · exact ⟨e, by simp [hs, hne]⟩
  · exact ⟨e, by simp [hs, hdir, hflat, hrd]⟩
  · refine ⟨e, ?_⟩
    simp only [hs, hdir, hflat, Bool.false_and, Bool.false_eq_true, if_false, if_true]
    cases hwd : WalkDir fs (Join fc.Config.Root incl.Path) (walkFn fc rootBase incl) [] with
    | mk found err =>
      rw [hwd] at hw
      simp only at hw
      subst hw
      rfl

/-- C27, as the code has it: an I/O error on one include directive aborts the scan.
When examining the target of one directive fails with an error other than not-found
(the stat fails, the directory of a flat directive cannot be listed, or the recursive
walk reports an error), `PreviewFiles` returns an error and no entries, whatever the
other directives find. -/
theorem PreviewFiles_io_error (fc : FileCollector) (fs : FileSystem) (ord : MapOrder)
    (incls : List ParsedIncludeEntry) (incl : ParsedIncludeEntry)
    (hp : parseInclude fc = some incls) (hmem : incl ∈ incls)
    (hbad : (∃ e, Stat fs (Join fc.Config.Root incl.Path) = .error e ∧ IsNotExist e = false) ∨
      (∃ info e, Stat fs (Join fc.Config.Root incl.Path) = .ok info ∧ info.IsDir = true ∧
        incl.IsDirOnlyFiles = true ∧ ReadDir fs (Join fc.Config.Root incl.Path) = .error e) ∨
      (∃ info e, Stat fs (Join fc.Config.Root incl.Path) = .ok info ∧ info.IsDir = true ∧
        incl.IsDirOnlyFiles = false ∧
        (WalkDir fs (Join fc.Config.Root incl.Path)
          (walkFn fc (Base fc.Config.Root) incl) []).2 = some e)) :
    ∃ e, PreviewFiles fc fs ord = some (.error e) := by
  obtain ⟨e, he⟩ := scanInclude_error fc fs (Base fc.Config.Root) incl hbad
  obtain ⟨e', he'⟩ := scanAll_error fc fs (Base fc.Config.Root) incl e he incls hmem []
  refine ⟨e', ?_⟩
  unfold PreviewFiles
  simp only [hp, he']

/-- Witness for C27: with the include list `src`, `src/main.go/x` the stat of the second
target fails, as `main.go` is not a directory, and `PreviewFiles` returns that error. -/
theorem PreviewFiles_io_error_witness :
    ∃ e, PreviewFiles (plainCollector (sampleConfig ["src".toList, "src/main.go/x".toList] []))
      edgeFs storedOrder = some (.error e) :=
  PreviewFiles_io_error (plainCollector (sampleConfig ["src".toList, "src/main.go/x".toList] []))
    edgeFs storedOrder
    [{ Path := "src".toList, Mode := "both".toList, IsDirOnlyFiles := false },
     { Path := "src/main.go/x".toList, Mode := "both".toList, IsDirOnlyFiles := false }]
    { Path := "src/main.go/x".toList, Mode := "both".toList, IsDirOnlyFiles := false }
    (by decide) (by decide) (Or.inl ⟨.ENOTDIR, rfl, by decide⟩)

/-- Counterexample to C27 as stated: the include list `src` gives the file
`src/main.go`; with a second directive whose target cannot be examined, `PreviewFiles`
returns the error and no entries.  The three cases are a walk into the directory
`locked`, which cannot be listed, the flat directive `locked/*`, and the target
`src/main.go/x`, whose stat fails. -/
theorem PreviewFiles_locked_directory_counterexample :
    PreviewFiles (plainCollector (sampleConfig ["src".toList] [])) edgeFs storedOrder =
        some (.ok [mainGoEntry]) ∧
      PreviewFiles (plainCollector (sampleConfig ["src".toList, "locked".toList] []))
        edgeFs storedOrder = some (.error .EACCES) ∧
      PreviewFiles (plainCollector (sampleConfig ["src".toList, "locked/*".toList] []))
        edgeFs storedOrder = some (.error .EACCES) ∧
      PreviewFiles (plainCollector (sampleConfig ["src".toList, "src/main.go/x".toList] []))
        edgeFs storedOrder = some (.error .ENOTDIR) := by
  refine ⟨by decide, by decide, by decide, by decide⟩

/-- C28: with an empty include list `PreviewFiles` scans nothing.  For the tree
`sampleFs`, whose root holds three files of the configured formats, it returns no
entry, where the include list `.` returns the three. -/
theorem PreviewFiles_empty_include_list :
    PreviewFiles (plainCollector (sampleConfig [] [])) sampleFs storedOrder = some (.ok []) ∧
      PreviewFiles (plainCollector (sampleConfig [".".toList] [])) sampleFs storedOrder =
        some (.ok [fileJsEntry, mainGoEntry, subGoEntry "both".toList]) := by
  refine ⟨by decide, by decide⟩

/-- C29: for an include path that leaves the root through `..` the display path is not
the base name of the root followed by the relative path.  With the root `/proj` and the
include entry `../other`, the file `/other/x.go` has the relative path `../other/x.go`
and the display path `other/x.go`, which does not begin with `proj`: `filepath.Join`
resolves the `..` against the base name. -/
theorem PreviewFiles_display_path_outside_root :
    Base "/proj".toList = "proj".toList ∧
      PreviewFiles (plainCollector (sampleConfig ["../other".toList] [])) edgeFs storedOrder =
        some (.ok [{ Path := "other/x.go".toList
                     SourcePath := "/other/x.go".toList
                     Mode := "both".toList
                     Size := 13
                     Format := "go".toList
                     OriginalPath := "../other/x.go".toList }]) ∧
      "other/x.go".toList ≠ "proj".toList ++ '/' :: "../other/x.go".toList := by
  refine ⟨by decide, by decide, by decide⟩


/-! ### Every entry passed both filters -/

mutual
theorem walkDir_listed (fc : FileCollector) (rootBase : Str) (incl : ParsedIncludeEntry)
    (path name : Str) (node : FsNode) (found : List FileEntry) (hn : NamedBy path name)
    (hf : ∀ e ∈ found, Listed fc rootBase incl e) :
    ∀ e ∈ (walkDir (walkFn fc rootBase incl) path name node found).1,
      Listed fc rootBase incl e := by
  cases node with
  | file content readable =>
    intro e he
    simp only [walkDir, walkFn] at he
    by_cases hex : (isExcluded fc path false).1 = true
    · simp only [hex, if_true] at he
      simp only [Bool.false_eq_true, if_false] at he
      exact hf e he
    · simp only [hex] at he
      simp only [Bool.false_eq_true, if_false, Bool.not_false, Bool.true_and] at he
      by_cases hm : matchFormat fc name = true
      · rw [if_pos hm] at he
        rcases List.mem_append.mp he with h | h
        · exact hf e h
        · simp only [List.mem_singleton] at h
          exact ⟨path, name, _, h, hn, by simpa using hex, hm⟩
      · rw [if_neg hm] at he
        exact hf e he
  | dir accessible entries =>
    intro e he
    simp only [walkDir, walkFn] at he
    by_cases hex : (isExcluded fc path true).1 = true
    · simp only [hex, if_true] at he
      exact hf e he
    · simp only [hex] at he
      simp only [Bool.false_eq_true, if_false, Bool.not_true, Bool.false_and] at he
      by_cases hacc : accessible = false
      · simp only [hacc, if_true] at he
        exact hf e he
      · simp only [hacc, if_false] at he
        exact walkEntries_listed fc rootBase incl path entries found hf e he
theorem walkEntries_listed (fc : FileCollector) (rootBase : Str) (incl : ParsedIncludeEntry)
    (path : Str) (entries : List (Str × FsNode)) (found : List FileEntry)
    (hf : ∀ e ∈ found, Listed fc rootBase incl e) :
    ∀ e ∈ (walkEntries (walkFn fc rootBase incl) path entries found).1,
      Listed fc rootBase incl e := by
  cases entries with
  | nil =>
    intro e he
    simp only [walkEntries] at he
    exact hf e he
  | cons b rest =>
    obtain ⟨name, n⟩ := b
    intro e he
    simp only [walkEntries] at he
    have h1 := walkDir_listed fc rootBase incl (Join path name) name n found
      (Or.inr ⟨path, rfl⟩) hf
    cases hw : walkDir (walkFn fc rootBase incl) (Join path name) name n found with
    | mk s1 r =>
      rw [hw] at he h1
      simp only at h1
      cases r with
      | nil =>
        simp only at he
        exact walkEntries_listed fc rootBase incl path rest s1 h1 e he
      | SkipDir =>
        simp only at he
        exact h1 e he
      | err x =>
        simp only at he
        exact h1 e he
end

theorem flatStep_listed (fc : FileCollector) (rootBase : Str) (incl : ParsedIncludeEntry)
    (top : Str) (files : List FileInfo) : ∀ (found : List FileEntry),
    (∀ e ∈ found, Listed fc rootBase incl e) →
    ∀ e ∈ files.foldl (flatStep fc rootBase incl top) found, Listed fc rootBase incl e := by
  induction files with
  | nil =>
    intro found hf e he
    exact hf e he
  | cons file rest ih =>
    intro found hf e he
    simp only [List.foldl_cons] at he
    refine ih _ ?_ e he
    intro e' he'
    unfold flatStep at he'
    by_cases hdir : (!file.IsDir) = true
    · rw [if_pos hdir] at he'
      simp only at he'
      by_cases hcond : (!(isExcluded fc (Join top file.Name) false).1 &&
          matchFormat fc file.Name) = true
      · rw [if_pos hcond] at he'
        simp only [Bool.and_eq_true, Bool.not_eq_true'] at hcond
        rcases List.mem_append.mp he' with h | h
        · exact hf e' h
        · simp only [List.mem_singleton] at h
          exact ⟨Join top file.Name, file.Name, file.Size, h, Or.inr ⟨top, rfl⟩,
            hcond.1, hcond.2⟩
      · rw [if_neg hcond] at he'
        exact hf e' he'
    · rw [if_neg hdir] at he'
      exact hf e' he'

theorem scanInclude_listed (fc : FileCollector) (fs : FileSystem) (rootBase : Str)
    (incl : ParsedIncludeEntry) (es : List FileEntry)
    (h : scanInclude fc fs rootBase incl = .ok es) :
    ∀ e ∈ es, Listed fc rootBase incl e := by
  have hnil : ∀ e ∈ ([] : List FileEntry), Listed fc rootBase incl e :=
    fun e he => absurd he (List.not_mem_nil _)
  unfold scanInclude at h
  simp only at h
  cases hst : Stat fs (Join fc.Config.Root incl.Path) with
  | error x =>
    rw [hst] at h
    simp only at h
    split at h
    · simp only [Result.ok.injEq] at h
      subst h
      exact hnil
    · exact absurd h (by simp)
  | ok info =>
    rw [hst] at h
    simp only at h
    have hname : info.Name = Base (Join fc.Config.Root incl.Path) := by
      unfold Stat at hst
      cases hr : resolve fs (Join fc.Config.Root incl.Path) with
      | error x => rw [hr] at hst; exact absurd hst (by simp)
      | ok n =>
        rw [hr] at hst
        simp only [Result.ok.injEq] at hst
        rw [← hst]
    by_cases hflat : (incl.IsDirOnlyFiles && info.IsDir) = true
    · rw [if_pos hflat] at h
      cases hrd : ReadDir fs (Join fc.Config.Root incl.Path) with
      | error x => rw [hrd] at h; exact absurd h (by simp)
      | ok files =>
        rw [hrd] at h
        simp only [Result.ok.injEq] at h
        subst h
        exact flatStep_listed fc rootBase incl _ files [] hnil
    · rw [if_neg hflat] at h
      by_cases hdir : info.IsDir = true
      · rw [if_pos hdir] at h
        cases hw : WalkDir fs (Join fc.Config.Root incl.Path) (walkFn fc rootBase incl) [] with
        | mk found err =>
          rw [hw] at h
          cases err with
          | some x => exact absurd h (by simp)
          | none =>
            simp only [Result.ok.injEq] at h
            subst h
            unfold WalkDir at hw
            cases hr : resolve fs (Join fc.Config.Root incl.Path) with
            | error x =>
              rw [hr] at hw
              simp [walkFn] at hw
            | ok n =>
              rw [hr] at hw
              simp only at hw
              have hwalk := walkDir_listed fc rootBase incl (Join fc.Config.Root incl.Path)
                (Base (Join fc.Config.Root incl.Path)) n [] (Or.inl rfl) hnil
              cases hwd : walkDir (walkFn fc rootBase incl) (Join fc.Config.Root incl.Path)
                  (Base (Join fc.Config.Root incl.Path)) n [] with
              | mk s1 r =>
                rw [hwd] at hw hwalk
                cases r with
                | nil =>
                  simp only [Prod.mk.injEq] at hw
                  rw [← hw.1]
                  exact hwalk
                | SkipDir =>
                  simp only [Prod.mk.injEq] at hw
                  rw [← hw.1]
                  exact hwalk
                | err x => simp at hw
      · rw [if_neg hdir] at h
        by_cases hcond : (!(isExcluded fc (Join fc.Config.Root incl.Path) false).1 &&
            matchFormat fc info.Name) = true
        · rw [if_pos hcond] at h
          simp only [Result.ok.injEq] at h
          subst h
          intro e he
          simp only [List.mem_singleton] at he
          simp only [Bool.and_eq_true, Bool.not_eq_true'] at hcond
          exact ⟨_, info.Name, info.Size, he, Or.inl hname, hcond.1, hcond.2⟩
        · rw [if_neg hcond] at h
          simp only [Result.ok.injEq] at h
          subst h
          exact hnil

theorem PreviewFiles_listed (fc : FileCollector) (fs : FileSystem) (ord : MapOrder)
    (res : List FileEntry) (h : PreviewFiles fc fs ord = some (.ok res)) :
    ∀ e ∈ res, ∃ incl, Listed fc (Base fc.Config.Root) incl e ∧
      (incl.Mode = "path".toList ∨ incl.Mode = "content".toList ∨
        incl.Mode = "both".toList) := by
  obtain ⟨incls, foundFiles, hp, hs, _, hres⟩ := PreviewFiles_eq_some fc fs ord res h
  intro e he
  rw [hres, mem_sortByPath_iter] at he
  obtain ⟨b, hb, hb2⟩ := List.mem_map.mp he
  rcases scanAll_mem fc fs _ incls [] foundFiles b hs hb with h0 | ⟨incl, hi, es, hes, hbe⟩
  · exact absurd h0 (List.not_mem_nil _)
  · rw [hb2] at hbe
    exact ⟨incl, scanInclude_listed fc fs _ incl es hes e hbe,
      parseInclude_mode_mem fc incls hp incl hi⟩

theorem PreviewFiles_modes (fc : FileCollector) (fs : FileSystem) (ord : MapOrder)
    (res : List FileEntry) (h : PreviewFiles fc fs ord = some (.ok res)) :
    ∀ e ∈ res, e.Mode = "path".toList ∨ e.Mode = "content".toList ∨
      e.Mode = "both".toList := by
  intro e he
  obtain ⟨incl, ⟨filePath, name, size, heq, _, _, _⟩, hmode⟩ :=
    PreviewFiles_listed fc fs ord res h e he
  rw [heq]
  exact hmode

/-- C30: every entry returned by `PreviewFiles` passed both filters.  Its source path is
not excluded; the file goes by a name (the last element of the source path for an
include target, the name of the directory entry for a file found in a directory) that
`matchFormat` accepts; its `Format` is the lower-cased extension of that name without the
dot and is an element of the configured format list; and its `Mode` is one of `path`,
`content`, `both`. -/
theorem PreviewFiles_passed_filters (fc : FileCollector) (fs : FileSystem) (ord : MapOrder)
    (res : List FileEntry) (h : PreviewFiles fc fs ord = some (.ok res)) :
    ∀ e ∈ res, (isExcluded fc e.SourcePath false).1 = false ∧
      (∃ name, NamedBy e.SourcePath name ∧ matchFormat fc name = true ∧
        e.Format = ToLower (TrimPrefix (Ext name) ['.'])) ∧
      e.Format ∈ fc.Config.Formats ∧
      (e.Mode = "path".toList ∨ e.Mode = "content".toList ∨ e.Mode = "both".toList) := by
  intro e he
  obtain ⟨incl, ⟨filePath, name, size, heq, hn, hex, hm⟩, hmode⟩ :=
    PreviewFiles_listed fc fs ord res h e he
  subst heq
  refine ⟨hex, ⟨name, hn, hm, rfl⟩, ?_, hmode⟩
  unfold matchFormat at hm
  simp only [List.any_eq_true, decide_eq_true_eq] at hm
  obtain ⟨format, hfmt, heq⟩ := hm
  change ToLower (TrimPrefix (Ext name) ['.']) ∈ fc.Config.Formats
  rw [heq]
  exact hfmt

/-- Witness for C30: the scan of the whole root of `sampleFs` with `node_modules`
excluded returns `src/main.go` and `src/sub/a.go`; for the first, the source path
`/proj/src/main.go` is not excluded, its last element `main.go` is accepted by
`matchFormat`, and the format `go` is in the format list.  The extension is lower-cased
as `strings.ToLower` does, beyond ASCII as well: the format `é` accepts the file `a.É`,
and the format `É` does not. -/
theorem PreviewFiles_passed_filters_witness :
    PreviewFiles (plainCollector wholeRootConfig) sampleFs storedOrder =
        some (.ok [mainGoEntry, subGoEntry "both".toList]) ∧
      (isExcluded (plainCollector wholeRootConfig) mainGoEntry.SourcePath false).1 = false ∧
      matchFormat (plainCollector wholeRootConfig) (Base mainGoEntry.SourcePath) = true ∧
      mainGoEntry.Format ∈ (plainCollector wholeRootConfig).Config.Formats ∧
      matchFormat (rulesCollector ["é".toList] []) "a.É".toList = true ∧
      matchFormat (rulesCollector ["É".toList] []) "a.É".toList = false :=
  ⟨by decide,
    (PreviewFiles_passed_filters (plainCollector wholeRootConfig) sampleFs storedOrder
      [mainGoEntry, subGoEntry "both".toList] (by decide) mainGoEntry (by decide)).1,
    by decide,
    (PreviewFiles_passed_filters (plainCollector wholeRootConfig) sampleFs storedOrder
      [mainGoEntry, subGoEntry "both".toList] (by decide) mainGoEntry (by decide)).2.2.1,
    by decide, by decide⟩


/-! ## The worker pool of `Run` -/

theorem sum_map_set {α M : Type} [AddCommMonoid M] (f : α → M) :
    ∀ (l : List α) (i : Nat) (a x : α), l[i]? = some a →
      ((l.set i x).map f).sum + f a = (l.map f).sum + f x := by
  intro l
  induction l with
  | nil => intro i a x h; simp at h
  | cons b r ih =>
    intro i a x h
    cases i with
    | zero =>
      simp only [List.getElem?_cons_zero, Option.some.injEq] at h
      subst h
      simp only [List.set_cons_zero, List.map_cons, List.sum_cons]
      abel
    | succ j =>
      simp only [List.getElem?_cons_succ] at h
      simp only [List.set_cons_succ, List.map_cons, List.sum_cons]
      rw [add_assoc, ih j a x h, add_assoc]

theorem sum_map_eq_zero {α M : Type} [AddCommMonoid M] (f : α → M) :
    ∀ (l : List α), (∀ a ∈ l, f a = 0) → (l.map f).sum = 0 := by
  intro l
  induction l with
  | nil => intro _; rfl
  | cons b r ih =>
    intro h
    simp only [List.map_cons, List.sum_cons]
    rw [h b (List.mem_cons_self _ _), ih (fun a ha => h a (List.mem_cons_of_mem _ ha)), add_zero]

theorem inFlightSum_set (ws : List WorkerState) (w : Nat) (a x : WorkerState)
    (h : ws[w]? = some a) :
    inFlightSum (ws.set w x) + (inFlight a : Multiset FileEntry) =
      inFlightSum ws + (inFlight x : Multiset FileEntry) :=
  sum_map_set (fun w => (inFlight w : Multiset FileEntry)) ws w a x h

theorem pendingSum_set (lib : RegexpLib) (fs : FileSystem) (fc : FileCollector)
    (ws : List WorkerState) (w : Nat) (a x : WorkerState) (h : ws[w]? = some a) :
    pendingSum lib fs fc (ws.set w x) + (pendingRecord lib fs fc a : Multiset ProcessedFile) =
      pendingSum lib fs fc ws + (pendingRecord lib fs fc x : Multiset ProcessedFile) :=
  sum_map_set (fun w => (pendingRecord lib fs fc w : Multiset ProcessedFile)) ws w a x h

theorem mem_set_done (ws : List WorkerState) (w : Nat) (x : WorkerState)
    (hx : x ≠ WorkerState.done) (h : WorkerState.done ∈ ws.set w x) :
    WorkerState.done ∈ ws := by
  rcases List.mem_or_eq_of_mem_set h with h | h
  · exact h
  · exact absurd h.symm hx

theorem reportProgress_inv (lib : RegexpLib) (fs : FileSystem) (fc : FileCollector)
    (progressCallback : Bool) (total : Nat) (entries : List FileEntry) (numWorkers : Nat)
    (w : Nat) (entry : FileEntry) (st : PoolState) (ws : WorkerState)
    (hw : st.workers[w]? = some ws) (hin : inFlight ws = [entry])
    (hpend : pendingRecord lib fs fc ws = [])
    (h : PoolInv lib fs fc progressCallback total entries numWorkers st) :
    PoolInv lib fs fc progressCallback total entries numWorkers
      (reportProgress progressCallback total w entry st) := by
  have h1 := inFlightSum_set st.workers w ws .idle hw
  have h2 := pendingSum_set lib fs fc st.workers w ws .idle hw
  rw [hin, show inFlight WorkerState.idle = [] from rfl, Multiset.coe_nil, add_zero] at h1
  rw [hpend, show pendingRecord lib fs fc WorkerState.idle = [] from rfl, Multiset.coe_nil,
    add_zero, add_zero] at h2
  constructor
  · rw [← h.entries_eq]
    simp only [entriesOf, reportProgress]
    rw [← h1, ← Multiset.coe_add]
    abel
  · rw [← h.records_eq]
    simp only [recordsOf, reportProgress]
    rw [h2]
  · simp only [reportProgress, List.length_append, List.length_singleton, h.count_eq]
  · simp only [reportProgress]
    rw [h.calls_eq]
    cases progressCallback with
    | false => rfl
    | true => simp only [if_true, List.range_succ, List.map_append, List.map_cons, List.map_nil]
  · intro hd
    exact h.jobs_done (mem_set_done _ _ _ (by simp) hd)
  · simp only [reportProgress, List.length_set, h.workers_length]
  · exact h.records_ne

theorem workerStep_inv (lib : RegexpLib) (fs : FileSystem) (fc : FileCollector)
    (progressCallback : Bool) (total : Nat) (entries : List FileEntry) (numWorkers : Nat)
    (w : Nat) (st st' : PoolState)
    (h : PoolInv lib fs fc progressCallback total entries numWorkers st)
    (hstep : workerStep lib fs fc progressCallback total w st = some st') :
    PoolInv lib fs fc progressCallback total entries numWorkers st' := by
  unfold workerStep at hstep
  cases hw : st.workers[w]? with
  | none => rw [hw] at hstep; exact absurd hstep (by simp)
  | some ws =>
    rw [hw] at hstep
    cases ws with
    | done => exact absurd hstep (by simp)
    | idle =>
      simp only at hstep
      cases hj : st.jobs with
      | nil =>
        rw [hj] at hstep
        simp only [Option.some.injEq] at hstep
        subst hstep
        have h1 := inFlightSum_set st.workers w .idle .done hw
        have h2 := pendingSum_set lib fs fc st.workers w .idle .done hw
        rw [show inFlight WorkerState.idle = [] from rfl,
          show inFlight WorkerState.done = [] from rfl, Multiset.coe_nil, add_zero,
          add_zero] at h1
        rw [show pendingRecord lib fs fc WorkerState.idle = [] from rfl,
          show pendingRecord lib fs fc WorkerState.done = [] from rfl, Multiset.coe_nil,
          add_zero, add_zero] at h2
        constructor
        · rw [← h.entries_eq]
          simp only [entriesOf, h1, hj]
        · rw [← h.records_eq]
          simp only [recordsOf, h2, hj]
        · exact h.count_eq
        · exact h.calls_eq
        · intro _
          rfl
        · simp only [List.length_set, h.workers_length]
        · exact h.records_ne
      | cons entry rest =>
        rw [hj] at hstep
        simp only [Option.some.injEq] at hstep
        subst hstep
        have h1 := inFlightSum_set st.workers w .idle (.holding entry) hw
        have h2 := pendingSum_set lib fs fc st.workers w .idle (.holding entry) hw
        rw [show inFlight WorkerState.idle = [] from rfl,
          show inFlight (WorkerState.holding entry) = [entry] from rfl, Multiset.coe_nil,
          add_zero] at h1
        rw [show pendingRecord lib fs fc WorkerState.idle = [] from rfl,
          show pendingRecord lib fs fc (WorkerState.holding entry) =
            (successRecord lib fs fc entry).toList from rfl, Multiset.coe_nil,
          add_zero] at h2
        constructor
        · rw [← h.entries_eq]
          simp only [entriesOf, h1, hj]
          rw [← List.singleton_append, ← Multiset.coe_add]
          abel
        · rw [← h.records_eq]
          simp only [recordsOf, h2, hj, List.filterMap_cons]
          cases successRecord lib fs fc entry with
          | none => simp
          | some r =>
            simp only [Option.toList]
            rw [← List.singleton_append (l := List.filterMap _ rest), ← Multiset.coe_add]
            abel
        · exact h.count_eq
        · exact h.calls_eq
        · intro hd
          have := h.jobs_done (mem_set_done _ _ _ (by simp) hd)
          rw [hj] at this
          exact absurd this (by simp)
        · simp only [List.length_set, h.workers_length]
        · exact h.records_ne
    | appended entry =>
      simp only [Option.some.injEq] at hstep
      subst hstep
      exact reportProgress_inv lib fs fc progressCallback total entries numWorkers w entry st
        _ hw rfl rfl h
    | holding entry =>
      simp only at hstep
      cases hpf : processFile lib fs fc entry with
      | error e =>
        rw [hpf] at hstep
        simp only [Option.some.injEq] at hstep
        subst hstep
        exact reportProgress_inv lib fs fc progressCallback total entries numWorkers w entry st
          _ hw rfl (by simp [pendingRecord, successRecord, hpf]) h
      | ok o =>
        rw [hpf] at hstep
        cases o with
        | none =>
          simp only [Option.some.injEq] at hstep
          subst hstep
          exact reportProgress_inv lib fs fc progressCallback total entries numWorkers w entry
            st _ hw rfl (by simp [pendingRecord, successRecord, hpf]) h
        | some processed =>
          simp only [Option.some.injEq] at hstep
          subst hstep
          have h1 := inFlightSum_set st.workers w (.holding entry) (.appended entry) hw
          have h2 := pendingSum_set lib fs fc st.workers w (.holding entry)
            (.appended entry) hw
          rw [show inFlight (WorkerState.holding entry) = [entry] from rfl,
            show inFlight (WorkerState.appended entry) = [entry] from rfl] at h1
          rw [show pendingRecord lib fs fc (WorkerState.appended entry) = [] from rfl,
            show pendingRecord lib fs fc (WorkerState.holding entry) = [processed] from by
              simp [pendingRecord, successRecord, hpf],
            Multiset.coe_nil, add_zero] at h2
          constructor
          · rw [← h.entries_eq]
            simp only [entriesOf]
            rw [add_right_cancel h1]
          · rw [← h.records_eq]
            simp only [recordsOf, appendSlice, Option.getD_some]
            rw [← h2, ← Multiset.coe_add]
            abel
          · exact h.count_eq
          · exact h.calls_eq
          · intro hd
            exact h.jobs_done (mem_set_done _ _ _ (by simp) hd)
          · simp only [List.length_set, h.workers_length]
          · simp [appendSlice]

theorem runPool_inv (lib : RegexpLib) (fs : FileSystem) (fc : FileCollector)
    (progressCallback : Bool) (total : Nat) (entries : List FileEntry) (numWorkers : Nat) :
    ∀ (sched : List Nat) (st st' : PoolState),
      PoolInv lib fs fc progressCallback total entries numWorkers st →
      runPool lib fs fc progressCallback total sched st = some st' →
      PoolInv lib fs fc progressCallback total entries numWorkers st' := by
  intro sched
  induction sched with
  | nil =>
    intro st st' h hrun
    simp only [runPool, Option.some.injEq] at hrun
    rw [← hrun]
    exact h
  | cons w rest ih =>
    intro st st' h hrun
    simp only [runPool] at hrun
    cases hs : workerStep lib fs fc progressCallback total w st with
    | none => rw [hs] at hrun; exact absurd hrun (by simp)
    | some st1 =>
      rw [hs] at hrun
      exact ih st1 st' (workerStep_inv lib fs fc progressCallback total entries numWorkers
        w st st1 h hs) hrun


theorem start_inv (lib : RegexpLib) (fs : FileSystem) (fc : FileCollector)
    (progressCallback : Bool) (total : Nat) (entries : List FileEntry) (numWorkers : Nat) :
    PoolInv lib fs fc progressCallback total entries numWorkers
      { jobs := entries
        workers := List.replicate numWorkers .idle
        allProcessedFiles := none
        processedCount := 0
        calls := []
        reported := [] } := by
  have hidle : ∀ w ∈ List.replicate numWorkers WorkerState.idle, w = WorkerState.idle :=
    fun w hw => (List.mem_replicate.mp hw).2
  constructor
  · simp only [entriesOf, inFlightSum]
    rw [sum_map_eq_zero _ _ (fun w hw => by rw [hidle w hw]; rfl)]
    simp
  · simp only [recordsOf, pendingSum]
    rw [sum_map_eq_zero _ _ (fun w hw => by rw [hidle w hw]; rfl)]
    simp
  · rfl
  · cases progressCallback <;> rfl
  · intro hd
    exact absurd (hidle _ hd) (by simp)
  · simp
  · simp

theorem pool_complete (lib : RegexpLib) (fs : FileSystem) (fc : FileCollector)
    (progressCallback : Bool) (total : Nat) (entries : List FileEntry) (numWorkers : Nat)
    (st : PoolState) (h : PoolInv lib fs fc progressCallback total entries numWorkers st)
    (hpos : 0 < numWorkers) (hdone : st.workers.all WorkerState.isDone = true) :
    st.reported.Perm entries ∧
      (st.allProcessedFiles.getD []).Perm (entries.filterMap (successRecord lib fs fc)) ∧
      st.processedCount = entries.length ∧
      st.calls = (if progressCallback then
        (List.range entries.length).map (fun i => (i + 1, total)) else []) := by
  have hall : ∀ w ∈ st.workers, w = WorkerState.done := by
    intro w hw
    have := List.all_eq_true.mp hdone w hw
    cases w <;> simp [WorkerState.isDone] at this ⊢
  have hjobs : st.jobs = [] := by
    apply h.jobs_done
    cases hws : st.workers with
    | nil =>
      have := h.workers_length
      rw [hws] at this
      simp only [List.length_nil] at this
      omega
    | cons a r =>
      have := hall a (by rw [hws]; exact List.mem_cons_self _ _)
      rw [this]
      exact List.mem_cons_self _ _
  have h1 := h.entries_eq
  have h2 := h.records_eq
  simp only [entriesOf, inFlightSum] at h1
  simp only [recordsOf, pendingSum] at h2
  rw [sum_map_eq_zero _ _ (fun w hw => by rw [hall w hw]; rfl), hjobs] at h1
  rw [sum_map_eq_zero _ _ (fun w hw => by rw [hall w hw]; rfl), hjobs] at h2
  simp only [add_zero, Multiset.coe_nil, List.filterMap_nil, Multiset.coe_eq_coe] at h1 h2
  have hcount : st.processedCount = entries.length := by
    rw [h.count_eq, h1.length_eq]
  refine ⟨h1, h2, hcount, ?_⟩
  rw [h.calls_eq, hcount]

theorem runPool_append (lib : RegexpLib) (fs : FileSystem) (fc : FileCollector)
    (progressCallback : Bool) (total : Nat) : ∀ (a b : List Nat) (st : PoolState),
    runPool lib fs fc progressCallback total (a ++ b) st =
      (runPool lib fs fc progressCallback total a st).bind
        (runPool lib fs fc progressCallback total b) := by
  intro a
  induction a with
  | nil => intro b st; rfl
  | cons w r ih =>
    intro b st
    simp only [List.cons_append, runPool]
    cases workerStep lib fs fc progressCallback total w st with
    | none => rfl
    | some st1 => exact ih b st1

theorem serial_jobs (lib : RegexpLib) (fs : FileSystem) (fc : FileCollector)
    (progressCallback : Bool) (total : Nat) (k : Nat) :
    ∀ (jobs : List FileEntry) (st : PoolState),
      st.workers = WorkerState.idle :: List.replicate k .idle → st.jobs = jobs →
      ∃ st', runPool lib fs fc progressCallback total
          (jobs.flatMap (fun entry =>
            match successRecord lib fs fc entry with
            | some _ => [0, 0, 0]
            | none => [0, 0])) st = some st' ∧
        st'.workers = WorkerState.idle :: List.replicate k .idle ∧ st'.jobs = [] := by
  intro jobs
  induction jobs with
  | nil =>
    intro st hw hj
    exact ⟨st, rfl, hw, hj⟩
  | cons entry rest ih =>
    intro st hw hj
    rw [List.flatMap_cons, runPool_append]
    cases hpf : processFile lib fs fc entry with
    | error e =>
      have hs : successRecord lib fs fc entry = none := by simp [successRecord, hpf]
      simp only [hs, runPool, workerStep, hw, hj, hpf, List.getElem?_cons_zero,
        List.set_cons_zero, reportProgress, Option.some_bind]
      exact ih _ rfl rfl
    | ok o =>
      cases o with
      | none =>
        have hs : successRecord lib fs fc entry = none := by simp [successRecord, hpf]
        simp only [hs, runPool, workerStep, hw, hj, hpf, List.getElem?_cons_zero,
          List.set_cons_zero, reportProgress, Option.some_bind]
        exact ih _ rfl rfl
      | some processed =>
        have hs : successRecord lib fs fc entry = some processed := by
          simp [successRecord, hpf]
        simp only [hs, runPool, workerStep, hw, hj, hpf, List.getElem?_cons_zero,
          List.set_cons_zero, reportProgress, Option.some_bind]
        exact ih _ rfl rfl

theorem serial_done (lib : RegexpLib) (fs : FileSystem) (fc : FileCollector)
    (progressCallback : Bool) (total : Nat) :
    ∀ (k : Nat) (ds : List WorkerState) (st : PoolState),
      st.jobs = [] → st.workers = ds ++ List.replicate k .idle →
      (∀ d ∈ ds, d = WorkerState.done) →
      ∃ st', runPool lib fs fc progressCallback total
          ((List.range k).map (fun i => i + ds.length)) st = some st' ∧
        st'.workers.all WorkerState.isDone = true := by
  intro k
  induction k with
  | zero =>
    intro ds st _ hw hds
    refine ⟨st, rfl, ?_⟩
    rw [hw, List.all_eq_true]
    intro w hwm
    simp only [List.replicate_zero, List.append_nil] at hwm
    rw [hds w hwm]
    rfl
  | succ k ih =>
    intro ds st hj hw hds
    rw [List.range_succ_eq_map, List.map_cons, List.map_map]
    have hget : st.workers[0 + ds.length]? = some WorkerState.idle := by
      rw [hw, Nat.zero_add, List.getElem?_append_right (Nat.le_refl _)]
      simp [List.replicate_succ]
    simp only [runPool, workerStep, hget, hj]
    have hset : st.workers.set (0 + ds.length) WorkerState.done =
        (ds ++ [WorkerState.done]) ++ List.replicate k .idle := by
      rw [hw, Nat.zero_add, List.set_append_right _ _ (Nat.le_refl _)]
      simp [List.replicate_succ]
    have hsched : List.map ((fun i => i + ds.length) ∘ Nat.succ) (List.range k) =
        List.map (fun i => i + (ds ++ [WorkerState.done]).length) (List.range k) := by
      apply List.map_congr_left
      intro i _
      simp only [Function.comp, List.length_append, List.length_singleton]
      omega
    rw [hsched]
    exact ih (ds ++ [WorkerState.done])
      { st with jobs := [], workers := st.workers.set (0 + ds.length) WorkerState.done }
      rfl hset
      (by
        intro d hd
        rcases List.mem_append.mp hd with h | h
        · exact hds d h
        · simpa using h)

theorem serial_complete (lib : RegexpLib) (fs : FileSystem) (fc : FileCollector)
    (progressCallback : Bool) (total : Nat) (entries : List FileEntry) (numWorkers : Nat)
    (hpos : 0 < numWorkers) :
    ∃ st', runPool lib fs fc progressCallback total
        (serialSchedule lib fs fc entries numWorkers)
        { jobs := entries
          workers := List.replicate numWorkers .idle
          allProcessedFiles := none
          processedCount := 0
          calls := []
          reported := [] } = some st' ∧
      st'.workers.all WorkerState.isDone = true := by
  obtain ⟨k, hk⟩ : ∃ k, numWorkers = k + 1 := ⟨numWorkers - 1, by omega⟩
  subst hk
  unfold serialSchedule
  rw [runPool_append]
  obtain ⟨st1, h1, hw1, hj1⟩ := serial_jobs lib fs fc progressCallback total k entries
    { jobs := entries
      workers := List.replicate (k + 1) .idle
      allProcessedFiles := none
      processedCount := 0
      calls := []
      reported := [] } (by simp [List.replicate_succ]) rfl
  rw [h1, Option.some_bind]
  have := serial_done lib fs fc progressCallback total (k + 1) [] st1 hj1
    (by rw [hw1]; simp [List.replicate_succ]) (by simp)
  simpa using this


theorem writeOutput_fields (fc : FileCollector) (host : Host) (outputData : OutputJSON)
    (calls : List (Nat × Nat)) (reported : List FileEntry) :
    (writeOutput fc host outputData calls reported).calls = calls ∧
      (writeOutput fc host outputData calls reported).reported = reported := by
  unfold writeOutput
  simp only
  split <;> exact ⟨rfl, rfl⟩

theorem writeOutput_ok (fc : FileCollector) (host : Host) (outputData : OutputJSON)
    (calls : List (Nat × Nat)) (reported : List FileEntry)
    (hw : host.WriteFile fc.Config.Output (MarshalIndent outputData) = none) :
    writeOutput fc host outputData calls reported =
      { count := lenSlice outputData.ProjectFiles
        size := FormatSize (utf8Len (MarshalIndent outputData))
        err := none
        calls := calls
        reported := reported
        written := some (fc.Config.Output, MarshalIndent outputData) } := by
  unfold writeOutput
  simp only [hw]

theorem Run_spec (lib : RegexpLib) (fs : FileSystem) (fc : FileCollector) (ord : MapOrder)
    (host : Host) (sched : List Nat) (progressCallback : Bool) (files : List FileEntry)
    (r : RunResult) (hscan : PreviewFiles fc fs ord = some (.ok files))
    (hrun : Run lib fs fc ord host sched progressCallback = some r) :
    ∃ (records : Option (List ProcessedFile)) (calls : List (Nat × Nat))
      (reported : List FileEntry),
      r = writeOutput fc host { ProjectFiles := records } calls reported ∧
      calls = (if progressCallback then
        (if files.length = 0 then [(0, 0)]
          else progressCalls files.length ++ [(files.length, files.length)])
        else []) ∧
      reported.Perm files ∧
      (records.getD []).Perm (files.filterMap (successRecord lib fs fc)) ∧
      (files.length = 0 → records = some []) ∧ (files.length ≠ 0 → records ≠ some []) := by
  unfold Run at hrun
  rw [hscan] at hrun
  simp only at hrun
  by_cases hn : files.length = 0
  · rw [if_pos hn] at hrun
    simp only [Option.some.injEq] at hrun
    have hnil : files = [] := List.length_eq_zero.mp hn
    subst hnil
    refine ⟨some [], _, [], hrun.symm, ?_, List.Perm.refl _, List.Perm.refl _,
      fun _ => rfl, fun h => absurd rfl h⟩
    cases progressCallback <;> rfl
  · rw [if_neg hn] at hrun
    cases hp : runPool lib fs fc progressCallback files.length sched
        { jobs := files
          workers := List.replicate (min host.NumCPU files.length) .idle
          allProcessedFiles := none
          processedCount := 0
          calls := []
          reported := [] } with
    | none => rw [hp] at hrun; exact absurd hrun (by simp)
    | some st =>
      rw [hp] at hrun
      simp only at hrun
      by_cases hdone : st.workers.all WorkerState.isDone = true
      · rw [if_pos hdone] at hrun
        simp only [Option.some.injEq] at hrun
        have hinv := runPool_inv lib fs fc progressCallback files.length files
          (min host.NumCPU files.length) sched _ st
          (start_inv lib fs fc progressCallback files.length files _) hp
        have hpos : 0 < min host.NumCPU files.length :=
          Nat.lt_min.mpr ⟨host.NumCPU_pos, Nat.pos_of_ne_zero hn⟩
        obtain ⟨h1, h2, _, h4⟩ := pool_complete lib fs fc progressCallback files.length files
          _ st hinv hpos hdone
        refine ⟨st.allProcessedFiles, _, st.reported, hrun.symm, ?_, h1, h2,
          fun h => absurd h hn, fun _ => hinv.records_ne⟩
        rw [h4]
        cases progressCallback with
        | false => rfl
        | true => simp only [if_true, if_neg hn, progressCalls]
      · rw [if_neg hdone] at hrun
        exact absurd hrun (by simp)

theorem Run_exists (lib : RegexpLib) (fs : FileSystem) (fc : FileCollector) (ord : MapOrder)
    (host : Host) (progressCallback : Bool) (files : List FileEntry)
    (hscan : PreviewFiles fc fs ord = some (.ok files)) :
    ∃ r, Run lib fs fc ord host
      (serialSchedule lib fs fc files (min host.NumCPU files.length)) progressCallback =
        some r := by
  unfold Run
  rw [hscan]
  simp only
  by_cases hn : files.length = 0
  · rw [if_pos hn]
    exact ⟨_, rfl⟩
  · rw [if_neg hn]
    have hpos : 0 < min host.NumCPU files.length :=
      Nat.lt_min.mpr ⟨host.NumCPU_pos, Nat.pos_of_ne_zero hn⟩
    obtain ⟨st, hst, hdone⟩ := serial_complete lib fs fc progressCallback files.length files
      _ hpos
    simp only [hst, hdone, if_true]
    exact ⟨_, rfl⟩

theorem successRecord_isSome (lib : RegexpLib) (fs : FileSystem) (fc : FileCollector)
    (entry : FileEntry)
    (hmode : entry.Mode = "path".toList ∨ entry.Mode = "content".toList ∨
      entry.Mode = "both".toList) :
    (successRecord lib fs fc entry).isSome = !failsToRead fs entry := by
  unfold successRecord failsToRead unreadable processFile
  simp only [ApplyContentExclusions_eq_foldl]
  rcases hmode with hm | hm | hm
  · rw [hm]
    simp [finishRecord, GoMap.set]
  · rw [hm]
    cases ReadFile fs entry.SourcePath <;> simp [finishRecord, GoMap.set]
  · rw [hm]
    cases ReadFile fs entry.SourcePath <;> simp [finishRecord, GoMap.set]

theorem length_filterMap_add_filter {α β : Type} (f : α → Option β) (p : α → Bool) :
    ∀ (l : List α), (∀ a ∈ l, (f a).isSome = !p a) →
      (l.filterMap f).length + (l.filter p).length = l.length := by
  intro l
  induction l with
  | nil => intro _; rfl
  | cons a r ih =>
    intro h
    have ha := h a (List.mem_cons_self _ _)
    have hr := ih (fun b hb => h b (List.mem_cons_of_mem _ hb))
    cases hf : f a with
    | none =>
      rw [hf] at ha
      have hp : p a = true := by simpa using ha
      simp only [List.filterMap_cons, hf, List.filter_cons, hp, if_true, List.length_cons]
      omega
    | some b =>
      rw [hf] at ha
      have hp : p a = false := by simpa using ha
      simp only [List.filterMap_cons, hf, List.filter_cons, hp, List.length_cons]
      simp only [Bool.false_eq_true, if_false]
      omega


/-! ## The records and the run -/

/-- C21, as the code has it: in a record that `processFile` returns, the key `content`
is present exactly when the mode of the entry requests content (`content` or `both`),
and its value is then the transformed, normalised content of the file, empty or not. -/
theorem processFile_content_key (lib : RegexpLib) (fs : FileSystem) (fc : FileCollector)
    (entry : FileEntry) (record : ProcessedFile)
    (h : processFile lib fs fc entry = .ok (some record)) :
    ((GoMap.get? record "content".toList).isSome = true ↔
        (entry.Mode = "content".toList ∨ entry.Mode = "both".toList)) ∧
      (∀ content, ReadFile fs entry.SourcePath = .ok content →
        (entry.Mode = "content".toList ∨ entry.Mode = "both".toList) →
        GoMap.get? record "content".toList =
          some (normalizeContent (ApplyContentExclusions lib fc content entry.Format).1)) := by
  by_cases hm : entry.Mode = "content".toList ∨ entry.Mode = "both".toList
  · have hkey : ∃ v, GoMap.get? record "content".toList = some v := by
      unfold processFile at h
      simp only at h
      rw [if_pos hm] at h
      cases hr : ReadFile fs entry.SourcePath with
      | error e => rw [hr] at h; exact absurd h (by simp)
      | ok contentBytes =>
        rw [hr] at h
        simp only [ApplyContentExclusions_eq_foldl] at h
        have hrec := finishRecord_eq_some _ _ h
        subst hrec
        rw [GoMap.get?_set]
        exact ⟨_, if_pos rfl⟩
    obtain ⟨v, hv⟩ := hkey
    refine ⟨⟨fun _ => hm, fun _ => by rw [hv]; rfl⟩, ?_⟩
    intro content hread _
    rw [hv, processFile_content_eq lib fs fc entry content record v hread h hv]
  · refine ⟨⟨fun hs => ?_, fun hc => absurd hc hm⟩, fun _ _ hc => absurd hc hm⟩
    exfalso
    unfold processFile at h
    simp only at h
    rw [if_neg hm] at h
    have hrec := finishRecord_eq_some _ _ h
    subst hrec
    split at hs
    · rw [GoMap.get?_set] at hs
      have : ¬ ("path".toList = "content".toList) := by decide
      rw [if_neg this] at hs
      simp [GoMap.get?] at hs
    · simp [GoMap.get?] at hs

/-- Witness for C21: for `src/main.go` in mode `both` the record has the key `content`
with the normalised content. -/
theorem processFile_content_key_witness :
    processFile literalLib sampleFs (plainCollector dedupConfig) mainGoEntry =
        .ok (some [("content".toList, "package main func main() {}".toList),
                   ("path".toList, "proj/src/main.go".toList)]) ∧
      ((GoMap.get? [("content".toList, "package main func main() {}".toList),
                    ("path".toList, "proj/src/main.go".toList)] "content".toList).isSome = true ↔
        (mainGoEntry.Mode = "content".toList ∨ mainGoEntry.Mode = "both".toList)) :=
  ⟨by decide,
    (processFile_content_key literalLib sampleFs (plainCollector dedupConfig) mainGoEntry
      [("content".toList, "package main func main() {}".toList),
       ("path".toList, "proj/src/main.go".toList)] (by decide)).1⟩

/-- Counterexample to C21 as stated: the file `blank.go` holds white space only, so that
its normalised content is empty.  In mode `content` the record that `processFile`
returns for it still has the key `content`, with the empty string, and `Run` writes that
record and counts it. -/
theorem processFile_empty_content_counterexample :
    normalizeContent " \n\t ".toList = [] ∧
      processFile literalLib edgeFs (includeCollector ["blank.go:content".toList])
        (edgeEntry "blank.go".toList "content".toList 4) =
          .ok (some [("content".toList, [])]) ∧
      Run literalLib edgeFs (includeCollector ["blank.go:content".toList]) storedOrder
        sampleHost [0, 0, 0, 0] true =
          some { count := 1
                 size := "60 B".toList
                 err := none
                 calls := [(1, 1), (1, 1)]
                 reported := [edgeEntry "blank.go".toList "content".toList 4]
                 written := some ("out.json".toList,
                   ("\x7b\n  \"project_files\": [\n    \x7b\n      \"content\": \"\"\n" ++
                    "    \x7d\n  ]\n\x7d").toList) } := by
  refine ⟨by decide, by decide, by decide⟩

/-- C22: when the scan discovers no file and the output file can be written, `Run`
calls the progress callback once, with `(0, 0)`, writes the document whose
`project_files` value is the empty array, and returns the count 0 and a nil error. -/
theorem Run_no_files (lib : RegexpLib) (fs : FileSystem) (fc : FileCollector) (ord : MapOrder)
    (host : Host) (sched : List Nat)
    (hscan : PreviewFiles fc fs ord = some (.ok []))
    (hw : host.WriteFile fc.Config.Output (MarshalIndent { ProjectFiles := some [] }) = none) :
    outputJson { ProjectFiles := some [] } = .obj [("project_files".toList, .arr [])] ∧
      Run lib fs fc ord host sched true =
        some { count := 0
               size := "25 B".toList
               err := none
               calls := [(0, 0)]
               reported := []
               written := some (fc.Config.Output,
                 "\x7b\n  \"project_files\": []\n\x7d".toList) } := by
  refine ⟨rfl, ?_⟩
  unfold Run
  rw [hscan]
  simp only [List.length_nil, if_true]
  rw [writeOutput_ok fc host _ _ _ hw]
  rfl

/-- Witness for C22: the only include target is missing, so the scan of `sampleFs`
discovers no file. -/
theorem Run_no_files_witness :
    PreviewFiles (includeCollector ["missing".toList]) sampleFs storedOrder = some (.ok []) ∧
      Run literalLib sampleFs (includeCollector ["missing".toList]) storedOrder sampleHost []
        true =
        some { count := 0
               size := "25 B".toList
               err := none
               calls := [(0, 0)]
               reported := []
               written := some ("out.json".toList,
                 "\x7b\n  \"project_files\": []\n\x7d".toList) } :=
  ⟨by decide,
    (Run_no_files literalLib sampleFs (includeCollector ["missing".toList]) storedOrder
      sampleHost [] (by decide) rfl).2⟩

/-- C23: when every discovered file fails to be processed, the `project_files` value of
the written document is `null`, not an array.  The scan discovers the one file
`secret.go`, whose content is requested and cannot be read; `Run` returns the count 0
and a nil error and writes the document with `null`: the slice of records, to which
nothing was appended, is nil. -/
theorem Run_all_fail_null :
    PreviewFiles (includeCollector ["secret.go:content".toList]) edgeFs storedOrder =
        some (.ok [edgeEntry "secret.go".toList "content".toList 14]) ∧
      processFile literalLib edgeFs (includeCollector ["secret.go:content".toList])
        (edgeEntry "secret.go".toList "content".toList 14) = .error .EACCES ∧
      outputJson { ProjectFiles := none } = .obj [("project_files".toList, .null)] ∧
      Run literalLib edgeFs (includeCollector ["secret.go:content".toList]) storedOrder
        sampleHost [0, 0, 0] true =
          some { count := 0
                 size := "27 B".toList
                 err := none
                 calls := [(1, 1), (1, 1)]
                 reported := [edgeEntry "secret.go".toList "content".toList 14]
                 written := some ("out.json".toList,
                   "\x7b\n  \"project_files\": null\n\x7d".toList) } := by
  refine ⟨by decide, by decide, rfl, by decide⟩

/-- C24, as the code has it: a file failure does not abort the run and removes that
file's record.  When the scan discovers the entries `files` and the output file can be
written, `Run` returns for some schedule, and for every schedule for which it returns
the error is nil, the count is the number of records in the written document, these
records are the records of the entries that `processFile` succeeds on, and the count is
the number of entries less the number of those whose content is requested and cannot be
read. -/
theorem Run_count (lib : RegexpLib) (fs : FileSystem) (fc : FileCollector) (ord : MapOrder)
    (host : Host) (progressCallback : Bool) (files : List FileEntry)
    (hscan : PreviewFiles fc fs ord = some (.ok files))
    (hw : ∀ data, host.WriteFile fc.Config.Output data = none) :
    (∃ sched r, Run lib fs fc ord host sched progressCallback = some r) ∧
      ∀ sched r, Run lib fs fc ord host sched progressCallback = some r →
        r.err = none ∧
        (∃ records, r.written =
            some (fc.Config.Output, MarshalIndent { ProjectFiles := records }) ∧
          r.count = lenSlice records ∧
          (records.getD []).Perm (files.filterMap (successRecord lib fs fc))) ∧
        r.count = files.length - (files.filter (failsToRead fs)).length := by
  refine ⟨⟨_, Run_exists lib fs fc ord host progressCallback files hscan⟩, ?_⟩
  intro sched r hrun
  obtain ⟨records, calls, reported, hr, _, _, hrec, _, _⟩ :=
    Run_spec lib fs fc ord host sched progressCallback files r hscan hrun
  rw [writeOutput_ok fc host _ _ _ (hw _)] at hr
  subst hr
  refine ⟨rfl, ⟨records, rfl, rfl, hrec⟩, ?_⟩
  have hlen := length_filterMap_add_filter (successRecord lib fs fc) (failsToRead fs) files
    (fun e he => successRecord_isSome lib fs fc e (PreviewFiles_modes fc fs ord files hscan e he))
  have : lenSlice records = (files.filterMap (successRecord lib fs fc)).length := hrec.length_eq
  simp only [this]
  omega

/-- Witness for C24: of the three entries discovered in `edgeFs` one requests the content
of a file that cannot be read.  For a schedule in which the two workers interleave `Run`
returns the count 2 and a nil error, and for every schedule the count is 3 less 1. -/
theorem Run_count_witness :
    PreviewFiles (includeCollector edgeIncludes) edgeFs storedOrder = some (.ok edgeEntries) ∧
      (Run literalLib edgeFs (includeCollector edgeIncludes) storedOrder sampleHost
        interleavedSchedule true).map (fun r => (r.count, r.err)) = some (2, none) ∧
      (edgeEntries.filter (failsToRead edgeFs)).length = 1 ∧
      ∀ sched r, Run literalLib edgeFs (includeCollector edgeIncludes) storedOrder sampleHost
          sched true = some r →
        r.count = edgeEntries.length - (edgeEntries.filter (failsToRead edgeFs)).length :=
  ⟨by decide, by decide, by decide, fun sched r h =>
    ((Run_count literalLib edgeFs (includeCollector edgeIncludes) storedOrder sampleHost true
      edgeEntries (by decide) (fun _ => rfl)).2 sched r h).2.2⟩

/-- Counterexample to C24 as stated: the one discovered file `secret.go` cannot be read,
but its entry is in mode `path`, for which `processFile` does not read the file: `Run`
returns the count 1 and writes one record, where `n - k` is 0. -/
theorem Run_unreadable_path_mode_counterexample :
    PreviewFiles (includeCollector ["secret.go:path".toList]) edgeFs storedOrder =
        some (.ok [edgeEntry "secret.go".toList "path".toList 14]) ∧
      unreadable edgeFs (edgeEntry "secret.go".toList "path".toList 14) = true ∧
      Run literalLib edgeFs (includeCollector ["secret.go:path".toList]) storedOrder
        sampleHost [0, 0, 0, 0] true =
          some { count := 1
                 size := "71 B".toList
                 err := none
                 calls := [(1, 1), (1, 1)]
                 reported := [edgeEntry "secret.go".toList "path".toList 14]
                 written := some ("out.json".toList,
                   ("\x7b\n  \"project_files\": [\n    \x7b\n" ++
                    "      \"path\": \"proj/secret.go\"\n    \x7d\n  ]\n\x7d").toList) } := by
  refine ⟨by decide, by decide, by decide⟩

theorem progressCalls_props (n : Nat) :
    (∀ c ∈ progressCalls n ++ [(n, n)], c.2 = n ∧ c.1 ≤ n) ∧
      List.Chain' (fun a b : Nat × Nat => a.1 ≤ b.1) (progressCalls n ++ [(n, n)]) ∧
      (progressCalls n ++ [(n, n)]).getLast? = some (n, n) ∧
      (progressCalls n).length = n := by
  have hmem : ∀ c ∈ progressCalls n, c.2 = n ∧ c.1 ≤ n := by
    intro c hc
    unfold progressCalls at hc
    obtain ⟨i, hi, rfl⟩ := List.mem_map.mp hc
    exact ⟨rfl, by have := List.mem_range.mp hi; omega⟩
  refine ⟨?_, ?_, by simp, by simp [progressCalls]⟩
  · intro c hc
    rcases List.mem_append.mp hc with h | h
    · exact hmem c h
    · simp only [List.mem_singleton] at h
      subst h
      exact ⟨rfl, Nat.le_refl _⟩
  · apply List.Pairwise.chain'
    rw [List.pairwise_append]
    refine ⟨?_, List.pairwise_singleton _ _, ?_⟩
    · unfold progressCalls
      rw [List.pairwise_map]
      exact List.Pairwise.imp (fun h => by simp only; omega) (List.pairwise_lt_range n)
    · intro a ha b hb
      simp only [List.mem_singleton] at hb
      subst hb
      exact (hmem a ha).2

/-- C25: for a run over `n > 0` discovered files with a progress callback, `Run` returns
for some schedule, and for every schedule for which it returns, the calls of the
callback are `(1, n)`, `(2, n)`, ..., `(n, n)`, made by the workers, one for each file
as it is counted, followed by a last `(n, n)`.  So every call has total `n`, `current`
never decreases from one call to the next and never exceeds `n`, the files counted are
the discovered files, each once, and the last call has `current = total = n`. -/
theorem Run_progress (lib : RegexpLib) (fs : FileSystem) (fc : FileCollector) (ord : MapOrder)
    (host : Host) (files : List FileEntry)
    (hscan : PreviewFiles fc fs ord = some (.ok files)) (hn : 0 < files.length) :
    (∃ sched r, Run lib fs fc ord host sched true = some r) ∧
      ∀ sched r, Run lib fs fc ord host sched true = some r →
        r.calls = progressCalls files.length ++ [(files.length, files.length)] ∧
        (∀ c ∈ r.calls, c.2 = files.length ∧ c.1 ≤ files.length) ∧
        List.Chain' (fun a b : Nat × Nat => a.1 ≤ b.1) r.calls ∧
        r.reported.Perm files ∧ (progressCalls files.length).length = r.reported.length ∧
        r.calls.getLast? = some (files.length, files.length) := by
  refine ⟨⟨_, Run_exists lib fs fc ord host true files hscan⟩, ?_⟩
  intro sched r hrun
  obtain ⟨records, calls, reported, hr, hcalls, hperm, _, _, _⟩ :=
    Run_spec lib fs fc ord host sched true files r hscan hrun
  have hne : files.length ≠ 0 := by omega
  simp only [if_true, if_neg hne] at hcalls
  obtain ⟨hc, hrep⟩ := writeOutput_fields fc host { ProjectFiles := records } calls reported
  rw [← hr] at hc hrep
  rw [hc, hrep, hcalls]
  obtain ⟨p1, p2, p3, p4⟩ := progressCalls_props files.length
  exact ⟨rfl, p1, p2, hperm, by rw [p4, hperm.length_eq], p3⟩

/-- Witness for C25: under the interleaved schedule of two workers over the three
entries of `edgeFs`, of which the second fails, the calls are `(1, 3)`, `(2, 3)`,
`(3, 3)`, `(3, 3)`, and the files are counted in the order `secret.go`, `src/main.go`,
`blank.go`; for every schedule the calls are these and the files counted are the three
entries. -/
theorem Run_progress_witness :
    0 < edgeEntries.length ∧
      (Run literalLib edgeFs (includeCollector edgeIncludes) storedOrder sampleHost
        interleavedSchedule true).map (fun r => (r.calls, r.reported)) =
          some ([(1, 3), (2, 3), (3, 3), (3, 3)],
            [edgeEntry "secret.go".toList "content".toList 14, mainGoEntry,
             edgeEntry "blank.go".toList "both".toList 4]) ∧
      ∀ sched r, Run literalLib edgeFs (includeCollector edgeIncludes) storedOrder sampleHost
          sched true = some r →
        r.calls = progressCalls edgeEntries.length ++
            [(edgeEntries.length, edgeEntries.length)] ∧
          r.reported.Perm edgeEntries :=
  ⟨by decide, by decide, fun sched r h =>
    have hp := (Run_progress literalLib edgeFs (includeCollector edgeIncludes) storedOrder
      sampleHost edgeEntries (by decide) (by decide)).2 sched r h
    ⟨hp.1, hp.2.2.2.1⟩⟩


end Projectson
